import Mathlib

/-!
Indexed binary min-heap, Dijkstra and Prim (chapter11)

A shallow embedding of `src/chapter11/dijkstra.c` and `src/chapter11/prim.c`.

Conventions of the embedding

* A C array is a function from its index type to its cell type, together with
  the bound of the allocation; every read or write is preceded by the bounds
  check that C leaves to the programmer.  An out-of-bounds access is undefined
  behaviour and makes the operation return `none`.
* `int` values are mathematical integers; the one arithmetic expression that
  can leave the 32-bit range, `distance[current_vertex] + edge_weight`, is
  wrapped with `wrap32`.
* `while` loops and the recursion of `heap_sift_down` run on a fuel argument
  that is large enough for every state (`index + 1` for `heap_sift_up`,
  `size + 1` for `heap_sift_down`); the main loop of each engine takes its fuel
  as an argument, and running out of fuel yields `none`.
* A C function returning `bool` returns the flag together with the new state.
-/

set_option autoImplicit false

/-- The constant `INT_MAX` of a 32-bit `int`. -/
def INT_MAX : Int := 2147483647

/-- The macro `INF` of both programs (`#define INF INT_MAX`). -/
def INF : Int := INT_MAX

/-- Two's complement wrap-around of a mathematical integer to 32 bits. -/
def wrap32 (x : Int) : Int := (x + 2147483648) % 4294967296 - 2147483648

/-! ## `dijkstra.c` -/

namespace Dijkstra

/-- The struct `HeapNode` of `dijkstra.c`. -/
structure HeapNode where
  vertex : Int
  distance : Int
deriving DecidableEq, Repr

/-- The struct `MinHeap` of `dijkstra.c`: `data` and `pos` are arrays of
`capacity` cells. -/
structure MinHeap where
  data : Nat → HeapNode
  pos : Int → Int
  size : Nat
  capacity : Nat

/-- `heap_create`: `pos` is filled with `-1`; the cells of `data` are not
initialised by the program (no cell is read before `heap_push` has written it). -/
def heap_create (capacity : Nat) : MinHeap :=
  { data := fun _ => ⟨0, 0⟩, pos := fun _ => -1, size := 0, capacity := capacity }

/-- `heap_swap_nodes`: exchange `data[i]` and `data[j]`, then refresh `pos` of
the two vertices now stored there. -/
def heap_swap_nodes (heap : MinHeap) (i j : Nat) : Option MinHeap :=
  if i < heap.capacity ∧ j < heap.capacity then
    let temp := heap.data i
    let data1 := Function.update heap.data i (heap.data j)
    let data2 := Function.update data1 j temp
    let vi := (data2 i).vertex
    if 0 ≤ vi ∧ vi < heap.capacity then
      let pos1 := Function.update heap.pos vi (i : Int)
      let vj := (data2 j).vertex
      if 0 ≤ vj ∧ vj < heap.capacity then
        some { heap with data := data2, pos := Function.update pos1 vj (j : Int) }
      else none
    else none
  else none

/-- The `while` loop of `heap_sift_up`. -/
def sift_up_loop : Nat → MinHeap → Nat → Option MinHeap
  | 0, _, _ => none
  | fuel + 1, heap, index =>
    let parent := (index - 1) / 2
    if 0 < index then
      if index < heap.capacity then
        if (heap.data index).distance < (heap.data parent).distance then
          (heap_swap_nodes heap index parent).bind fun h => sift_up_loop fuel h parent
        else some heap
      else none
    else some heap

/-- `heap_sift_up`. -/
def heap_sift_up (heap : MinHeap) (index : Nat) : Option MinHeap :=
  sift_up_loop (index + 1) heap index

/-- The index `smallest` after one of the two `if` statements of
`heap_sift_down`: `child` replaces `smallest` when it is inside the heap and
has a smaller key. -/
def pick_smaller (heap : MinHeap) (child smallest : Nat) : Option Nat :=
  if child < heap.size then
    if child < heap.capacity ∧ smallest < heap.capacity then
      if (heap.data child).distance < (heap.data smallest).distance then some child
      else some smallest
    else none
  else some smallest

/-- The recursion of `heap_sift_down`. -/
def sift_down_rec : Nat → MinHeap → Nat → Option MinHeap
  | 0, _, _ => none
  | fuel + 1, heap, index =>
    (pick_smaller heap (2 * index + 1) index).bind fun s1 =>
    (pick_smaller heap (2 * index + 2) s1).bind fun smallest =>
    if smallest ≠ index then
      (heap_swap_nodes heap index smallest).bind fun h => sift_down_rec fuel h smallest
    else some heap

/-- `heap_sift_down`. -/
def heap_sift_down (heap : MinHeap) (index : Nat) : Option MinHeap :=
  sift_down_rec (heap.size + 1) heap index

/-- `heap_push`. -/
def heap_push (heap : MinHeap) (vertex distance : Int) : Option (Bool × MinHeap) :=
  if heap.size ≥ heap.capacity then some (false, heap)
  else if 0 ≤ vertex ∧ vertex < heap.capacity then
    let h1 : MinHeap :=
      { heap with
        data := Function.update heap.data heap.size ⟨vertex, distance⟩
        pos := Function.update heap.pos vertex (heap.size : Int)
        size := heap.size + 1 }
    (heap_sift_up h1 (h1.size - 1)).map fun h => (true, h)
  else none

/-- `heap_pop`: the first component is `none` when the function returns
`false` (the two output parameters are then not assigned). -/
def heap_pop (heap : MinHeap) : Option (Option (Int × Int) × MinHeap) :=
  if heap.size = 0 then some (none, heap)
  else if heap.size - 1 < heap.capacity then
    let vertex := (heap.data 0).vertex
    let distance := (heap.data 0).distance
    let data1 := Function.update heap.data 0 (heap.data (heap.size - 1))
    let v0 := (data1 0).vertex
    if 0 ≤ v0 ∧ v0 < heap.capacity then
      let h1 : MinHeap :=
        { heap with data := data1, pos := Function.update heap.pos v0 0, size := heap.size - 1 }
      (heap_sift_down h1 0).map fun h => (some (vertex, distance), h)
    else none
  else none

/-- `heap_decrease_key`. -/
def heap_decrease_key (heap : MinHeap) (vertex new_distance : Int) : Option (Bool × MinHeap) :=
  if 0 ≤ vertex ∧ vertex < heap.capacity then
    let index := heap.pos vertex
    if index ≥ heap.size then some (false, heap)
    else if 0 ≤ index ∧ index < heap.capacity then
      let h1 : MinHeap :=
        { heap with
          data := Function.update heap.data index.toNat
            { heap.data index.toNat with distance := new_distance } }
      (heap_sift_up h1 index.toNat).map fun h => (true, h)
    else none
  else none

/-- `heap_is_empty`. -/
def heap_is_empty (heap : MinHeap) : Bool := heap.size == 0

/-- `heap_contains`. -/
def heap_contains (heap : MinHeap) (vertex : Int) : Option Bool :=
  if 0 ≤ vertex ∧ vertex < heap.capacity then
    let position := heap.pos vertex
    some (decide (position ≥ 0 ∧ position < heap.size))
  else none

/-- The struct `AdjNode` (field `to` is written `to_`); the `next` pointer is
the tail of the list. -/
structure AdjNode where
  to_ : Int
  weight : Int
deriving DecidableEq, Repr

/-- The struct `Graph`: `array` has `num_vertices` cells, each the head of an
adjacency list. -/
structure Graph where
  num_vertices : Nat
  array : Int → List AdjNode

/-- `graph_create` (`calloc` gives empty lists). -/
def graph_create (num_vertices : Nat) : Graph :=
  { num_vertices := num_vertices, array := fun _ => [] }

/-- `graph_add_edge`: the new node becomes the head of the list of `src`. -/
def graph_add_edge (graph : Graph) (src to_ weight : Int) : Option Graph :=
  if 0 ≤ src ∧ src < graph.num_vertices then
    some { graph with array := Function.update graph.array src (⟨to_, weight⟩ :: graph.array src) }
  else none

/-- `graph_add_undirected_edge`. -/
def graph_add_undirected_edge (graph : Graph) (vertex1 vertex2 weight : Int) : Option Graph :=
  (graph_add_edge graph vertex1 vertex2 weight).bind fun g =>
    graph_add_edge g vertex2 vertex1 weight

/-- What a run of `dijkstra_shortest_path` does, in order.  `settled` and
`updated` are the two trace lines the program prints; the other events record
steps the program does not print. -/
inductive Event where
  | extracted (vertex distance : Int)
  | skipped (vertex : Int)
  | settled (vertex distance : Int)
  | evaluated (current adjacent exact_sum : Int)
  | updated (adjacent new_distance current : Int) (pushed result : Bool)
deriving DecidableEq, Repr

/-- The local variables of `dijkstra_shortest_path`, with the events so far. -/
structure DState where
  visited : Int → Bool
  distance : Int → Int
  parent : Int → Int
  heap : MinHeap
  events : List Event

/-- The body of the inner `while (neighbor)` loop for one adjacency node. -/
def relax_edge (num_vertices : Nat) (current_vertex : Int) (neighbor : AdjNode)
    (st : DState) : Option DState :=
  let adjacent_vertex := neighbor.to_
  let edge_weight := neighbor.weight
  if 0 ≤ adjacent_vertex ∧ adjacent_vertex < num_vertices then
    if st.visited adjacent_vertex then some st
    else
      let new_distance := wrap32 (st.distance current_vertex + edge_weight)
      let ev := Event.evaluated current_vertex adjacent_vertex
        (st.distance current_vertex + edge_weight)
      if new_distance < st.distance adjacent_vertex then
        let distance1 := Function.update st.distance adjacent_vertex new_distance
        let parent1 := Function.update st.parent adjacent_vertex current_vertex
        (heap_contains st.heap adjacent_vertex).bind fun present =>
          if present then
            (heap_decrease_key st.heap adjacent_vertex new_distance).map fun r =>
              { st with
                distance := distance1, parent := parent1, heap := r.2
                events := st.events ++
                  [ev, Event.updated adjacent_vertex new_distance current_vertex false r.1] }
          else
            (heap_push st.heap adjacent_vertex new_distance).map fun r =>
              { st with
                distance := distance1, parent := parent1, heap := r.2
                events := st.events ++
                  [ev, Event.updated adjacent_vertex new_distance current_vertex true r.1] }
      else some { st with events := st.events ++ [ev] }
  else none

/-- The inner `while (neighbor)` loop over one adjacency list. -/
def relax_neighbors (num_vertices : Nat) (current_vertex : Int) :
    List AdjNode → DState → Option DState
  | [], st => some st
  | neighbor :: next, st =>
    (relax_edge num_vertices current_vertex neighbor st).bind fun st1 =>
      relax_neighbors num_vertices current_vertex next st1

/-- The main loop `while (!heap_is_empty(heap))` of `dijkstra_shortest_path`. -/
def dijkstra_loop (graph : Graph) : Nat → DState → Option DState
  | 0, _ => none
  | fuel + 1, st =>
    if heap_is_empty st.heap then some st
    else
      (heap_pop st.heap).bind fun r =>
        match r with
        | (none, _) => none
        | (some (current_vertex, current_distance), heap1) =>
          if 0 ≤ current_vertex ∧ current_vertex < graph.num_vertices then
            if st.visited current_vertex then
              dijkstra_loop graph fuel
                { st with
                  heap := heap1
                  events := st.events ++
                    [Event.extracted current_vertex current_distance,
                     Event.skipped current_vertex] }
            else
              let st1 : DState :=
                { st with
                  heap := heap1
                  visited := Function.update st.visited current_vertex true
                  events := st.events ++
                    [Event.extracted current_vertex current_distance,
                     Event.settled current_vertex current_distance] }
              (relax_neighbors graph.num_vertices current_vertex
                (graph.array current_vertex) st1).bind fun st2 =>
                dijkstra_loop graph fuel st2
          else none

/-- The state of `dijkstra_shortest_path` when the main loop is entered. -/
def dijkstra_init (graph : Graph) (start : Int) : Option DState :=
  if 0 ≤ start ∧ start < graph.num_vertices then
    (heap_push (heap_create graph.num_vertices) start 0).map fun r =>
      { visited := fun _ => false
        distance := Function.update (fun _ => INF) start 0
        parent := Function.update (fun _ => -1) start start
        heap := r.2
        events := [] }
  else none

/-- `dijkstra_shortest_path` up to the end of its main loop: the arrays
`distance` and `parent` that the result section prints are those of the
returned state. -/
def dijkstra_shortest_path (fuel : Nat) (graph : Graph) (start : Int) : Option DState :=
  (dijkstra_init graph start).bind fun st => dijkstra_loop graph fuel st

/-- `print_path_recursive`: the vertices printed, in order.  The recursion of
the program has no bound of its own; `fuel` bounds its depth here. -/
def print_path_recursive (num_vertices : Nat) (parent : Int → Int) :
    Nat → Int → Option (List Int)
  | 0, _ => none
  | fuel + 1, vertex =>
    if 0 ≤ vertex ∧ vertex < num_vertices then
      if parent vertex = vertex then some [vertex]
      else
        (print_path_recursive num_vertices parent fuel (parent vertex)).map fun l =>
          l ++ [vertex]
    else none

end Dijkstra

/-! ## `prim.c` -/

namespace Prim

/-- The struct `HeapNode` of `prim.c`. -/
structure HeapNode where
  vertex : Int
  weight : Int
deriving DecidableEq, Repr

/-- The struct `MinHeap` of `prim.c`. -/
structure MinHeap where
  data : Nat → HeapNode
  pos : Int → Int
  size : Nat
  capacity : Nat

/-- `heap_create` of `prim.c`: neither `data` nor `pos` is initialised, so the
contents that `malloc` hands out are arguments of the model. -/
def heap_create (capacity : Nat) (raw_data : Nat → HeapNode) (raw_pos : Int → Int) : MinHeap :=
  { data := raw_data, pos := raw_pos, size := 0, capacity := capacity }

/-- `heap_swap_nodes` of `prim.c`. -/
def heap_swap_nodes (h : MinHeap) (i j : Nat) : Option MinHeap :=
  if i < h.capacity ∧ j < h.capacity then
    let temp := h.data i
    let data1 := Function.update h.data i (h.data j)
    let data2 := Function.update data1 j temp
    let vi := (data2 i).vertex
    if 0 ≤ vi ∧ vi < h.capacity then
      let pos1 := Function.update h.pos vi (i : Int)
      let vj := (data2 j).vertex
      if 0 ≤ vj ∧ vj < h.capacity then
        some { h with data := data2, pos := Function.update pos1 vj (j : Int) }
      else none
    else none
  else none

/-- The `while` loop of `heap_sift_up` of `prim.c`. -/
def sift_up_loop : Nat → MinHeap → Nat → Option MinHeap
  | 0, _, _ => none
  | fuel + 1, h, idx =>
    let parent := (idx - 1) / 2
    if 0 < idx then
      if idx < h.capacity then
        if (h.data idx).weight < (h.data parent).weight then
          (heap_swap_nodes h idx parent).bind fun h1 => sift_up_loop fuel h1 parent
        else some h
      else none
    else some h

/-- `heap_sift_up` of `prim.c`. -/
def heap_sift_up (h : MinHeap) (idx : Nat) : Option MinHeap :=
  sift_up_loop (idx + 1) h idx

/-- One of the two `if` statements of `heap_sift_down` of `prim.c`. -/
def pick_smaller (h : MinHeap) (child smallest : Nat) : Option Nat :=
  if child < h.size then
    if child < h.capacity ∧ smallest < h.capacity then
      if (h.data child).weight < (h.data smallest).weight then some child
      else some smallest
    else none
  else some smallest

/-- The recursion of `heap_sift_down` of `prim.c`. -/
def sift_down_rec : Nat → MinHeap → Nat → Option MinHeap
  | 0, _, _ => none
  | fuel + 1, h, idx =>
    (pick_smaller h (2 * idx + 1) idx).bind fun s1 =>
    (pick_smaller h (2 * idx + 2) s1).bind fun smallest =>
    if smallest ≠ idx then
      (heap_swap_nodes h idx smallest).bind fun h1 => sift_down_rec fuel h1 smallest
    else some h

/-- `heap_sift_down` of `prim.c`. -/
def heap_sift_down (h : MinHeap) (idx : Nat) : Option MinHeap :=
  sift_down_rec (h.size + 1) h idx

/-- `heap_push` of `prim.c`. -/
def heap_push (h : MinHeap) (vertex weight : Int) : Option (Bool × MinHeap) :=
  if h.size ≥ h.capacity then some (false, h)
  else if 0 ≤ vertex ∧ vertex < h.capacity then
    let h1 : MinHeap :=
      { h with
        data := Function.update h.data h.size ⟨vertex, weight⟩
        pos := Function.update h.pos vertex (h.size : Int)
        size := h.size + 1 }
    (heap_sift_up h1 (h1.size - 1)).map fun h2 => (true, h2)
  else none

/-- `heap_pop` of `prim.c`; the first component is `none` when it returns `false`. -/
def heap_pop (h : MinHeap) : Option (Option (Int × Int) × MinHeap) :=
  if h.size = 0 then some (none, h)
  else if h.size - 1 < h.capacity then
    let vertex := (h.data 0).vertex
    let weight := (h.data 0).weight
    let data1 := Function.update h.data 0 (h.data (h.size - 1))
    let v0 := (data1 0).vertex
    if 0 ≤ v0 ∧ v0 < h.capacity then
      let h1 : MinHeap :=
        { h with data := data1, pos := Function.update h.pos v0 0, size := h.size - 1 }
      (heap_sift_down h1 0).map fun h2 => (some (vertex, weight), h2)
    else none
  else none

/-- `heap_decrease_key` of `prim.c`. -/
def heap_decrease_key (h : MinHeap) (vertex new_weight : Int) : Option (Bool × MinHeap) :=
  if 0 ≤ vertex ∧ vertex < h.capacity then
    let idx := h.pos vertex
    if idx ≥ h.size then some (false, h)
    else if 0 ≤ idx ∧ idx < h.capacity then
      let h1 : MinHeap :=
        { h with
          data := Function.update h.data idx.toNat { h.data idx.toNat with weight := new_weight } }
      (heap_sift_up h1 idx.toNat).map fun h2 => (true, h2)
    else none
  else none

/-- `heap_is_empty` of `prim.c`. -/
def heap_is_empty (h : MinHeap) : Bool := h.size == 0

/-- `heap_contains` of `prim.c`: only `pos[vertex] < size` is tested. -/
def heap_contains (h : MinHeap) (vertex : Int) : Option Bool :=
  if 0 ≤ vertex ∧ vertex < h.capacity then some (decide (h.pos vertex < h.size))
  else none

/-- The struct `AdjNode` of `prim.c` (field `to` is written `to_`). -/
structure AdjNode where
  to_ : Int
  weight : Int
deriving DecidableEq, Repr

/-- The struct `Graph` of `prim.c`. -/
structure Graph where
  num_vertices : Nat
  array : Int → List AdjNode

/-- `graph_create` of `prim.c`. -/
def graph_create (num_vertices : Nat) : Graph :=
  { num_vertices := num_vertices, array := fun _ => [] }

/-- `graph_add_edge` of `prim.c`: one node at the head of the list of `src`,
then one at the head of the list of `to_`. -/
def graph_add_edge (g : Graph) (src to_ weight : Int) : Option Graph :=
  if 0 ≤ src ∧ src < g.num_vertices then
    let array1 := Function.update g.array src (⟨to_, weight⟩ :: g.array src)
    if 0 ≤ to_ ∧ to_ < g.num_vertices then
      some { g with array := Function.update array1 to_ (⟨src, weight⟩ :: array1 to_) }
    else none
  else none

/-- The local variables of `prim_mst`; `chosen` lists the tree edges
`(parent[u], u, weight)` in the order the program prints them. -/
structure PState where
  visited : Int → Bool
  parent : Int → Int
  heap : MinHeap
  total_weight : Int
  edges_in_mst : Int
  chosen : List (Int × Int × Int)

/-- The body of the inner `while (curr)` loop of `prim_mst` for one node. -/
def scan_edge (num_vertices : Nat) (u : Int) (curr : AdjNode) (st : PState) : Option PState :=
  let v := curr.to_
  let w := curr.weight
  if 0 ≤ v ∧ v < num_vertices then
    if st.visited v then some st
    else
      (heap_contains st.heap v).bind fun present =>
        if present then
          (heap_decrease_key st.heap v w).map fun r =>
            { st with heap := r.2, parent := Function.update st.parent v u }
        else
          (heap_push st.heap v w).map fun r =>
            { st with heap := r.2, parent := Function.update st.parent v u }
  else none

/-- The inner `while (curr)` loop of `prim_mst`. -/
def scan_neighbors (num_vertices : Nat) (u : Int) : List AdjNode → PState → Option PState
  | [], st => some st
  | curr :: next, st =>
    (scan_edge num_vertices u curr st).bind fun st1 => scan_neighbors num_vertices u next st1

/-- The main loop of `prim_mst`. -/
def prim_loop (g : Graph) : Nat → PState → Option PState
  | 0, _ => none
  | fuel + 1, st =>
    if !heap_is_empty st.heap && decide (st.edges_in_mst < (g.num_vertices : Int) - 1) then
      (heap_pop st.heap).bind fun r =>
        match r with
        | (none, _) => none
        | (some (u, weight), heap1) =>
          if 0 ≤ u ∧ u < g.num_vertices then
            if st.visited u then prim_loop g fuel { st with heap := heap1 }
            else
              let st1 : PState :=
                { st with heap := heap1, visited := Function.update st.visited u true }
              let st2 : PState :=
                if st1.parent u ≠ u then
                  { st1 with
                    total_weight := wrap32 (st1.total_weight + weight)
                    edges_in_mst := st1.edges_in_mst + 1
                    chosen := st1.chosen ++ [(st1.parent u, u, weight)] }
                else st1
              (scan_neighbors g.num_vertices u (g.array u) st2).bind fun st3 =>
                prim_loop g fuel st3
          else none
    else some st

/-- `prim_mst` up to the end of its main loop; `raw_data` and `raw_pos` are the
uninitialised contents of the two heap arrays. -/
def prim_mst (fuel : Nat) (raw_data : Nat → HeapNode) (raw_pos : Int → Int)
    (g : Graph) (start : Int) : Option PState :=
  (heap_push (heap_create g.num_vertices raw_data raw_pos) start 0).bind fun r =>
    if 0 ≤ start ∧ start < g.num_vertices then
      prim_loop g fuel
        { visited := fun _ => false
          parent := Function.update (fun _ => -1) start start
          heap := r.2
          total_weight := 0
          edges_in_mst := 0
          chosen := [] }
    else none

end Prim

/-! ## Specification vocabulary for the heap of `dijkstra.c` -/

namespace Dijkstra

/-- The entries currently stored in the heap, `data[0..size)`. -/
def MinHeap.entries (h : MinHeap) : List HeapNode := (List.range h.size).map h.data

/-- Min-heap order on `data[0..size)`. -/
def HeapOrdered (h : MinHeap) : Prop :=
  ∀ i, i < h.size → 0 < i → (h.data ((i - 1) / 2)).distance ≤ (h.data i).distance

/-- Every stored vertex is a valid index of `pos`. -/
def VerticesInRange (h : MinHeap) : Prop :=
  ∀ i, i < h.size → 0 ≤ (h.data i).vertex ∧ (h.data i).vertex < h.capacity

/-- The array `pos` inverts `data` on `[0, size)`. -/
def PosConsistent (h : MinHeap) : Prop :=
  ∀ i, i < h.size → h.pos (h.data i).vertex = i

/-- Exchange of two cells of an array. -/
def swapCells {α : Type} (f : Nat → α) (i j : Nat) : Nat → α :=
  Function.update (Function.update f i (f j)) j (f i)

/-- The heap `h2` stores the entries of `h1` in another arrangement. -/
structure Rearranged (h1 h2 : MinHeap) : Prop where
  size_eq : h2.size = h1.size
  capacity_eq : h2.capacity = h1.capacity
  perm : h2.entries.Perm h1.entries
  pos_ok : PosConsistent h1 → PosConsistent h2
  pos_frame : ∀ v, (∀ i, i < h1.size → (h1.data i).vertex ≠ v) → h2.pos v = h1.pos v

/-- The heap after `heap_swap_nodes heap i j`. -/
def swapped (h : MinHeap) (i j : Nat) : MinHeap :=
  { h with
    data := swapCells h.data i j
    pos := Function.update (Function.update h.pos (h.data j).vertex (i : Int))
      (h.data i).vertex (j : Int) }

/-- Heap order everywhere except between cell `k` and its parent: the state of
`heap_sift_up` at index `k`. -/
def OrderedExceptUp (h : MinHeap) (k : Nat) : Prop :=
  (∀ i, i < h.size → 0 < i → i ≠ k →
    (h.data ((i - 1) / 2)).distance ≤ (h.data i).distance) ∧
  (∀ i, i < h.size → 0 < i → (i - 1) / 2 = k → 0 < k →
    (h.data ((k - 1) / 2)).distance ≤ (h.data i).distance)

/-- Heap order everywhere except between cell `k` and its children: the state
of `heap_sift_down` at index `k`. -/
def OrderedExceptDown (h : MinHeap) (k : Nat) : Prop :=
  (∀ i, i < h.size → 0 < i → (i - 1) / 2 ≠ k →
    (h.data ((i - 1) / 2)).distance ≤ (h.data i).distance) ∧
  (∀ i, i < h.size → 0 < i → (i - 1) / 2 = k → 0 < k →
    (h.data ((k - 1) / 2)).distance ≤ (h.data i).distance)

/-- The part of the heap invariant that does not involve `pos`: the size is
within the allocation, every stored vertex indexes `pos`, and keys are in
min-heap order. -/
def WellFormed (h : MinHeap) : Prop :=
  h.size ≤ h.capacity ∧ VerticesInRange h ∧ HeapOrdered h

/-- The heap invariant: min-heap order together with `pos` inverting `data`. -/
def HeapInv (h : MinHeap) : Prop := WellFormed h ∧ PosConsistent h

/-- No entry of the heap carries vertex `v`. -/
def Absent (h : MinHeap) (v : Int) : Prop := ∀ i, i < h.size → (h.data i).vertex ≠ v

/-- The heap after the assignment `data[i].distance = new_distance`. -/
def rekeyed (h : MinHeap) (i : Nat) (new_distance : Int) : MinHeap :=
  { h with data := Function.update h.data i { h.data i with distance := new_distance } }

end Dijkstra

/-! ## Sequences of heap calls -/

namespace Dijkstra

/-- One call of the heap interface that changes the heap. -/
inductive HeapOp where
  | push (vertex distance : Int)
  | pop
  | decrease_key (vertex new_distance : Int)
deriving DecidableEq, Repr

/-- The heap after one call (the returned flag and outputs are dropped). -/
def apply_op (h : MinHeap) : HeapOp → Option MinHeap
  | HeapOp.push v d => (heap_push h v d).map fun r => r.2
  | HeapOp.pop => (heap_pop h).map fun r => r.2
  | HeapOp.decrease_key v d => (heap_decrease_key h v d).map fun r => r.2

/-- The heap after a sequence of calls, first call first. -/
def run_ops : MinHeap → List HeapOp → Option MinHeap
  | h, [] => some h
  | h, op :: ops => (apply_op h op).bind fun h1 => run_ops h1 ops

/-- Well-formed use of one call in state `h`: a push names an in-range vertex
that is not in the heap, a decrease-key names a vertex of the heap and a key
not larger than its current one. -/
def OpAllowed (h : MinHeap) : HeapOp → Prop
  | HeapOp.push v _ => 0 ≤ v ∧ v < h.capacity ∧ Absent h v
  | HeapOp.pop => True
  | HeapOp.decrease_key v d =>
    ∃ i, i < h.size ∧ ((h.data i).vertex = v ∧ d ≤ (h.data i).distance)

/-- Well-formed use of every call of a sequence, each in the state it meets. -/
def OpsAllowed : MinHeap → List HeapOp → Prop
  | _, [] => True
  | h, op :: ops =>
    OpAllowed h op ∧
      match apply_op h op with
      | some h1 => OpsAllowed h1 ops
      | none => True

/-- Well-formed use of one call can be checked by evaluation. -/
instance OpAllowed.decidable (h : MinHeap) (op : HeapOp) : Decidable (OpAllowed h op) := by
  cases op <;> unfold OpAllowed Absent <;> infer_instance

/-- Well-formed use of a sequence of calls can be checked by evaluation. -/
def OpsAllowed.decidable : (h : MinHeap) → (ops : List HeapOp) → Decidable (OpsAllowed h ops)
  | _, [] => isTrue trivial
  | h, op :: ops =>
    match hr : apply_op h op with
    | some h1 =>
      match OpAllowed.decidable h op, OpsAllowed.decidable h1 ops with
      | isTrue a, isTrue b => isTrue (by unfold OpsAllowed; rw [hr]; exact ⟨a, b⟩)
      | isFalse a, _ => isFalse (by unfold OpsAllowed; exact fun c => a c.1)
      | _, isFalse b => isFalse (by unfold OpsAllowed; rw [hr]; exact fun c => b c.2)
    | none =>
      match OpAllowed.decidable h op with
      | isTrue a => isTrue (by unfold OpsAllowed; rw [hr]; exact ⟨a, trivial⟩)
      | isFalse a => isFalse (by unfold OpsAllowed; exact fun c => a c.1)

instance (h : MinHeap) (ops : List HeapOp) : Decidable (OpsAllowed h ops) :=
  OpsAllowed.decidable h ops

/-- A sequence of `heap_push` calls, first call first; a call on a full heap
returns `false` and changes nothing. -/
def push_all : MinHeap → List (Int × Int) → Option MinHeap
  | h, [] => some h
  | h, p :: ps => (heap_push h p.1 p.2).bind fun r => push_all r.2 ps

/-- The keys returned by up to `n` successive `heap_pop` calls, stopping early
when a call returns `false`. -/
def pop_keys : Nat → MinHeap → Option (List Int)
  | 0, _ => some []
  | n + 1, h =>
    (heap_pop h).bind fun r =>
      match r.1 with
      | none => some []
      | some out => (pop_keys n r.2).map fun keys => out.2 :: keys

end Dijkstra

namespace Dijkstra

/-- A heap of capacity 4 holding `(1,3)`, `(0,5)`, `(2,8)`, used to instantiate
the theorems about a single call. -/
def sample_heap : MinHeap :=
  { data := fun i => if i = 0 then ⟨1, 3⟩ else if i = 1 then ⟨0, 5⟩ else ⟨2, 8⟩
    pos := fun v => if v = 0 then 1 else if v = 1 then 0 else if v = 2 then 2 else -1
    size := 3
    capacity := 4 }

end Dijkstra

/-! ## Building graphs -/

namespace Dijkstra

/-- A sequence of `graph_add_edge(src, to, weight)` calls, first call first. -/
def add_edges : Graph → List (Int × Int × Int) → Option Graph
  | g, [] => some g
  | g, e :: es => (graph_add_edge g e.1 e.2.1 e.2.2).bind fun g1 => add_edges g1 es

end Dijkstra

namespace Prim

/-- A sequence of `graph_add_edge(src, to, weight)` calls of `prim.c`, first
call first. -/
def add_edges : Graph → List (Int × Int × Int) → Option Graph
  | g, [] => some g
  | g, e :: es => (graph_add_edge g e.1 e.2.1 e.2.2).bind fun g1 => add_edges g1 es

/-- The triangle with edges `0-1` of weight 1, `0-2` of weight 2 and `1-2` of
weight 10; its minimum spanning tree has weight 3. -/
def triangle_edges : List (Int × Int × Int) := [(0, 1, 1), (0, 2, 2), (1, 2, 10)]

end Prim

/-! ## Specification vocabulary for `dijkstra_shortest_path` -/

namespace Dijkstra

/-- Every adjacency node of a vertex of the graph points to a vertex of the
graph. -/
def Graph.Valid (g : Graph) : Prop :=
  ∀ u : Nat, u ∈ List.range g.num_vertices → ∀ e, e ∈ g.array (u : Int) →
    0 ≤ e.to_ ∧ e.to_ < g.num_vertices

/-- No edge weight is negative. -/
def Graph.NonNegative (g : Graph) : Prop :=
  ∀ u : Nat, u ∈ List.range g.num_vertices → ∀ e, e ∈ g.array (u : Int) → 0 ≤ e.weight

/-- `Walk g start v vs W`: `vs` is the vertex sequence of a path of `g` that
starts at `start` and ends at `v` (vertices may repeat), and `W` is the sum of
the weights of its edges. -/
inductive Walk (g : Graph) (start : Int) : Int → List Int → Int → Prop where
  | nil : 0 ≤ start → start < g.num_vertices → Walk g start start [start] 0
  | snoc {u : Int} {vs : List Int} {W : Int} (e : AdjNode) :
      Walk g start u vs W → e ∈ g.array u → Walk g start e.to_ (vs ++ [e.to_]) (W + e.weight)

/-- Vertex `v` can be reached from `start`. -/
def Reachable (g : Graph) (start v : Int) : Prop := ∃ vs W, Walk g start v vs W

/-- Every path from `start` that repeats no vertex has a total weight below
`INT_MAX`. -/
def PathSumsBelowMax (g : Graph) (start : Int) : Prop :=
  ∀ v vs W, Walk g start v vs W → vs.Nodup → W < INT_MAX

/-- `ParentChain g parent start v W`: following `parent` from `v` reaches
`start` after finitely many steps, every step `(parent[x], x)` is an edge of
`g`, and the weights of these edges sum to `W`. -/
inductive ParentChain (g : Graph) (parent : Int → Int) (start : Int) : Int → Int → Prop where
  | root : parent start = start → ParentChain g parent start start 0
  | step {u v W : Int} (e : AdjNode) :
      ParentChain g parent start u W → v ≠ start → parent v = u → e ∈ g.array u →
      e.to_ = v → ParentChain g parent start v (W + e.weight)

/-- `TreePath g start st v vs`: `vs` is a path from `start` to `v` along
`parent` links, through visited vertices only (except possibly `v` itself),
without repeated vertex, each link an edge that accounts for the difference of
the two distances. -/
inductive TreePath (g : Graph) (start : Int) (st : DState) : Int → List Int → Prop where
  | root : TreePath g start st start [start]
  | step {u : Int} {vs : List Int} (e : AdjNode) :
      TreePath g start st u vs → st.visited u = true → e ∈ g.array u →
      st.parent e.to_ = u → st.distance e.to_ = st.distance u + e.weight → e.to_ ∉ vs →
      TreePath g start st e.to_ (vs ++ [e.to_])

/-- The invariant of `dijkstra_shortest_path` that holds for every graph: the
heap holds exactly the discovered vertices that are not visited yet, each with
its current distance as key. -/
structure BaseInv (g : Graph) (start : Int) (st : DState) : Prop where
  heap_inv : HeapInv st.heap
  capacity_eq : st.heap.capacity = g.num_vertices
  start_range : 0 ≤ start ∧ start < g.num_vertices
  entry_sound : ∀ e, e ∈ st.heap.entries →
    st.visited e.vertex = false ∧ st.distance e.vertex = e.distance
  entry_complete : ∀ v : Int, 0 ≤ v → v < g.num_vertices → st.visited v = false →
    st.distance v < INF → (⟨v, st.distance v⟩ : HeapNode) ∈ st.heap.entries
  pos_unset : ∀ v : Int, 0 ≤ v → v < g.num_vertices → st.distance v = INF → st.heap.pos v = -1
  distance_le : ∀ v : Int, 0 ≤ v → v < g.num_vertices → st.distance v ≤ INF
  parent_unset : ∀ v : Int, 0 ≤ v → v < g.num_vertices → st.distance v = INF → st.parent v = -1
  visited_found : ∀ v : Int, 0 ≤ v → v < g.num_vertices → st.visited v = true → st.distance v < INF
  reachable : ∀ v : Int, 0 ≤ v → v < g.num_vertices → st.distance v < INF → Reachable g start v

/-- The invariant of `dijkstra_shortest_path` behind its correctness; `cur` is
the vertex whose adjacency list is being scanned and `todo` the part of that
list still to be scanned (`[]` between two iterations of the main loop). -/
structure OptInv (g : Graph) (start : Int) (st : DState) (cur : Int) (todo : List AdjNode) :
    Prop where
  start_distance : st.distance start = 0
  start_parent : st.parent start = start
  root_unique : ∀ x : Int, 0 ≤ x → x < g.num_vertices → st.parent x = x → x = start
  relaxed : ∀ u : Int, 0 ≤ u → u < g.num_vertices → st.visited u = true → ∀ e, e ∈ g.array u →
    (u = cur ∧ e ∈ todo) ∨ st.distance e.to_ ≤ st.distance u + e.weight
  tree : ∀ v : Int, 0 ≤ v → v < g.num_vertices → st.distance v < INF → ∃ vs, TreePath g start st v vs
  settled : ∀ u : Int, 0 ≤ u → u < g.num_vertices → st.visited u = true →
    ∀ vs W, Walk g start u vs W → st.distance u ≤ W

/-- The number of vertices not visited yet. -/
def unvisited_count (num_vertices : Nat) (visited : Int → Bool) : Nat :=
  ((List.range num_vertices).filter fun (i : Nat) => !visited (i : Int)).length

/-- The array `distance` after the loop body for adjacency node `e` of `u`. -/
def relax_distance (st : DState) (u : Int) (e : AdjNode) : Int → Int :=
  if st.visited e.to_ = true then st.distance
  else if wrap32 (st.distance u + e.weight) < st.distance e.to_ then
    Function.update st.distance e.to_ (wrap32 (st.distance u + e.weight))
  else st.distance

/-- The array `parent` after the loop body for adjacency node `e` of `u`. -/
def relax_parent (st : DState) (u : Int) (e : AdjNode) : Int → Int :=
  if st.visited e.to_ = true then st.parent
  else if wrap32 (st.distance u + e.weight) < st.distance e.to_ then
    Function.update st.parent e.to_ u
  else st.parent

/-- No edge weight exceeds `M`. -/
def Graph.WeightsAtMost (g : Graph) (M : Int) : Prop :=
  ∀ u : Nat, u ∈ List.range g.num_vertices → ∀ e, e ∈ g.array (u : Int) → e.weight ≤ M

/-- The graph built by `main` of `dijkstra.c`: five vertices and the directed
edges `(0,1,10) (0,3,5) (1,2,5) (1,4,3) (2,4,2) (3,4,1)`, each adjacency list
with its most recent edge first. -/
def main_graph : Graph :=
  { num_vertices := 5
    array := fun u =>
      if u = 0 then [⟨3, 5⟩, ⟨1, 10⟩]
      else if u = 1 then [⟨4, 3⟩, ⟨2, 5⟩]
      else if u = 2 then [⟨4, 2⟩]
      else if u = 3 then [⟨4, 1⟩]
      else [] }

/-- A graph of two groups of vertices without an edge between them, `{0, 1}`
and `{2, 3}`, one edge of negative weight in the second group. -/
def two_group_graph : Graph :=
  { num_vertices := 4
    array := fun u =>
      if u = 0 then [⟨1, 4⟩]
      else if u = 1 then [⟨0, 4⟩]
      else if u = 2 then [⟨3, -7⟩]
      else [] }

end Dijkstra

/-! ## Further vocabulary: sample states and the contents of adjacency lists -/

namespace Dijkstra

/-- A heap of capacity 1 that holds the entry `(0, 4)`: it is full. -/
def full_heap : MinHeap :=
  { data := fun _ => ⟨0, 4⟩, pos := fun v => if v = 0 then 0 else -1, size := 1, capacity := 1 }

/-- What the adjacency list of `u` must hold after the insertions `edges`
(triples `(src, to, weight)`, first insertion first): the `(to, weight)` pairs
inserted with source `u`, most recent first. -/
def inserted_at (edges : List (Int × Int × Int)) (u : Int) : List AdjNode :=
  ((edges.filter fun e => decide (e.1 = u)).map fun e => (⟨e.2.1, e.2.2⟩ : AdjNode)).reverse

end Dijkstra

namespace Prim

/-- An adjacency node of `prim.c` read as an adjacency node of `dijkstra.c`
(the two structs have the same fields). -/
def AdjNode.to_dijkstra (e : AdjNode) : Dijkstra.AdjNode := ⟨e.to_, e.weight⟩

/-- A graph of `prim.c` read as a graph of `dijkstra.c`. -/
def Graph.to_dijkstra (g : Graph) : Dijkstra.Graph :=
  { num_vertices := g.num_vertices
    array := fun u => (g.array u).map AdjNode.to_dijkstra }

end Prim

/-! ## Further vocabulary: constants, the result section, counting events -/

/-- The macro `MAX_VERTICES` of both programs (`#define MAX_VERTICES 100`); no
function of either program refers to it. -/
def MAX_VERTICES : Nat := 100

namespace Dijkstra

/-- The six `graph_add_edge` calls of `main` of `dijkstra.c`, in order. -/
def main_edges : List (Int × Int × Int) :=
  [(0, 1, 10), (0, 3, 5), (1, 2, 5), (1, 4, 3), (2, 4, 2), (3, 4, 1)]

/-- One line of the result section of `dijkstra_shortest_path`. -/
inductive ResultLine where
  | unreachable
  | shortest (distance : Int) (path : List Int)
deriving DecidableEq, Repr

/-- The body of the `for` loop of the result section of
`dijkstra_shortest_path` for vertex `i`: a vertex with `distance[i] == INF` is
reported unreachable, and `print_path` is called for the others only (`depth`
bounds the recursion of `print_path_recursive`). -/
def result_line (num_vertices : Nat) (st : DState) (depth : Nat) (i : Int) : Option ResultLine :=
  if 0 ≤ i ∧ i < num_vertices then
    if st.distance i = INF then some ResultLine.unreachable
    else
      (print_path_recursive num_vertices st.parent depth i).map fun path =>
        ResultLine.shortest (st.distance i) path
  else none

/-- The number of `heap_pop` calls recorded in a list of events. -/
def extractions (events : List Event) : Nat :=
  events.countP fun ev =>
    match ev with
    | Event.extracted _ _ => true
    | _ => false

/-- `ParentPath g start st v vs`: `vs` lists the vertices met when `parent` is
followed from `v` back to `start`, in the order from `start` to `v`: each
vertex after the first has the vertex before it as parent, through an edge of
the graph, no vertex occurs twice, and all vertices before `v` are visited. -/
inductive ParentPath (g : Graph) (start : Int) (st : DState) : Int → List Int → Prop where
  | root : ParentPath g start st start [start]
  | step {u : Int} {vs : List Int} (e : AdjNode) :
      ParentPath g start st u vs → st.visited u = true → e ∈ g.array u →
      st.parent e.to_ = u → e.to_ ∉ vs → ParentPath g start st e.to_ (vs ++ [e.to_])

/-- The invariant of `dijkstra_shortest_path` about `parent`, valid for any
edge weights: every discovered vertex is linked to `start` by parent pointers,
and `start` is the only vertex equal to its own parent. -/
structure ChainInv (g : Graph) (start : Int) (st : DState) : Prop where
  start_parent : st.parent start = start
  root_unique : ∀ x : Int, 0 ≤ x → x < g.num_vertices → st.parent x = x → x = start
  chain : ∀ v : Int, 0 ≤ v → v < g.num_vertices → st.distance v < INF →
    ∃ vs, ParentPath g start st v vs

end Dijkstra

namespace Prim

/-- The nine `graph_add_edge` calls of `main` of `prim.c`, in order. -/
def main_edges : List (Int × Int × Int) :=
  [(0, 1, 29), (1, 2, 16), (2, 3, 12), (3, 4, 22), (4, 5, 27), (5, 0, 10), (6, 1, 15),
   (6, 3, 18), (6, 4, 25)]

end Prim

/-! ## Vocabulary for `prim_mst`: the heap of `prim.c` read as the heap of `dijkstra.c` -/

namespace Dijkstra

/-- Every cell of `pos` holds a non-negative value. -/
def PosNonneg (h : MinHeap) : Prop := ∀ v : Int, 0 ≤ v → v < h.capacity → 0 ≤ h.pos v

end Dijkstra

namespace Prim

/-- A heap node of `prim.c` read as a heap node of `dijkstra.c` (field `weight`
is field `distance`). -/
def HeapNode.to_dijkstra (e : HeapNode) : Dijkstra.HeapNode := ⟨e.vertex, e.weight⟩

/-- A heap of `prim.c` read as a heap of `dijkstra.c`. -/
def MinHeap.to_dijkstra (h : MinHeap) : Dijkstra.MinHeap :=
  { data := fun i => (h.data i).to_dijkstra, pos := h.pos, size := h.size, capacity := h.capacity }

/-- The invariant of `prim_mst` used for disconnected graphs: the heap stays
within its allocation, the cells of `pos` are non-negative, and only vertices
reachable from `start` are stored in the heap, visited, or given a parent. -/
structure PInv (g : Graph) (start : Int) (st : PState) : Prop where
  capacity_eq : st.heap.capacity = g.num_vertices
  size_le : st.heap.size ≤ st.heap.capacity
  vertices : Dijkstra.VerticesInRange st.heap.to_dijkstra
  pos_nonneg : Dijkstra.PosNonneg st.heap.to_dijkstra
  reach_entries : ∀ i, i < st.heap.size → Dijkstra.Reachable g.to_dijkstra start (st.heap.data i).vertex
  reach_visited : ∀ v : Int, 0 ≤ v → v < g.num_vertices → st.visited v = true →
    Dijkstra.Reachable g.to_dijkstra start v
  reach_parent : ∀ v : Int, 0 ≤ v → v < g.num_vertices → st.parent v ≠ -1 →
    Dijkstra.Reachable g.to_dijkstra start v

/-- A graph of `prim.c` with two groups of vertices, `{0, 1}` joined by an edge
of weight 4 and `{2, 3}` joined by an edge of weight 7, and no edge between the
groups. -/
def two_group_graph : Graph :=
  { num_vertices := 4
    array := fun u =>
      if u = 0 then [⟨1, 4⟩]
      else if u = 1 then [⟨0, 4⟩]
      else if u = 2 then [⟨3, 7⟩]
      else if u = 3 then [⟨2, 7⟩]
      else [] }

end Prim

namespace Dijkstra

/-- The heap of `heap_push` just before `heap_sift_up` is called. -/
def pushed (h : MinHeap) (vertex distance : Int) : MinHeap :=
  { h with
    data := Function.update h.data h.size ⟨vertex, distance⟩
    pos := Function.update h.pos vertex (h.size : Int)
    size := h.size + 1 }

/-- The heap of `heap_pop` just before `heap_sift_down` is called. -/
def popped (h : MinHeap) : MinHeap :=
  { h with
    data := Function.update h.data 0 (h.data (h.size - 1))
    pos := Function.update h.pos (h.data (h.size - 1)).vertex 0
    size := h.size - 1 }

end Dijkstra

namespace Prim

/-- The heap of `heap_push` of `prim.c` just before `heap_sift_up` is called. -/
def pushed (h : MinHeap) (vertex weight : Int) : MinHeap :=
  { h with
    data := Function.update h.data h.size ⟨vertex, weight⟩
    pos := Function.update h.pos vertex (h.size : Int)
    size := h.size + 1 }

/-- The heap of `heap_pop` of `prim.c` just before `heap_sift_down` is called. -/
def popped (h : MinHeap) : MinHeap :=
  { h with
    data := Function.update h.data 0 (h.data (h.size - 1))
    pos := Function.update h.pos (h.data (h.size - 1)).vertex 0
    size := h.size - 1 }

/-- The heap of `heap_decrease_key` of `prim.c` after the assignment
`data[idx].weight = new_weight`. -/
def rekeyed (h : MinHeap) (idx : Nat) (new_weight : Int) : MinHeap :=
  { h with data := Function.update h.data idx { h.data idx with weight := new_weight } }

end Prim

/-! ## Vocabulary for the traces of `dijkstra_shortest_path` -/

namespace Dijkstra

/-- Four `graph_add_edge` calls that build a graph with two paths of equal
weight from vertex 0 to vertex 3: `0→1→3` and `0→2→3`, all weights 1. -/
def diamond_edges : List (Int × Int × Int) := [(0, 1, 1), (0, 2, 1), (1, 3, 1), (2, 3, 1)]

/-- A state of `dijkstra_shortest_path` on a graph of two vertices in which
`distance[1]` is already 5 and vertex 0, at distance 0, is being scanned. -/
def tie_state : DState :=
  { visited := fun v => decide (v = 0)
    distance := fun v => if v = 0 then 0 else 5
    parent := fun v => if v = 0 then 0 else 7
    heap := heap_create 2
    events := [] }

end Dijkstra

namespace Dijkstra

/-- The events that the body of the inner loop records for adjacency node `e`
of `u` in state `st`, when the heap stores exactly the vertices that are
discovered (`distance < INF`) and not visited: nothing for a visited target,
the evaluation of the candidate otherwise, followed by the update when the
candidate is smaller; the update is a `heap_push` exactly when the target was
undiscovered. -/
def relax_events (st : DState) (u : Int) (e : AdjNode) : List Event :=
  if st.visited e.to_ = true then []
  else if wrap32 (st.distance u + e.weight) < st.distance e.to_ then
    [Event.evaluated u e.to_ (st.distance u + e.weight),
     Event.updated e.to_ (wrap32 (st.distance u + e.weight)) u
       (decide (st.distance e.to_ = INF)) true]
  else [Event.evaluated u e.to_ (st.distance u + e.weight)]

/-- The vertices of the `heap_push` calls recorded in a list of events, in
order. -/
def pushed_vertices (events : List Event) : List Int :=
  events.filterMap fun ev =>
    match ev with
    | Event.updated v _ _ true _ => some v
    | _ => none

/-- The vertices returned by the `heap_pop` calls recorded in a list of
events, in order. -/
def extracted_vertices (events : List Event) : List Int :=
  events.filterMap fun ev =>
    match ev with
    | Event.extracted v _ => some v
    | _ => none

/-- The distances printed when vertices are settled, in order. -/
def settled_distances (events : List Event) : List Int :=
  events.filterMap fun ev =>
    match ev with
    | Event.settled _ d => some d
    | _ => none

/-- No update of a vertex is recorded after the vertex was settled. -/
def Frozen (events : List Event) : Prop :=
  ∀ l1 l2 v d, events = l1 ++ Event.settled v d :: l2 →
    ∀ x nd c p r, Event.updated x nd c p r ∈ l2 → x ≠ v

/-- What the events of a run of `dijkstra_shortest_path` satisfy on every
graph. -/
structure TraceInv (g : Graph) (start : Int) (st : DState) : Prop where
  no_skip : ∀ v, Event.skipped v ∉ st.events
  results : ∀ v d c p r, Event.updated v d c p r ∈ st.events → r = true
  pushed_nodup : (pushed_vertices st.events).Nodup
  pushed_found : ∀ v, v ∈ pushed_vertices st.events →
    (0 ≤ v ∧ v < g.num_vertices) ∧ v ≠ start ∧ st.distance v < INF
  start_found : st.distance start < INF
  extracted_nodup : (extracted_vertices st.events).Nodup
  extracted_key : ∀ v d, Event.extracted v d ∈ st.events →
    st.visited v = true ∧ st.distance v = d
  settled_key : ∀ v d, Event.settled v d ∈ st.events →
    st.visited v = true ∧ st.distance v = d
  frozen : Frozen st.events

/-- What the events of a run satisfy when no weight is negative and no sum
overflows: the settled distances are in non-decreasing order and none exceeds
the distance of a vertex not visited yet, and every evaluated sum lies in
`[0, INT_MAX)`. -/
structure MonoInv (g : Graph) (st : DState) : Prop where
  sorted : (settled_distances st.events).Pairwise (fun a b => a ≤ b)
  below : ∀ d, d ∈ settled_distances st.events → ∀ v : Int, 0 ≤ v → v < g.num_vertices →
    st.visited v = false → d ≤ st.distance v
  sums : ∀ c a s, Event.evaluated c a s ∈ st.events → 0 ≤ s ∧ s < INT_MAX

/-- The body of the main loop `while (!heap_is_empty(heap))`: one iteration. -/
def dijkstra_body (graph : Graph) (st : DState) : Option DState :=
  (heap_pop st.heap).bind fun r =>
    match r with
    | (none, _) => none
    | (some (current_vertex, current_distance), heap1) =>
      if 0 ≤ current_vertex ∧ current_vertex < graph.num_vertices then
        if st.visited current_vertex then
          some
            { st with
              heap := heap1
              events := st.events ++
                [Event.extracted current_vertex current_distance,
                 Event.skipped current_vertex] }
        else
          relax_neighbors graph.num_vertices current_vertex (graph.array current_vertex)
            { st with
              heap := heap1
              visited := Function.update st.visited current_vertex true
              events := st.events ++
                [Event.extracted current_vertex current_distance,
                 Event.settled current_vertex current_distance] }
      else none

/-- The state at the head of the main loop after `k` iterations; `none` when
the loop has ended before or an iteration has no defined result. -/
def dijkstra_after (graph : Graph) : Nat → DState → Option DState
  | 0, st => some st
  | k + 1, st =>
    if heap_is_empty st.heap then none
    else (dijkstra_body graph st).bind fun st1 => dijkstra_after graph k st1

/-- The sum of all edge weights of the graph. -/
def Graph.total_weight (g : Graph) : Int :=
  ((List.range g.num_vertices).map fun (u : Nat) =>
    ((g.array (u : Int)).map AdjNode.weight).sum).sum

end Dijkstra

namespace Dijkstra

/-- A graph of two vertices with the single edge `0→1` of weight `INT_MAX`:
no sum overflows, and the only path to vertex 1 weighs as much as `INF`. -/
def max_edge_graph : Graph :=
  { num_vertices := 2
    array := fun u => if u = 0 then [⟨1, 2147483647⟩] else [] }

/-- A graph of three vertices with the edges `0→1` of weight 2147483646 and
`1→2` of weight 2: the path `0→1→2` weighs `INT_MAX + 1`. -/
def overflow_graph : Graph :=
  { num_vertices := 3
    array := fun u =>
      if u = 0 then [⟨1, 2147483646⟩]
      else if u = 1 then [⟨2, 2⟩]
      else [] }

end Dijkstra

/-! ## The heap operations of `dijkstra.c` -/

namespace Dijkstra

theorem swapCells_apply {α : Type} (f : Nat → α) (i j k : Nat) :
    swapCells f i j k = if k = j then f i else if k = i then f j else f k := by
  unfold swapCells
  simp only [Function.update_apply]

theorem swapCells_eq_comp {α : Type} (f : Nat → α) (i j : Nat) :
    swapCells f i j = f ∘ (Equiv.swap i j) := by
  funext k
  rw [swapCells_apply]
  simp only [Function.comp]
  by_cases h1 : k = j
  · subst h1; simp
  · by_cases h2 : k = i
    · subst h2; simp [h1]
    · simp [h1, h2, Equiv.swap_apply_of_ne_of_ne h2 h1]

theorem perm_map_swap_range (n i j : Nat) (hi : i < n) (hj : j < n) :
    ((List.range n).map (Equiv.swap i j)).Perm (List.range n) := by
  rw [List.perm_ext_iff_of_nodup ((List.nodup_range n).map (Equiv.swap i j).injective)
    (List.nodup_range n)]
  intro a
  simp only [List.mem_map, List.mem_range]
  constructor
  · rintro ⟨b, hb, rfl⟩
    by_cases h1 : b = i
    · subst h1; simpa using hj
    · by_cases h2 : b = j
      · subst h2; simpa using hi
      · rw [Equiv.swap_apply_of_ne_of_ne h1 h2]; exact hb
  · intro ha
    refine ⟨Equiv.swap i j a, ?_, by simp⟩
    by_cases h1 : a = i
    · subst h1; simpa using hj
    · by_cases h2 : a = j
      · subst h2; simpa using hi
      · rw [Equiv.swap_apply_of_ne_of_ne h1 h2]; exact ha

theorem perm_swapCells {α : Type} (f : Nat → α) (n i j : Nat) (hi : i < n) (hj : j < n) :
    ((List.range n).map (swapCells f i j)).Perm ((List.range n).map f) := by
  rw [swapCells_eq_comp, ← List.map_map]
  exact (perm_map_swap_range n i j hi hj).map f

theorem mem_entries {h : MinHeap} {e : HeapNode} :
    e ∈ h.entries ↔ ∃ i, i < h.size ∧ h.data i = e := by
  simp [MinHeap.entries]

theorem Rearranged.refl (h : MinHeap) : Rearranged h h :=
  ⟨rfl, rfl, List.Perm.refl _, id, fun _ _ => rfl⟩

theorem Rearranged.mem_iff {h1 h2 : MinHeap} (r : Rearranged h1 h2) (e : HeapNode) :
    e ∈ h2.entries ↔ e ∈ h1.entries := r.perm.mem_iff

theorem Rearranged.absent {h1 h2 : MinHeap} (r : Rearranged h1 h2) (v : Int)
    (hv : ∀ i, i < h1.size → (h1.data i).vertex ≠ v) :
    ∀ i, i < h2.size → (h2.data i).vertex ≠ v := by
  intro i hi hc
  have hm : h2.data i ∈ h2.entries := mem_entries.2 ⟨i, hi, rfl⟩
  obtain ⟨k, hk, hke⟩ := mem_entries.1 ((r.mem_iff _).1 hm)
  exact hv k hk (by rw [hke]; exact hc)

theorem Rearranged.trans {h1 h2 h3 : MinHeap} (r1 : Rearranged h1 h2) (r2 : Rearranged h2 h3) :
    Rearranged h1 h3 where
  size_eq := r2.size_eq.trans r1.size_eq
  capacity_eq := r2.capacity_eq.trans r1.capacity_eq
  perm := r2.perm.trans r1.perm
  pos_ok := fun hp => r2.pos_ok (r1.pos_ok hp)
  pos_frame := fun v hv => (r2.pos_frame v (r1.absent v hv)).trans (r1.pos_frame v hv)

theorem Rearranged.vertices {h1 h2 : MinHeap} (r : Rearranged h1 h2)
    (hv : VerticesInRange h1) : VerticesInRange h2 := by
  intro i hi
  have hm : h2.data i ∈ h2.entries := mem_entries.2 ⟨i, hi, rfl⟩
  obtain ⟨k, hk, hke⟩ := mem_entries.1 ((r.mem_iff _).1 hm)
  rw [← hke, r.capacity_eq]
  exact hv k hk

theorem heap_swap_nodes_eq (h : MinHeap) (i j : Nat) (hi : i < h.size) (hj : j < h.size)
    (hsz : h.size ≤ h.capacity) (hv : VerticesInRange h) :
    heap_swap_nodes h i j = some (swapped h i j) := by
  have hi2 : i < h.capacity := by omega
  have hj2 : j < h.capacity := by omega
  have e1 : Function.update (Function.update h.data i (h.data j)) j (h.data i) i = h.data j := by
    have := swapCells_apply h.data i j i
    unfold swapCells at this
    rw [this]
    by_cases hc : i = j
    · simp [hc]
    · simp [hc]
  have e2 : Function.update (Function.update h.data i (h.data j)) j (h.data i) j = h.data i := by
    simp
  unfold heap_swap_nodes
  simp only [hi2, hj2, and_self, if_true, e1, e2, hv j hj, hv i hi]
  rfl

theorem swapped_rearranged (h : MinHeap) (i j : Nat) (hi : i < h.size) (hj : j < h.size) :
    Rearranged h (swapped h i j) where
  size_eq := rfl
  capacity_eq := rfl
  perm := perm_swapCells h.data h.size i j hi hj
  pos_ok := by
    intro hp k hk
    have hk2 : (swapped h i j).size = h.size := rfl
    rw [hk2] at hk
    show Function.update (Function.update h.pos (h.data j).vertex (i : Int))
      (h.data i).vertex (j : Int) ((swapCells h.data i j k).vertex) = k
    have a := hp i hi
    have b := hp j hj
    have c := hp k hk
    rw [swapCells_apply]
    simp only [Function.update_apply]
    by_cases h1 : k = j
    · simp [h1]
    · by_cases h2 : k = i
      · subst h2
        simp only [h1, if_false, if_true]
        have hne : (h.data j).vertex ≠ (h.data k).vertex := by
          intro hc
          rw [hc, c] at b
          exact h1 (by exact_mod_cast b)
        simp [hne]
      · simp only [h1, h2, if_false]
        have hne1 : (h.data k).vertex ≠ (h.data i).vertex := by
          intro hc
          rw [hc, a] at c
          exact h2 (by exact_mod_cast c.symm)
        have hne2 : (h.data k).vertex ≠ (h.data j).vertex := by
          intro hc
          rw [hc, b] at c
          exact h1 (by exact_mod_cast c.symm)
        simp [hne1, hne2, c]
  pos_frame := by
    intro v hv
    show Function.update (Function.update h.pos (h.data j).vertex (i : Int))
      (h.data i).vertex (j : Int) v = h.pos v
    rw [Function.update_noteq (fun hc => hv i hi hc.symm),
      Function.update_noteq (fun hc => hv j hj hc.symm)]

theorem swapped_data (h : MinHeap) (i j k : Nat) :
    (swapped h i j).data k = if k = j then h.data i else if k = i then h.data j else h.data k :=
  swapCells_apply h.data i j k

theorem sift_up_loop_spec : ∀ (fuel : Nat) (h : MinHeap) (k : Nat), k < fuel → k < h.size →
    h.size ≤ h.capacity → VerticesInRange h → OrderedExceptUp h k →
    ∃ h2, sift_up_loop fuel h k = some h2 ∧ Rearranged h h2 ∧ HeapOrdered h2 := by
  intro fuel
  induction fuel with
  | zero => intro h k hk; omega
  | succ fuel ih =>
    intro h k hk hks hsz hv hord
    obtain ⟨ha, hb⟩ := hord
    unfold sift_up_loop
    by_cases hk0 : 0 < k
    · have hkc : k < h.capacity := by omega
      simp only [hk0, hkc, if_true]
      by_cases hlt : (h.data k).distance < (h.data ((k - 1) / 2)).distance
      · have hp : (k - 1) / 2 < k := by omega
        have hps : (k - 1) / 2 < h.size := by omega
        simp only [hlt, if_true]
        rw [heap_swap_nodes_eq h k ((k - 1) / 2) hks hps hsz hv]
        simp only [Option.some_bind]
        have r1 := swapped_rearranged h k ((k - 1) / 2) hks hps
        have hord1 : OrderedExceptUp (swapped h k ((k - 1) / 2)) ((k - 1) / 2) := by
          constructor
          · intro i hi hi0 hne
            have hi2 : i < h.size := hi
            rw [swapped_data, swapped_data]
            by_cases e1 : i = k
            · subst e1
              have : ¬ (i = (i - 1) / 2) := by omega
              simp only [if_true, this, if_false]
              omega
            · have e2 : ¬ ((i - 1) / 2 = (k - 1) / 2 ∧ False) := by simp
              simp only [hne, e1, if_false]
              by_cases e3 : (i - 1) / 2 = k
              · have : ¬ (k = (k - 1) / 2) := by omega
                simp only [e3, this, if_false, if_true]
                exact hb i hi2 hi0 e3 hk0
              · by_cases e4 : (i - 1) / 2 = (k - 1) / 2
                · simp only [e4, if_true]
                  have := ha i hi2 hi0 e1
                  rw [e4] at this
                  omega
                · simp only [e3, e4, if_false]
                  exact ha i hi2 hi0 e1
          · intro i hi hi0 hpar hp0
            have hi2 : i < h.size := hi
            rw [swapped_data, swapped_data]
            have n1 : ¬ ((k - 1) / 2 - 1) / 2 = (k - 1) / 2 := by omega
            have n2 : ¬ ((k - 1) / 2 - 1) / 2 = k := by omega
            have n3 : ¬ i = (k - 1) / 2 := by omega
            simp only [n1, n2, n3, if_false]
            have hpp := ha ((k - 1) / 2) hps hp0 (by omega)
            by_cases e1 : i = k
            · simp only [e1, if_true]; exact hpp
            · simp only [e1, if_false]
              have := ha i hi2 hi0 e1
              rw [hpar] at this
              omega
        obtain ⟨h2, hrun, r2, ho2⟩ := ih (swapped h k ((k - 1) / 2)) ((k - 1) / 2) (by omega)
          hps hsz (r1.vertices hv) hord1
        exact ⟨h2, hrun, r1.trans r2, ho2⟩
      · simp only [hlt, if_false]
        refine ⟨h, rfl, Rearranged.refl h, ?_⟩
        intro i hi hi0
        by_cases e1 : i = k
        · subst e1; omega
        · exact ha i hi hi0 e1
    · have hk00 : k = 0 := by omega
      subst hk00
      simp only [Nat.lt_irrefl, if_false]
      refine ⟨h, rfl, Rearranged.refl h, ?_⟩
      intro i hi hi0
      exact ha i hi hi0 (by omega)

theorem pick_smaller_eq (h : MinHeap) (c s : Nat) (hsz : h.size ≤ h.capacity)
    (hs : c < h.size → s < h.capacity) :
    pick_smaller h c s =
      some (if c < h.size ∧ (h.data c).distance < (h.data s).distance then c else s) := by
  unfold pick_smaller
  by_cases hc : c < h.size
  · have h1 : c < h.capacity := by omega
    have h2 := hs hc
    simp only [hc, h1, h2, and_self, if_true, true_and]
    split_ifs <;> rfl
  · simp [hc]

theorem sift_down_step (h : MinHeap) (k s : Nat) (hs : s = 2 * k + 1 ∨ s = 2 * k + 2)
    (hss : s < h.size) (hlt : (h.data s).distance < (h.data k).distance)
    (hmin : ∀ c, c < h.size → 0 < c → (c - 1) / 2 = k →
      (h.data s).distance ≤ (h.data c).distance)
    (hord : OrderedExceptDown h k) : OrderedExceptDown (swapped h k s) s := by
  obtain ⟨ha, hb⟩ := hord
  constructor
  · intro i hi hi0 hne
    have hi2 : i < h.size := hi
    rw [swapped_data, swapped_data]
    by_cases e1 : i = s
    · subst e1
      have p1 : (i - 1) / 2 = k := by omega
      have p2 : ¬ k = i := by omega
      simp only [p1, p2, if_true, if_false]
      omega
    · simp only [e1, hne, if_false]
      by_cases e2 : i = k
      · subst e2
        have p1 : ¬ (i - 1) / 2 = i := by omega
        simp only [p1, if_true, if_false]
        exact hb s hss (by omega) (by omega) hi0
      · simp only [e2, if_false]
        by_cases e3 : (i - 1) / 2 = k
        · simp only [e3, if_true]
          exact hmin i hi2 hi0 e3
        · simp only [e3, if_false]
          exact ha i hi2 hi0 e3
  · intro i hi hi0 hpar hs0
    have hi2 : i < h.size := hi
    rw [swapped_data, swapped_data]
    have p1 : (s - 1) / 2 = k := by omega
    have p2 : ¬ k = s := by omega
    have p3 : ¬ i = s := by omega
    have p4 : ¬ i = k := by omega
    simp only [p1, p2, p3, p4, if_true, if_false]
    have := ha i hi2 hi0 (by omega)
    rw [hpar] at this
    exact this

theorem sift_down_rec_spec : ∀ (fuel : Nat) (h : MinHeap) (k : Nat), h.size < fuel + k →
    k ≤ h.size → h.size ≤ h.capacity → VerticesInRange h → OrderedExceptDown h k →
    ∃ h2, sift_down_rec fuel h k = some h2 ∧ Rearranged h h2 ∧ HeapOrdered h2 := by
  intro fuel
  induction fuel with
  | zero => intro h k h1 h2; omega
  | succ fuel ih =>
    intro h k hf hks hsz hv hord
    unfold sift_down_rec
    rw [pick_smaller_eq h (2 * k + 1) k hsz (by omega)]
    simp only [Option.some_bind]
    rw [pick_smaller_eq h (2 * k + 2) _ hsz (by split_ifs <;> omega)]
    simp only [Option.some_bind]
    have step : ∀ s, (s = 2 * k + 1 ∨ s = 2 * k + 2) → s < h.size →
        (h.data s).distance < (h.data k).distance →
        (∀ c, c < h.size → 0 < c → (c - 1) / 2 = k →
          (h.data s).distance ≤ (h.data c).distance) →
        ∃ h2, ((heap_swap_nodes h k s).bind fun h1 => sift_down_rec fuel h1 s) = some h2 ∧
          Rearranged h h2 ∧ HeapOrdered h2 := by
      intro s hs hss hlt hmin
      have hk : k < h.size := by omega
      rw [heap_swap_nodes_eq h k s hk hss hsz hv]
      simp only [Option.some_bind]
      have r1 := swapped_rearranged h k s hk hss
      obtain ⟨h2, hrun, r2, ho2⟩ := ih (swapped h k s) s
        (by show h.size < fuel + s; omega) (by show s ≤ h.size; omega) hsz (r1.vertices hv)
        (sift_down_step h k s hs hss hlt hmin hord)
      exact ⟨h2, hrun, r1.trans r2, ho2⟩
    have child : ∀ c, 0 < c → (c - 1) / 2 = k → c = 2 * k + 1 ∨ c = 2 * k + 2 := by
      intro c h1 h2; omega
    by_cases c1 : 2 * k + 1 < h.size ∧ (h.data (2 * k + 1)).distance < (h.data k).distance
    · simp only [c1, and_self, if_true]
      by_cases c2 : 2 * k + 2 < h.size ∧
          (h.data (2 * k + 2)).distance < (h.data (2 * k + 1)).distance
      · simp only [c2, and_self, if_true]
        have hne : 2 * k + 2 ≠ k := by omega
        simp only [hne, ne_eq, not_false_eq_true, if_true]
        apply step (2 * k + 2) (Or.inr rfl) c2.1 (by omega)
        intro c hc hc0 hcp
        rcases child c hc0 hcp with e | e <;> subst e <;> omega
      · simp only [c2, if_false]
        have hne : 2 * k + 1 ≠ k := by omega
        simp only [hne, ne_eq, not_false_eq_true, if_true]
        apply step (2 * k + 1) (Or.inl rfl) c1.1 c1.2
        intro c hc hc0 hcp
        rcases child c hc0 hcp with e | e
        · subst e; omega
        · subst e
          have : ¬ (h.data (2 * k + 2)).distance < (h.data (2 * k + 1)).distance :=
            fun hx => c2 ⟨hc, hx⟩
          omega
    · simp only [c1, if_false]
      by_cases c2 : 2 * k + 2 < h.size ∧ (h.data (2 * k + 2)).distance < (h.data k).distance
      · simp only [c2, and_self, if_true]
        have hne : 2 * k + 2 ≠ k := by omega
        simp only [hne, ne_eq, not_false_eq_true, if_true]
        apply step (2 * k + 2) (Or.inr rfl) c2.1 c2.2
        intro c hc hc0 hcp
        rcases child c hc0 hcp with e | e
        · subst e
          have : ¬ (h.data (2 * k + 1)).distance < (h.data k).distance :=
            fun hx => c1 ⟨hc, hx⟩
          omega
        · subst e; omega
      · simp only [c2, if_false, ne_eq, not_true_eq_false]
        refine ⟨h, rfl, Rearranged.refl h, ?_⟩
        intro i hi hi0
        by_cases e : (i - 1) / 2 = k
        · rcases child i hi0 e with e2 | e2
          · subst e2
            have : ¬ (h.data (2 * k + 1)).distance < (h.data k).distance :=
              fun hx => c1 ⟨hi, hx⟩
            rw [e]; omega
          · subst e2
            have : ¬ (h.data (2 * k + 2)).distance < (h.data k).distance :=
              fun hx => c2 ⟨hi, hx⟩
            rw [e]; omega
        · exact hord.1 i hi hi0 e

theorem root_min (h : MinHeap) (ho : HeapOrdered h) :
    ∀ i, i < h.size → (h.data 0).distance ≤ (h.data i).distance := by
  intro i
  induction i using Nat.strong_induction_on with
  | _ i ih =>
    intro hi
    by_cases h0 : i = 0
    · subst h0; exact le_refl _
    · have h1 := ho i hi (by omega)
      have h2 := ih ((i - 1) / 2) (by omega) (by omega)
      omega

theorem entries_succ {α : Type} (f : Nat → α) (n : Nat) :
    (List.range (n + 1)).map f = (List.range n).map f ++ [f n] := by
  rw [List.range_succ, List.map_append]; rfl

theorem map_congr_range {α : Type} (f g : Nat → α) (n : Nat) (hfg : ∀ i, i < n → f i = g i) :
    (List.range n).map f = (List.range n).map g := by
  apply List.map_congr_left
  intro i hi
  exact hfg i (List.mem_range.1 hi)

theorem heap_push_spec (h : MinHeap) (v d : Int) (hw : WellFormed h) (hlt : h.size < h.capacity)
    (hv : 0 ≤ v ∧ v < h.capacity) :
    ∃ h2, heap_push h v d = some (true, h2) ∧ WellFormed h2 ∧ h2.size = h.size + 1 ∧
      h2.capacity = h.capacity ∧ h2.entries.Perm (⟨v, d⟩ :: h.entries) ∧
      (PosConsistent h → Absent h v → PosConsistent h2) ∧
      (∀ u, u ≠ v → Absent h u → h2.pos u = h.pos u) := by
  obtain ⟨hsz, hvr, hord⟩ := hw
  let h1 : MinHeap :=
    { h with
      data := Function.update h.data h.size ⟨v, d⟩
      pos := Function.update h.pos v (h.size : Int)
      size := h.size + 1 }
  have hd1 : ∀ i, i < h.size → h1.data i = h.data i := by
    intro i hi
    show Function.update h.data h.size ⟨v, d⟩ i = h.data i
    rw [Function.update_noteq (by omega)]
  have hd2 : h1.data h.size = ⟨v, d⟩ := by
    show Function.update h.data h.size ⟨v, d⟩ h.size = _
    simp
  have hvr1 : VerticesInRange h1 := by
    intro i hi
    have hi2 : i < h.size + 1 := hi
    by_cases e : i = h.size
    · rw [e, hd2]; exact hv
    · rw [hd1 i (by omega)]; exact hvr i (by omega)
  have hord1 : OrderedExceptUp h1 h.size := by
    constructor
    · intro i hi hi0 hne
      have hi2 : i < h.size + 1 := hi
      rw [hd1 i (by omega), hd1 ((i - 1) / 2) (by omega)]
      exact hord i (by omega) hi0
    · intro i hi hi0 hpar
      have hi2 : i < h.size + 1 := hi
      omega
  obtain ⟨h2, hrun, r, ho2⟩ := sift_up_loop_spec (h.size + 1) h1 h.size (by omega)
    (by show h.size < h.size + 1; omega) (by show h.size + 1 ≤ h.capacity; omega) hvr1 hord1
  have he1 : h1.entries = h.entries ++ [⟨v, d⟩] := by
    show (List.range (h.size + 1)).map h1.data = _
    rw [entries_succ, hd2, map_congr_range h1.data h.data h.size hd1]
    rfl
  refine ⟨h2, ?_, ⟨?_, r.vertices hvr1, ho2⟩, r.size_eq, r.capacity_eq, ?_, ?_, ?_⟩
  · unfold heap_push
    have : ¬ h.size ≥ h.capacity := by omega
    simp only [this, if_false, hv, and_self, if_true]
    show Option.map _ (heap_sift_up h1 (h.size + 1 - 1)) = _
    unfold heap_sift_up
    rw [Nat.add_sub_cancel, hrun]
    rfl
  · rw [r.size_eq, r.capacity_eq]; show h.size + 1 ≤ h.capacity; omega
  · refine r.perm.trans ?_
    rw [he1]
    exact List.perm_append_singleton _ _
  · intro hp ha
    apply r.pos_ok
    intro i hi
    have hi2 : i < h.size + 1 := hi
    show Function.update h.pos v (h.size : Int) (h1.data i).vertex = i
    by_cases e : i = h.size
    · rw [e, hd2]; simp
    · rw [hd1 i (by omega), Function.update_noteq (ha i (by omega))]
      exact hp i (by omega)
  · intro u hu ha
    rw [r.pos_frame u]
    · show Function.update h.pos v (h.size : Int) u = h.pos u
      rw [Function.update_noteq hu]
    · intro i hi
      have hi2 : i < h.size + 1 := hi
      by_cases e : i = h.size
      · rw [e, hd2]; exact fun hc => hu hc.symm
      · rw [hd1 i (by omega)]; exact ha i (by omega)

theorem heap_pop_spec (h : MinHeap) (hw : WellFormed h) (hpos : 0 < h.size) :
    ∃ h2, heap_pop h = some (some ((h.data 0).vertex, (h.data 0).distance), h2) ∧
      WellFormed h2 ∧ h2.size = h.size - 1 ∧ h2.capacity = h.capacity ∧
      h.entries.Perm (h.data 0 :: h2.entries) ∧
      (∀ e, e ∈ h.entries → (h.data 0).distance ≤ e.distance) ∧
      (PosConsistent h → PosConsistent h2) ∧
      (∀ u, Absent h u → h2.pos u = h.pos u) := by
  obtain ⟨hsz, hvr, hord⟩ := hw
  obtain ⟨n, hn⟩ : ∃ n, h.size = n + 1 := ⟨h.size - 1, by omega⟩
  let h1 : MinHeap :=
    { h with
      data := Function.update h.data 0 (h.data n)
      pos := Function.update h.pos (h.data n).vertex 0
      size := n }
  have hd0 : h1.data 0 = h.data n := by
    show Function.update h.data 0 (h.data n) 0 = _
    simp
  have hd1 : ∀ i, 0 < i → h1.data i = h.data i := by
    intro i hi
    show Function.update h.data 0 (h.data n) i = h.data i
    rw [Function.update_noteq (by omega)]
  have hvr1 : VerticesInRange h1 := by
    intro i hi
    have hi2 : i < n := hi
    by_cases e : i = 0
    · rw [e, hd0]; exact hvr n (by omega)
    · rw [hd1 i (by omega)]; exact hvr i (by omega)
  have hord1 : OrderedExceptDown h1 0 := by
    constructor
    · intro i hi hi0 hne
      have hi2 : i < n := hi
      rw [hd1 i hi0, hd1 ((i - 1) / 2) (by omega)]
      exact hord i (by omega) hi0
    · intro i hi hi0 hpar h00
      omega
  obtain ⟨h2, hrun, r, ho2⟩ := sift_down_rec_spec (n + 1) h1 0 (by show n < n + 1 + 0; omega)
    (Nat.zero_le _) (by show n ≤ h.capacity; omega) hvr1 hord1
  have hperm : h.entries.Perm (h.data 0 :: h1.entries) := by
    have p1 := perm_swapCells h.data (n + 1) 0 n (by omega) (by omega)
    have e1 : (List.range (n + 1)).map (swapCells h.data 0 n)
        = (List.range n).map h1.data ++ [h.data 0] := by
      rw [entries_succ]
      congr 1
      · apply map_congr_range
        intro i hi
        rw [swapCells_apply]
        have : ¬ i = n := by omega
        simp only [this, if_false]
        by_cases e : i = 0
        · subst e; simp only [if_true]; exact hd0.symm
        · simp only [e, if_false]; exact (hd1 i (by omega)).symm
      · rw [swapCells_apply]; simp
    rw [e1] at p1
    show ((List.range h.size).map h.data).Perm _
    rw [hn]
    exact p1.symm.trans (List.perm_append_singleton _ _)
  refine ⟨h2, ?_, ⟨?_, r.vertices hvr1, ho2⟩, ?_, r.capacity_eq, ?_, ?_, ?_, ?_⟩
  · unfold heap_pop
    have c1 : ¬ h.size = 0 := by omega
    have c2 : n < h.capacity := by omega
    have c3 : h.size - 1 = n := by omega
    simp only [c1, c3, c2, if_false, if_true, Function.update_same, hvr n (by omega), and_self]
    show Option.map _ (heap_sift_down h1 0) = _
    unfold heap_sift_down
    show Option.map _ (sift_down_rec (n + 1) h1 0) = _
    rw [hrun]
    rfl
  · rw [r.size_eq, r.capacity_eq]; show n ≤ h.capacity; omega
  · rw [r.size_eq]; show n = h.size - 1; omega
  · exact hperm.trans (List.Perm.cons _ r.perm.symm)
  · intro e he
    obtain ⟨i, hi, rfl⟩ := mem_entries.1 he
    exact root_min h hord i hi
  · intro hp
    apply r.pos_ok
    intro i hi
    have hi2 : i < n := hi
    show Function.update h.pos (h.data n).vertex 0 (h1.data i).vertex = i
    by_cases e : i = 0
    · rw [e, hd0]; simp
    · rw [hd1 i (by omega)]
      have hne : (h.data i).vertex ≠ (h.data n).vertex := by
        intro hc
        have a := hp i (by omega)
        have b := hp n (by omega)
        rw [hc, b] at a
        have : n = i := by exact_mod_cast a
        omega
      rw [Function.update_noteq hne]
      exact hp i (by omega)
  · intro u ha
    rw [r.pos_frame u]
    · show Function.update h.pos (h.data n).vertex 0 u = h.pos u
      rw [Function.update_noteq (fun hc => ha n (by omega) hc.symm)]
    · intro i hi
      have hi2 : i < n := hi
      by_cases e : i = 0
      · rw [e, hd0]; exact ha n (by omega)
      · rw [hd1 i (by omega)]; exact ha i (by omega)

theorem perm_update_cell {α : Type} (f : Nat → α) (x : α) (i : Nat) :
    ∀ n, i < n → (f i :: (List.range n).map (Function.update f i x)).Perm
      (x :: (List.range n).map f) := by
  intro n
  induction n with
  | zero => intro hi; omega
  | succ n ih =>
    intro hi
    rw [entries_succ, entries_succ]
    by_cases e : i = n
    · subst e
      have e1 : (List.range i).map (Function.update f i x) = (List.range i).map f := by
        apply map_congr_range
        intro k hk
        rw [Function.update_noteq (by omega)]
      rw [e1, Function.update_same]
      have p1 : (f i :: ((List.range i).map f ++ [x])).Perm (f i :: x :: (List.range i).map f) :=
        List.Perm.cons _ (List.perm_append_singleton _ _)
      have p2 : (x :: ((List.range i).map f ++ [f i])).Perm (x :: f i :: (List.range i).map f) :=
        List.Perm.cons _ (List.perm_append_singleton _ _)
      exact p1.trans ((List.Perm.swap _ _ _).trans p2.symm)
    · rw [Function.update_noteq (by omega : n ≠ i)]
      have p := (ih (by omega)).append_right [f n]
      simpa using p

theorem heap_decrease_key_unfold (h : MinHeap) (v d : Int) (i : Nat) (hsz : h.size ≤ h.capacity)
    (hv : 0 ≤ v ∧ v < h.capacity) (hi : i < h.size) (hp : h.pos v = i) :
    heap_decrease_key h v d = (heap_sift_up (rekeyed h i d) i).map fun h2 => (true, h2) := by
  unfold heap_decrease_key
  have c1 : ¬ ((i : Int) ≥ (h.size : Int)) := by omega
  have c2 : (0 : Int) ≤ (i : Int) ∧ (i : Int) < (h.capacity : Int) := by omega
  simp only [hv, and_self, if_true, hp, c1, if_false, c2, Int.toNat_ofNat]
  rfl

theorem heap_decrease_key_spec (h : MinHeap) (v d : Int) (i : Nat) (hw : WellFormed h)
    (hv : 0 ≤ v ∧ v < h.capacity) (hi : i < h.size) (hp : h.pos v = i)
    (hd : d ≤ (h.data i).distance) :
    ∃ h2, heap_decrease_key h v d = some (true, h2) ∧ WellFormed h2 ∧ h2.size = h.size ∧
      h2.capacity = h.capacity ∧
      (h.data i :: h2.entries).Perm ({ h.data i with distance := d } :: h.entries) ∧
      (PosConsistent h → PosConsistent h2) ∧
      (∀ u, Absent h u → h2.pos u = h.pos u) := by
  obtain ⟨hsz, hvr, hord⟩ := hw
  have hd0 : (rekeyed h i d).data i = { h.data i with distance := d } := by
    show Function.update h.data i _ i = _
    simp
  have hd1 : ∀ j, j ≠ i → (rekeyed h i d).data j = h.data j := by
    intro j hj
    show Function.update h.data i _ j = _
    rw [Function.update_noteq hj]
  have hvx : ∀ j, ((rekeyed h i d).data j).vertex = (h.data j).vertex := by
    intro j
    by_cases e : j = i
    · rw [e, hd0]
    · rw [hd1 j e]
  have hkey : ∀ j, ((rekeyed h i d).data j).distance ≤ (h.data j).distance := by
    intro j
    by_cases e : j = i
    · rw [e, hd0]; exact hd
    · rw [hd1 j e]
  have hvr1 : VerticesInRange (rekeyed h i d) := by
    intro j hj
    rw [hvx]; exact hvr j hj
  have hord1 : OrderedExceptUp (rekeyed h i d) i := by
    constructor
    · intro j hj hj0 hne
      rw [hd1 j hne]
      exact (hkey _).trans (hord j hj hj0)
    · intro j hj hj0 hpar hi0
      have a := hord i hi hi0
      have b := hord j hj hj0
      rw [hpar] at b
      have c : j ≠ i := by omega
      rw [hd1 j c, hd1 ((i - 1) / 2) (by omega)]
      omega
  obtain ⟨h2, hrun, r, ho2⟩ := sift_up_loop_spec (i + 1) (rekeyed h i d) i (by omega) hi hsz
    hvr1 hord1
  refine ⟨h2, ?_, ⟨?_, r.vertices hvr1, ho2⟩, r.size_eq, r.capacity_eq, ?_, ?_, ?_⟩
  · rw [heap_decrease_key_unfold h v d i hsz hv hi hp]
    unfold heap_sift_up
    rw [hrun]; rfl
  · rw [r.size_eq, r.capacity_eq]; exact hsz
  · have p1 : (h.data i :: h2.entries).Perm (h.data i :: (rekeyed h i d).entries) :=
      List.Perm.cons _ r.perm
    exact p1.trans (perm_update_cell h.data _ i h.size hi)
  · intro hpc
    apply r.pos_ok
    intro j hj
    rw [hvx]; exact hpc j hj
  · intro u ha
    rw [r.pos_frame u]
    · rfl
    · intro j hj
      rw [hvx]; exact ha j hj

theorem heap_decrease_key_not_smaller (h : MinHeap) (v d : Int) (i : Nat) (hw : WellFormed h)
    (hv : 0 ≤ v ∧ v < h.capacity) (hi : i < h.size) (hp : h.pos v = i)
    (hd : (h.data i).distance ≤ d) :
    heap_decrease_key h v d = some (true, rekeyed h i d) := by
  obtain ⟨hsz, hvr, hord⟩ := hw
  rw [heap_decrease_key_unfold h v d i hsz hv hi hp]
  unfold heap_sift_up sift_up_loop
  by_cases h0 : 0 < i
  · have hc : i < (rekeyed h i d).capacity := by show i < h.capacity; omega
    have e1 : ((rekeyed h i d).data i).distance = d := by
      show (Function.update h.data i _ i).distance = d
      simp
    have e2 : (rekeyed h i d).data ((i - 1) / 2) = h.data ((i - 1) / 2) := by
      show Function.update h.data i _ _ = _
      rw [Function.update_noteq (by omega)]
    have := hord i hi h0
    have c : ¬ d < (h.data ((i - 1) / 2)).distance := by omega
    simp only [h0, hc, if_true, e1, e2, c, if_false, Option.map_some']
  · simp only [h0, if_false, Option.map_some']

end Dijkstra

/-! ## Claims about the heap of `dijkstra.c` -/

namespace Dijkstra

theorem heap_create_inv (capacity : Nat) : HeapInv (heap_create capacity) := by
  refine ⟨⟨Nat.zero_le _, ?_, ?_⟩, ?_⟩
  · intro i hi; exact absurd hi (Nat.not_lt_zero _)
  · intro i hi; exact absurd hi (Nat.not_lt_zero _)
  · intro i hi; exact absurd hi (Nat.not_lt_zero _)

theorem apply_op_inv (h : MinHeap) (op : HeapOp) (hinv : HeapInv h) (ha : OpAllowed h op) :
    ∃ h1, apply_op h op = some h1 ∧ HeapInv h1 ∧ h1.capacity = h.capacity := by
  obtain ⟨hw, hp⟩ := hinv
  cases op with
  | push v d =>
    obtain ⟨hv0, hv1, hab⟩ := ha
    by_cases hfull : h.size ≥ h.capacity
    · refine ⟨h, ?_, ⟨hw, hp⟩, rfl⟩
      simp [apply_op, heap_push, hfull]
    · obtain ⟨h2, hrun, hw2, _, hc, _, hp2, _⟩ :=
        heap_push_spec h v d hw (by omega) ⟨hv0, hv1⟩
      exact ⟨h2, by simp [apply_op, hrun], ⟨hw2, hp2 hp hab⟩, hc⟩
  | pop =>
    by_cases hz : h.size = 0
    · refine ⟨h, ?_, ⟨hw, hp⟩, rfl⟩
      simp [apply_op, heap_pop, hz]
    · obtain ⟨h2, hrun, hw2, _, hc, _, _, hp2, _⟩ := heap_pop_spec h hw (by omega)
      exact ⟨h2, by simp [apply_op, hrun], ⟨hw2, hp2 hp⟩, hc⟩
  | decrease_key v d =>
    obtain ⟨i, hi, hv, hd⟩ := ha
    have hvr := hw.2.1 i hi
    rw [hv] at hvr
    have hpi := hp i hi
    rw [hv] at hpi
    obtain ⟨h2, hrun, hw2, _, hc, _, hp2, _⟩ := heap_decrease_key_spec h v d i hw hvr hi hpi hd
    exact ⟨h2, by simp [apply_op, hrun], ⟨hw2, hp2 hp⟩, hc⟩

theorem run_ops_inv : ∀ (ops : List HeapOp) (h : MinHeap), HeapInv h → OpsAllowed h ops →
    ∃ h1, run_ops h ops = some h1 ∧ HeapInv h1 := by
  intro ops
  induction ops with
  | nil => intro h hinv _; exact ⟨h, rfl, hinv⟩
  | cons op ops ih =>
    intro h hinv ha
    unfold OpsAllowed at ha
    obtain ⟨h1, hrun, hinv1, _⟩ := apply_op_inv h op hinv ha.1
    have ha2 := ha.2
    rw [hrun] at ha2
    obtain ⟨h2, hrun2, hinv2⟩ := ih h1 hinv1 ha2
    exact ⟨h2, by simp [run_ops, hrun, hrun2], hinv2⟩

/-- C5, as stated, fails: a `heap_decrease_key` call with a larger key leaves a
child below its parent.  After `push(0,1)`, `push(1,2)`, `decrease_key(0,10)`
the root carries key 10 and its child key 2. -/
theorem heap_order_lost_after_key_increase :
    ∃ h, run_ops (heap_create 2)
        [HeapOp.push 0 1, HeapOp.push 1 2, HeapOp.decrease_key 0 10] = some h ∧
      ¬ HeapOrdered h := by
  refine ⟨_, rfl, ?_⟩
  intro ho
  have := ho 1 (by decide) (by decide)
  revert this
  decide

/-- C5, amended: starting from `heap_create(capacity)`, after any sequence of
`heap_push` / `heap_pop` / `heap_decrease_key` calls in which every push names
an in-range vertex that is not in the heap and every decrease-key names a
vertex of the heap with a key not larger than its current one, the sequence
runs without fault, every non-root entry of `data[0..size)` has a key at least
its parent's key, and `pos[data[i].vertex] = i` for every `i < size`. -/
theorem heap_invariant_after_allowed_ops (capacity : Nat) (ops : List HeapOp)
    (ha : OpsAllowed (heap_create capacity) ops) :
    ∃ h, run_ops (heap_create capacity) ops = some h ∧
      (∀ i, i < h.size → 0 < i → (h.data ((i - 1) / 2)).distance ≤ (h.data i).distance) ∧
      (∀ i, i < h.size → h.pos (h.data i).vertex = i) := by
  obtain ⟨h, hrun, hinv⟩ := run_ops_inv ops (heap_create capacity) (heap_create_inv capacity) ha
  exact ⟨h, hrun, hinv.1.2.2, hinv.2⟩

/-- Witness of `heap_invariant_after_allowed_ops`: three pushes, a key decrease
and a pop on a heap of capacity 3. -/
theorem heap_invariant_after_allowed_ops_witness :
    OpsAllowed (heap_create 3)
        [HeapOp.push 0 5, HeapOp.push 1 3, HeapOp.push 2 8, HeapOp.decrease_key 2 1,
         HeapOp.pop] ∧
      ∃ h, run_ops (heap_create 3)
          [HeapOp.push 0 5, HeapOp.push 1 3, HeapOp.push 2 8, HeapOp.decrease_key 2 1,
           HeapOp.pop] = some h ∧
        (∀ i, i < h.size → 0 < i → (h.data ((i - 1) / 2)).distance ≤ (h.data i).distance) ∧
        (∀ i, i < h.size → h.pos (h.data i).vertex = i) :=
  ⟨by decide, heap_invariant_after_allowed_ops 3 _ (by decide)⟩

theorem push_all_wf : ∀ (ps : List (Int × Int)) (h : MinHeap), WellFormed h →
    (∀ p, p ∈ ps → 0 ≤ p.1 ∧ p.1 < h.capacity) →
    ∃ h1, push_all h ps = some h1 ∧ WellFormed h1 := by
  intro ps
  induction ps with
  | nil => intro h hw _; exact ⟨h, rfl, hw⟩
  | cons p ps ih =>
    intro h hw hr
    by_cases hfull : h.size ≥ h.capacity
    · obtain ⟨h1, hrun, hw1⟩ := ih h hw (fun q hq => hr q (List.mem_cons_of_mem _ hq))
      exact ⟨h1, by simp [push_all, heap_push, hfull, hrun], hw1⟩
    · obtain ⟨h2, hrun, hw2, _, hc, _⟩ :=
        heap_push_spec h p.1 p.2 hw (by omega) (hr p (List.mem_cons_self _ _))
      obtain ⟨h1, hrun1, hw1⟩ := ih h2 hw2
        (fun q hq => by rw [hc]; exact hr q (List.mem_cons_of_mem _ hq))
      exact ⟨h1, by simp [push_all, hrun, hrun1], hw1⟩

theorem pop_keys_sorted : ∀ (n : Nat) (h : MinHeap), WellFormed h →
    ∃ keys, pop_keys n h = some keys ∧ keys.Pairwise (fun a b => a ≤ b) ∧
      (∀ k, k ∈ keys → ∃ e, e ∈ h.entries ∧ e.distance = k) ∧ keys.length = min n h.size := by
  intro n
  induction n with
  | zero => intro h _; exact ⟨[], rfl, List.Pairwise.nil, by simp, by simp⟩
  | succ n ih =>
    intro h hw
    by_cases hz : h.size = 0
    · refine ⟨[], ?_, List.Pairwise.nil, by simp, by simp [hz]⟩
      simp [pop_keys, heap_pop, hz]
    · obtain ⟨h2, hrun, hw2, hs2, _, hperm, hmin, _⟩ := heap_pop_spec h hw (by omega)
      obtain ⟨keys, hk, hsorted, hmem, hlen⟩ := ih h2 hw2
      have hsub : ∀ e, e ∈ h2.entries → e ∈ h.entries :=
        fun e he => hperm.mem_iff.2 (List.mem_cons_of_mem _ he)
      refine ⟨(h.data 0).distance :: keys, ?_, ?_, ?_, ?_⟩
      · simp [pop_keys, hrun, hk]
      · refine List.Pairwise.cons ?_ hsorted
        intro k hkm
        obtain ⟨e, he, rfl⟩ := hmem k hkm
        exact hmin e (hsub e he)
      · intro k hkm
        rcases List.mem_cons.1 hkm with rfl | hkm
        · exact ⟨h.data 0, hperm.mem_iff.2 (List.mem_cons_self _ _), rfl⟩
        · obtain ⟨e, he, rfl⟩ := hmem k hkm
          exact ⟨e, hsub e he, rfl⟩
      · simp only [List.length_cons, hlen, hs2]; omega

/-- C6: for any sequence of `heap_push` calls on `heap_create(capacity)` with
vertices in `[0, capacity)` (calls on a full heap return `false` and change
nothing), followed by any number `n` of successive `heap_pop` calls, every
call runs without fault, `min n size` keys are extracted and the sequence of
extracted keys is non-decreasing. -/
theorem extracted_keys_non_decreasing (capacity : Nat) (pushes : List (Int × Int)) (n : Nat)
    (hr : ∀ p, p ∈ pushes → 0 ≤ p.1 ∧ p.1 < capacity) :
    ∃ h keys, push_all (heap_create capacity) pushes = some h ∧ pop_keys n h = some keys ∧
      keys.length = min n h.size ∧ keys.Pairwise (fun a b => a ≤ b) := by
  obtain ⟨h, hrun, hw⟩ := push_all_wf pushes (heap_create capacity)
    (heap_create_inv capacity).1 hr
  obtain ⟨keys, hk, hs, _, hl⟩ := pop_keys_sorted n h hw
  exact ⟨h, keys, hrun, hk, hl, hs⟩

/-- Witness of `extracted_keys_non_decreasing`: five pushes (one vertex twice)
into a heap of capacity 4, then four pops. -/
theorem extracted_keys_non_decreasing_witness :
    (∀ p, p ∈ [((0 : Int), (7 : Int)), (1, 3), (2, 9), (1, 1), (3, 4)] → 0 ≤ p.1 ∧ p.1 < (4 : Nat)) ∧
      ∃ h keys, push_all (heap_create 4) [(0, 7), (1, 3), (2, 9), (1, 1), (3, 4)] = some h ∧
        pop_keys 4 h = some keys ∧ keys.length = min 4 h.size ∧
        keys.Pairwise (fun a b => a ≤ b) :=
  ⟨by decide, extracted_keys_non_decreasing 4 _ 4 (by decide)⟩

/-- C7, as stated, fails: `heap_decrease_key` has no key-not-smaller check, in
`dijkstra.c` and in `prim.c` alike.  On the heap holding only `(0, 1)`, the
call `heap_decrease_key(0, 10)` returns `true` and vertex 0 then carries key
10. -/
theorem heap_decrease_key_raises_key :
    (∃ h h2, run_ops (heap_create 2) [HeapOp.push 0 1] = some h ∧
      (h.data 0).vertex = 0 ∧ (h.data 0).distance = 1 ∧
      heap_decrease_key h 0 10 = some (true, h2) ∧
      (h2.data 0).vertex = 0 ∧ (h2.data 0).distance = 10) ∧
    (∃ h h2, Prim.heap_push (Prim.heap_create 2 (fun _ => ⟨0, 0⟩) (fun _ => 0)) 0 1
        = some (true, h) ∧
      (h.data 0).vertex = 0 ∧ (h.data 0).weight = 1 ∧
      Prim.heap_decrease_key h 0 10 = some (true, h2) ∧
      (h2.data 0).vertex = 0 ∧ (h2.data 0).weight = 10) :=
  ⟨⟨_, _, rfl, by decide, by decide, rfl, by decide, by decide⟩,
    ⟨_, _, rfl, by decide, by decide, rfl, by decide, by decide⟩⟩

/-- C7, amended: `heap_decrease_key(v, k)` on a vertex `v` stored at index `i`
of a heap satisfying the invariant, called with `k` not smaller than the
current key, is not rejected: it returns `true` and its only effect is the
assignment `data[i].distance = k` (no swap follows), so the key of `v` stays
the same when `k` equals it and rises when `k` is larger. -/
theorem heap_decrease_key_stores_larger_key (h : MinHeap) (v k : Int) (i : Nat)
    (hinv : HeapInv h) (hi : i < h.size) (hv : (h.data i).vertex = v)
    (hk : (h.data i).distance ≤ k) :
    heap_decrease_key h v k = some (true,
      { h with data := Function.update h.data i { vertex := v, distance := k } }) := by
  have hvr := hinv.1.2.1 i hi
  rw [hv] at hvr
  have hp := hinv.2 i hi
  rw [hv] at hp
  rw [heap_decrease_key_not_smaller h v k i hinv.1 hvr hi hp hk]
  subst hv
  rfl

theorem sample_heap_inv : HeapInv sample_heap := by
  unfold HeapInv WellFormed VerticesInRange HeapOrdered PosConsistent
  decide

/-- Witness of `heap_decrease_key_stores_larger_key`: vertex 0 sits at index 1
of `sample_heap` with key 5 and receives key 9. -/
theorem heap_decrease_key_stores_larger_key_witness :
    HeapInv sample_heap ∧ 1 < sample_heap.size ∧ (sample_heap.data 1).vertex = 0 ∧
      (sample_heap.data 1).distance ≤ 9 ∧
      heap_decrease_key sample_heap 0 9 = some (true,
        { sample_heap with
          data := Function.update sample_heap.data 1 { vertex := 0, distance := 9 } }) :=
  ⟨sample_heap_inv, by decide, by decide, by decide,
    heap_decrease_key_stores_larger_key sample_heap 0 9 1 sample_heap_inv (by decide)
      (by decide) (by decide)⟩

/-- C8: on a non-empty heap satisfying the heap invariant, `heap_pop` returns
`true` with an entry `(vertex, key)` of the heap whose key is at most every key
in the heap; afterwards the heap holds exactly the previous entries minus that
one, its size has decreased by one, and the invariant still holds. -/
theorem heap_pop_returns_minimum (h : MinHeap) (hinv : HeapInv h) (hne : 0 < h.size) :
    ∃ vertex key h2, heap_pop h = some (some (vertex, key), h2) ∧
      (⟨vertex, key⟩ : HeapNode) ∈ h.entries ∧
      (∀ e, e ∈ h.entries → key ≤ e.distance) ∧
      h.entries.Perm (⟨vertex, key⟩ :: h2.entries) ∧
      h2.size = h.size - 1 ∧ HeapInv h2 := by
  obtain ⟨h2, hrun, hw2, hs2, _, hperm, hmin, hp2, _⟩ := heap_pop_spec h hinv.1 hne
  exact ⟨(h.data 0).vertex, (h.data 0).distance, h2, hrun,
    mem_entries.2 ⟨0, hne, rfl⟩, hmin, hperm, hs2, hw2, hp2 hinv.2⟩

/-- Witness of `heap_pop_returns_minimum` on `sample_heap`. -/
theorem heap_pop_returns_minimum_witness :
    HeapInv sample_heap ∧ 0 < sample_heap.size ∧
      ∃ vertex key h2, heap_pop sample_heap = some (some (vertex, key), h2) ∧
        (⟨vertex, key⟩ : HeapNode) ∈ sample_heap.entries ∧
        (∀ e, e ∈ sample_heap.entries → key ≤ e.distance) ∧
        sample_heap.entries.Perm (⟨vertex, key⟩ :: h2.entries) ∧
        h2.size = sample_heap.size - 1 ∧ HeapInv h2 :=
  ⟨sample_heap_inv, by decide, heap_pop_returns_minimum sample_heap sample_heap_inv (by decide)⟩

/-- C9 fails on the code: `heap_pop` leaves `pos` of the extracted vertex as it
was.  After `push(0,1)`, `push(1,2)` and one `heap_pop` (which extracts vertex
0), the heap holds only vertex 1, yet `heap_contains(0)` returns `true`. -/
theorem heap_contains_true_for_extracted_vertex :
    ∃ h h2, run_ops (heap_create 2) [HeapOp.push 0 1, HeapOp.push 1 2] = some h ∧
      heap_pop h = some (some (0, 1), h2) ∧
      h2.entries = [⟨1, 2⟩] ∧ heap_contains h2 0 = some true :=
  ⟨_, _, rfl, rfl, by decide, by decide⟩

end Dijkstra

/-! ## Claims about `prim_mst` -/

namespace Prim

/-- C3 fails on the code: `prim_mst` calls `heap_decrease_key` for every edge
that reaches a vertex of the heap, without comparing the edge weight with the
key.  On the triangle `0-1` (1), `0-2` (2), `1-2` (10) from vertex 0, with
`pos` cells that read as absent, vertex 2 enters the heap with key 2, the edge
`1-2` then raises its key to 10, and the total is 11; the spanning tree made of
the edges `0-1` and `0-2` weighs 3. -/
theorem prim_total_weight_not_minimal :
    ∃ g st, add_edges (graph_create 3) triangle_edges = some g ∧
      prim_mst 10 (fun _ => ⟨0, 0⟩) (fun _ => 3) g 0 = some st ∧
      st.chosen = [(0, 1, 1), (1, 2, 10)] ∧ st.total_weight = 11 ∧
      (⟨1, 1⟩ : AdjNode) ∈ g.array 0 ∧ (⟨2, 2⟩ : AdjNode) ∈ g.array 0 :=
  ⟨_, _, rfl, rfl, by decide, by decide, by decide, by decide⟩

/-- C4 fails on the code: `heap_create` of `prim.c` does not initialise `pos`,
and `heap_contains` reads it.  On the triangle from vertex 0 with zero-filled
heap memory, `heap_contains(1)` is true before vertex 1 was pushed, the
following `heap_decrease_key(1, 1)` overwrites the key of vertex 2, and the
edge `(0, 2)` is recorded with weight 1 although the graph has no edge from 0
to 2 of weight 1 (its weight is 2). -/
theorem prim_records_edge_with_wrong_weight :
    ∃ g st, add_edges (graph_create 3) triangle_edges = some g ∧
      prim_mst 10 (fun _ => ⟨0, 0⟩) (fun _ => 0) g 0 = some st ∧
      st.chosen = [(0, 2, 1), (2, 1, 10)] ∧
      (⟨2, 1⟩ : AdjNode) ∉ g.array 0 ∧ g.array 0 = [⟨2, 2⟩, ⟨1, 1⟩] :=
  ⟨_, _, rfl, rfl, by decide, by decide, by decide⟩

end Prim

/-! ## The invariants of `dijkstra_shortest_path` -/

namespace Dijkstra

theorem length_le_of_nodup_range (l : List Int) (n : Nat) (hnd : l.Nodup)
    (hr : ∀ x, x ∈ l → 0 ≤ x ∧ x < n) : l.length ≤ n := by
  have h1 : l.toFinset ⊆ (Finset.range n).image (fun k : Nat => (k : Int)) := by
    intro x hx
    have := hr x (List.mem_toFinset.1 hx)
    rw [Finset.mem_image]
    exact ⟨x.toNat, Finset.mem_range.2 (by omega), by omega⟩
  have h2 := Finset.card_le_card h1
  rw [List.toFinset_card_of_nodup hnd] at h2
  exact h2.trans (Finset.card_image_le.trans (by simp))

theorem entries_vertex_inj (h : MinHeap) (hp : PosConsistent h) (e1 e2 : HeapNode)
    (h1 : e1 ∈ h.entries) (h2 : e2 ∈ h.entries) (hv : e1.vertex = e2.vertex) : e1 = e2 := by
  obtain ⟨i, hi, rfl⟩ := mem_entries.1 h1
  obtain ⟨j, hj, rfl⟩ := mem_entries.1 h2
  have a := hp i hi
  have b := hp j hj
  rw [hv, b] at a
  have : j = i := by exact_mod_cast a
  rw [this]

theorem entries_nodup (h : MinHeap) (hp : PosConsistent h) : h.entries.Nodup := by
  unfold MinHeap.entries
  refine List.Nodup.map_on ?_ (List.nodup_range _)
  intro i hi j hj hij
  have a := hp i (List.mem_range.1 hi)
  have b := hp j (List.mem_range.1 hj)
  rw [hij, b] at a
  exact_mod_cast a.symm

theorem entries_vertices_nodup (h : MinHeap) (hp : PosConsistent h) :
    (h.entries.map fun e => e.vertex).Nodup := by
  refine List.Nodup.map_on ?_ (entries_nodup h hp)
  intro e1 h1 e2 h2 hv
  exact entries_vertex_inj h hp e1 e2 h1 h2 hv

theorem length_entries (h : MinHeap) : h.entries.length = h.size := by
  simp [MinHeap.entries]

theorem absent_iff (h : MinHeap) (v : Int) : Absent h v ↔ ∀ e, e ∈ h.entries → e.vertex ≠ v := by
  constructor
  · intro ha e he
    obtain ⟨i, hi, rfl⟩ := mem_entries.1 he
    exact ha i hi
  · intro ha i hi
    exact ha _ (mem_entries.2 ⟨i, hi, rfl⟩)

theorem size_lt_capacity_of_absent (h : MinHeap) (v : Int) (hinv : HeapInv h)
    (hv : 0 ≤ v ∧ v < h.capacity) (ha : Absent h v) : h.size < h.capacity := by
  have hnd : (v :: h.entries.map fun e => e.vertex).Nodup := by
    refine List.nodup_cons.2 ⟨?_, entries_vertices_nodup h hinv.2⟩
    intro hm
    obtain ⟨e, he, hev⟩ := List.mem_map.1 hm
    exact (absent_iff h v).1 ha e he hev
  have := length_le_of_nodup_range _ h.capacity hnd (by
    intro x hx
    rcases List.mem_cons.1 hx with rfl | hx
    · exact hv
    · obtain ⟨e, he, rfl⟩ := List.mem_map.1 hx
      obtain ⟨i, hi, rfl⟩ := mem_entries.1 he
      exact hinv.1.2.1 i hi)
  simp only [List.length_cons, List.length_map, length_entries] at this
  omega

theorem mem_of_perm_cons {α : Type} [DecidableEq α] (a b : α) (l l2 : List α) (hnd : l.Nodup)
    (ha : a ∈ l) (hab : a ≠ b) (hp : (a :: l2).Perm (b :: l)) (x : α) :
    x ∈ l2 ↔ x ≠ a ∧ (x = b ∨ x ∈ l) := by
  have hcount := hp.count_eq a
  rw [List.count_cons_self, List.count_cons_of_ne hab, List.count_eq_one_of_mem hnd ha]
    at hcount
  have hna : a ∉ l2 := by
    intro hm
    have := List.count_pos_iff.2 hm
    omega
  have hm := hp.mem_iff (a := x)
  simp only [List.mem_cons] at hm
  constructor
  · intro hx
    have hxa : x ≠ a := fun hc => hna (hc ▸ hx)
    exact ⟨hxa, hm.1 (Or.inr hx)⟩
  · rintro ⟨hxa, hx⟩
    rcases hm.2 hx with h1 | h1
    · exact absurd h1 hxa
    · exact h1

theorem mem_of_perm_pop {α : Type} (a : α) (l l2 : List α) (hnd : l.Nodup)
    (hp : l.Perm (a :: l2)) (x : α) : x ∈ l2 ↔ x ≠ a ∧ x ∈ l := by
  have hnd2 : (a :: l2).Nodup := hp.nodup_iff.1 hnd
  have hna := (List.nodup_cons.1 hnd2).1
  have hm := hp.mem_iff (a := x)
  simp only [List.mem_cons] at hm
  constructor
  · intro hx
    exact ⟨fun hc => hna (hc ▸ hx), hm.2 (Or.inr hx)⟩
  · rintro ⟨hxa, hx⟩
    rcases hm.1 hx with h1 | h1
    · exact absurd h1 hxa
    · exact h1

theorem heap_push_mem (h : MinHeap) (v d : Int) (hinv : HeapInv h)
    (hv : 0 ≤ v ∧ v < h.capacity) (ha : Absent h v) :
    ∃ h2, heap_push h v d = some (true, h2) ∧ HeapInv h2 ∧ h2.capacity = h.capacity ∧
      (∀ e, e ∈ h2.entries ↔ e = ⟨v, d⟩ ∨ e ∈ h.entries) ∧
      (∀ u, u ≠ v → Absent h u → h2.pos u = h.pos u) := by
  have hlt := size_lt_capacity_of_absent h v hinv hv ha
  obtain ⟨h2, hrun, hw2, _, hc, hperm, hp2, hfr⟩ := heap_push_spec h v d hinv.1 hlt hv
  refine ⟨h2, hrun, ⟨hw2, hp2 hinv.2 ha⟩, hc, ?_, hfr⟩
  intro e
  rw [hperm.mem_iff, List.mem_cons]

theorem heap_decrease_key_mem (h : MinHeap) (v old new : Int) (hinv : HeapInv h)
    (hm : (⟨v, old⟩ : HeapNode) ∈ h.entries) (hlt : new < old) :
    ∃ h2, heap_decrease_key h v new = some (true, h2) ∧ HeapInv h2 ∧
      h2.capacity = h.capacity ∧
      (∀ e, e ∈ h2.entries ↔ e = ⟨v, new⟩ ∨ (e ∈ h.entries ∧ e.vertex ≠ v)) ∧
      (∀ u, Absent h u → h2.pos u = h.pos u) := by
  obtain ⟨i, hi, hdi⟩ := mem_entries.1 hm
  have hvr := hinv.1.2.1 i hi
  have hpi := hinv.2 i hi
  rw [hdi] at hvr hpi
  obtain ⟨h2, hrun, hw2, _, hc, hperm, hp2, hfr⟩ :=
    heap_decrease_key_spec h v new i hinv.1 hvr hi hpi (by rw [hdi]; exact le_of_lt hlt)
  refine ⟨h2, hrun, ⟨hw2, hp2 hinv.2⟩, hc, ?_, hfr⟩
  intro e
  rw [hdi] at hperm
  have hne : (⟨v, old⟩ : HeapNode) ≠ ⟨v, new⟩ := by
    intro hc2
    have := congrArg HeapNode.distance hc2
    simp at this
    omega
  rw [mem_of_perm_cons _ _ _ _ (entries_nodup h hinv.2) hm hne hperm e]
  constructor
  · rintro ⟨h1, h2 | h2⟩
    · exact Or.inl h2
    · refine Or.inr ⟨h2, ?_⟩
      intro hev
      exact h1 (entries_vertex_inj h hinv.2 e ⟨v, old⟩ h2 hm hev)
  · rintro (h1 | ⟨h1, h2⟩)
    · exact ⟨by rw [h1]; exact hne.symm, Or.inl h1⟩
    · exact ⟨by intro hc2; rw [hc2] at h2; exact h2 rfl, Or.inr h1⟩

theorem heap_pop_mem (h : MinHeap) (hinv : HeapInv h) (hne : 0 < h.size) :
    ∃ v d h2, heap_pop h = some (some (v, d), h2) ∧ (⟨v, d⟩ : HeapNode) ∈ h.entries ∧
      (∀ e, e ∈ h.entries → d ≤ e.distance) ∧ HeapInv h2 ∧ h2.capacity = h.capacity ∧
      (∀ e, e ∈ h2.entries ↔ e ∈ h.entries ∧ e.vertex ≠ v) ∧
      (∀ u, Absent h u → h2.pos u = h.pos u) ∧ h2.size = h.size - 1 := by
  obtain ⟨h2, hrun, hw2, hs2, hc, hperm, hmin, hp2, hfr⟩ := heap_pop_spec h hinv.1 hne
  have h0 : h.data 0 ∈ h.entries := mem_entries.2 ⟨0, hne, rfl⟩
  refine ⟨(h.data 0).vertex, (h.data 0).distance, h2, hrun, h0, hmin, ⟨hw2, hp2 hinv.2⟩, hc,
    ?_, hfr, hs2⟩
  intro e
  rw [mem_of_perm_pop _ _ _ (entries_nodup h hinv.2) hperm e]
  constructor
  · rintro ⟨h1, h2⟩
    exact ⟨h2, fun hev => h1 (entries_vertex_inj h hinv.2 e _ h2 h0 hev)⟩
  · rintro ⟨h1, h2⟩
    exact ⟨fun hc2 => h2 (by rw [hc2]), h1⟩

theorem heap_contains_present (h : MinHeap) (v d : Int) (hinv : HeapInv h)
    (hm : (⟨v, d⟩ : HeapNode) ∈ h.entries) : heap_contains h v = some true := by
  obtain ⟨i, hi, hdi⟩ := mem_entries.1 hm
  have hvr := hinv.1.2.1 i hi
  have hpi := hinv.2 i hi
  rw [hdi] at hvr hpi
  unfold heap_contains
  simp only [hvr, and_self, if_true, hpi]
  simp
  omega

theorem heap_contains_unset (h : MinHeap) (v : Int) (hv : 0 ≤ v ∧ v < h.capacity)
    (hp : h.pos v = -1) : heap_contains h v = some false := by
  unfold heap_contains
  simp [hv, hp]

theorem absent_of_pos_unset (h : MinHeap) (v : Int) (hp : PosConsistent h)
    (hv : h.pos v = -1) : Absent h v := by
  intro i hi hc
  have := hp i hi
  rw [hc, hv] at this
  omega

theorem valid_edge (g : Graph) (hv : g.Valid) (u : Int) (hu : 0 ≤ u ∧ u < g.num_vertices)
    (e : AdjNode) (he : e ∈ g.array u) : 0 ≤ e.to_ ∧ e.to_ < g.num_vertices := by
  have := hv u.toNat (List.mem_range.2 (by omega)) e (by
    have h1 : ((u.toNat : Nat) : Int) = u := by omega
    rw [h1]; exact he)
  exact this

theorem BaseInv.of_eq (g : Graph) (start : Int) (st st2 : DState) (hb : BaseInv g start st)
    (h1 : st2.visited = st.visited) (h2 : st2.distance = st.distance)
    (h3 : st2.parent = st.parent) (h4 : st2.heap = st.heap) : BaseInv g start st2 := by
  cases st; cases st2
  simp only at h1 h2 h3 h4
  subst h1 h2 h3 h4
  exact ⟨hb.1, hb.2, hb.3, hb.4, hb.5, hb.6, hb.7, hb.8, hb.9, hb.10⟩

theorem walk_range (g : Graph) (hv : g.Valid) (start v : Int) (vs : List Int) (W : Int)
    (hw : Walk g start v vs W) : 0 ≤ v ∧ v < g.num_vertices := by
  induction hw with
  | nil h1 h2 => exact ⟨h1, h2⟩
  | snoc e _ he ih => exact valid_edge g hv _ ih e he

theorem base_after_update (g : Graph) (hv : g.Valid) (start : Int) (st : DState)
    (hb : BaseInv g start st) (u : Int) (e : AdjNode) (new : Int) (h2 : MinHeap)
    (evs : List Event) (hu : 0 ≤ u ∧ u < g.num_vertices) (huv : st.visited u = true)
    (he : e ∈ g.array u) (hvis : st.visited e.to_ = false) (hlt : new < st.distance e.to_)
    (hinv2 : HeapInv h2) (hcap : h2.capacity = st.heap.capacity)
    (hmem : ∀ x, x ∈ h2.entries ↔ x = ⟨e.to_, new⟩ ∨ (x ∈ st.heap.entries ∧ x.vertex ≠ e.to_))
    (hfr : ∀ x, x ≠ e.to_ → Absent st.heap x → h2.pos x = st.heap.pos x) :
    BaseInv g start
      { st with
        distance := Function.update st.distance e.to_ new
        parent := Function.update st.parent e.to_ u
        heap := h2
        events := evs } := by
  have hvr := valid_edge g hv u hu e he
  have hle := hb.distance_le e.to_ hvr.1 hvr.2
  refine ⟨hinv2, hcap.trans hb.capacity_eq, hb.start_range, ?_, ?_, ?_, ?_, ?_, ?_, ?_⟩
  · intro x hx
    show st.visited x.vertex = false ∧ Function.update st.distance e.to_ new x.vertex = x.distance
    rcases (hmem x).1 hx with h1 | ⟨h1, h3⟩
    · rw [h1]; simp [hvis]
    · rw [Function.update_noteq h3]; exact hb.entry_sound x h1
  · intro v hv0 hv1 hvv hvd
    show (⟨v, Function.update st.distance e.to_ new v⟩ : HeapNode) ∈ h2.entries
    have hvd2 : Function.update st.distance e.to_ new v < INF := hvd
    rw [hmem]
    by_cases hc : v = e.to_
    · left; rw [hc]; simp
    · right
      rw [Function.update_noteq hc] at hvd2 ⊢
      exact ⟨hb.entry_complete v hv0 hv1 hvv hvd2, hc⟩
  · intro v hv0 hv1 hvd
    have hvd2 : Function.update st.distance e.to_ new v = INF := hvd
    show h2.pos v = -1
    have hc : v ≠ e.to_ := by
      intro hc
      rw [hc, Function.update_same] at hvd2
      omega
    rw [Function.update_noteq hc] at hvd2
    have hp := hb.pos_unset v hv0 hv1 hvd2
    rw [hfr v hc (absent_of_pos_unset _ v hb.heap_inv.2 hp)]
    exact hp
  · intro v hv0 hv1
    show Function.update st.distance e.to_ new v ≤ INF
    by_cases hc : v = e.to_
    · rw [hc, Function.update_same]; omega
    · rw [Function.update_noteq hc]; exact hb.distance_le v hv0 hv1
  · intro v hv0 hv1 hvd
    have hvd2 : Function.update st.distance e.to_ new v = INF := hvd
    show Function.update st.parent e.to_ u v = -1
    have hc : v ≠ e.to_ := by
      intro hc
      rw [hc, Function.update_same] at hvd2
      omega
    rw [Function.update_noteq hc] at hvd2 ⊢
    exact hb.parent_unset v hv0 hv1 hvd2
  · intro v hv0 hv1 hvv
    show Function.update st.distance e.to_ new v < INF
    have hc : v ≠ e.to_ := by
      intro hc
      rw [hc] at hvv
      rw [hvis] at hvv
      exact Bool.noConfusion hvv
    rw [Function.update_noteq hc]
    exact hb.visited_found v hv0 hv1 hvv
  · intro v hv0 hv1 hvd
    have hvd2 : Function.update st.distance e.to_ new v < INF := hvd
    by_cases hc : v = e.to_
    · obtain ⟨vs, W, hw⟩ := hb.reachable u hu.1 hu.2 (hb.visited_found u hu.1 hu.2 huv)
      rw [hc]
      exact ⟨_, _, Walk.snoc e hw he⟩
    · rw [Function.update_noteq hc] at hvd2
      exact hb.reachable v hv0 hv1 hvd2

theorem relax_edge_base (g : Graph) (hv : g.Valid) (start : Int) (st : DState)
    (hb : BaseInv g start st) (u : Int) (e : AdjNode) (hu : 0 ≤ u ∧ u < g.num_vertices)
    (huv : st.visited u = true) (he : e ∈ g.array u) :
    ∃ st2, relax_edge g.num_vertices u e st = some st2 ∧ BaseInv g start st2 ∧
      st2.visited = st.visited ∧ st2.distance = relax_distance st u e ∧
      st2.parent = relax_parent st u e := by
  have hvr := valid_edge g hv u hu e he
  unfold relax_edge relax_distance relax_parent
  simp only [hvr, and_self, if_true]
  by_cases hvis : st.visited e.to_ = true
  · simp only [hvis, if_true]
    exact ⟨st, rfl, hb, rfl, rfl, rfl⟩
  · have hvis2 : st.visited e.to_ = false := by simpa using hvis
    simp only [hvis2, Bool.false_eq_true, if_false]
    by_cases hlt : wrap32 (st.distance u + e.weight) < st.distance e.to_
    · simp only [hlt, if_true]
      have hcapv : 0 ≤ e.to_ ∧ e.to_ < st.heap.capacity := by
        rw [hb.capacity_eq]; exact hvr
      by_cases hd : st.distance e.to_ < INF
      · have hm := hb.entry_complete e.to_ hvr.1 hvr.2 hvis2 hd
        rw [heap_contains_present st.heap e.to_ _ hb.heap_inv hm]
        obtain ⟨h2, hrun, hinv2, hc, hmem, hfr⟩ :=
          heap_decrease_key_mem st.heap e.to_ _ _ hb.heap_inv hm hlt
        simp only [Option.some_bind, if_true, hrun, Option.map_some']
        refine ⟨_, rfl, ?_, rfl, rfl, rfl⟩
        exact base_after_update g hv start st hb u e _ h2 _ hu huv he hvis2 hlt hinv2 hc hmem
          (fun x _ hx => hfr x hx)
      · have hd2 : st.distance e.to_ = INF := by
          have := hb.distance_le e.to_ hvr.1 hvr.2
          omega
        have hp := hb.pos_unset e.to_ hvr.1 hvr.2 hd2
        rw [heap_contains_unset st.heap e.to_ hcapv hp]
        have hab := absent_of_pos_unset st.heap e.to_ hb.heap_inv.2 hp
        obtain ⟨h2, hrun, hinv2, hc, hmem, hfr⟩ :=
          heap_push_mem st.heap e.to_ (wrap32 (st.distance u + e.weight)) hb.heap_inv hcapv hab
        simp only [Option.some_bind, Bool.false_eq_true, if_false, hrun, Option.map_some']
        refine ⟨_, rfl, ?_, rfl, rfl, rfl⟩
        refine base_after_update g hv start st hb u e _ h2 _ hu huv he hvis2 hlt hinv2 hc ?_ hfr
        intro x
        rw [hmem]
        constructor
        · rintro (h1 | h1)
          · exact Or.inl h1
          · exact Or.inr ⟨h1, (absent_iff _ _).1 hab x h1⟩
        · rintro (h1 | h1)
          · exact Or.inl h1
          · exact Or.inr h1.1
    · simp only [hlt, if_false]
      exact ⟨_, rfl, BaseInv.of_eq g start st _ hb rfl rfl rfl rfl, rfl, rfl, rfl⟩

theorem relax_neighbors_invariant (n : Nat) (u : Int) (P : List AdjNode → DState → Prop)
    (hstep : ∀ e rest st, P (e :: rest) st →
      ∃ st2, relax_edge n u e st = some st2 ∧ P rest st2) :
    ∀ todo st, P todo st → ∃ st2, relax_neighbors n u todo st = some st2 ∧ P [] st2 := by
  intro todo
  induction todo with
  | nil => intro st hp; exact ⟨st, rfl, hp⟩
  | cons e rest ih =>
    intro st hp
    obtain ⟨st1, hrun, hp1⟩ := hstep e rest st hp
    obtain ⟨st2, hrun2, hp2⟩ := ih st1 hp1
    exact ⟨st2, by simp [relax_neighbors, hrun, hrun2], hp2⟩

theorem unvisited_count_update (visited : Int → Bool) (u : Int) (hu : visited u = false) :
    ∀ n : Nat, unvisited_count n visited =
      unvisited_count n (Function.update visited u true) + (if 0 ≤ u ∧ u < n then 1 else 0) := by
  intro n
  induction n with
  | zero =>
    have : ¬ (0 ≤ u ∧ u < (0 : Int)) := by omega
    simp [unvisited_count, this]
  | succ n ih =>
    unfold unvisited_count at ih ⊢
    rw [List.range_succ, List.filter_append, List.filter_append, List.length_append,
      List.length_append, ih]
    by_cases hc : (n : Int) = u
    · have h1 : (0 ≤ u ∧ u < ((n + 1 : Nat) : Int)) := by omega
      have h2 : ¬ (0 ≤ u ∧ u < (n : Int)) := by omega
      have e1 : Function.update visited u true (n : Int) = true := by rw [hc]; simp
      have e2 : visited (n : Int) = false := by rw [hc]; exact hu
      have h4 : ¬ u < (n : Int) := by omega
      have h5 : u < (n : Int) + 1 := by omega
      simp [e1, e2, List.filter, h4, h5, h1.1]
    · have h3 : (0 ≤ u ∧ u < ((n + 1 : Nat) : Int)) ↔ (0 ≤ u ∧ u < (n : Int)) := by omega
      simp only [h3, List.filter, Function.update_noteq hc]
      omega

theorem pop_step_base (g : Graph) (start : Int) (st : DState) (hb : BaseInv g start st)
    (hne : st.heap.size ≠ 0) :
    ∃ u d heap1, heap_pop st.heap = some (some (u, d), heap1) ∧
      (0 ≤ u ∧ u < g.num_vertices) ∧ st.visited u = false ∧ st.distance u = d ∧ d < INF ∧
      (∀ v : Int, 0 ≤ v → v < g.num_vertices → st.visited v = false → d ≤ st.distance v) ∧
      ∀ evs, BaseInv g start
        { st with heap := heap1, visited := Function.update st.visited u true, events := evs } := by
  obtain ⟨u, d, heap1, hrun, hm, hmin, hinv1, hc, hmem, hfr, _⟩ :=
    heap_pop_mem st.heap hb.heap_inv (by omega)
  have hs := hb.entry_sound _ hm
  simp only at hs
  have hur : 0 ≤ u ∧ u < g.num_vertices := by
    obtain ⟨i, hi, hdi⟩ := mem_entries.1 hm
    have := hb.heap_inv.1.2.1 i hi
    rw [hdi, hb.capacity_eq] at this
    exact this
  have hdlt : d < INF := by
    have h1 := hb.distance_le u hur.1 hur.2
    rcases lt_or_eq_of_le h1 with h2 | h2
    · rw [hs.2] at h2; exact h2
    · have hp := hb.pos_unset u hur.1 hur.2 h2
      have := (absent_iff _ _).1 (absent_of_pos_unset _ u hb.heap_inv.2 hp) _ hm
      exact absurd rfl this
  refine ⟨u, d, heap1, hrun, hur, hs.1, hs.2, hdlt, ?_, ?_⟩
  · intro v hv0 hv1 hvv
    by_cases hd : st.distance v < INF
    · exact hmin _ (hb.entry_complete v hv0 hv1 hvv hd)
    · have := hb.distance_le v hv0 hv1
      omega
  · intro evs
    refine ⟨hinv1, hc.trans hb.capacity_eq, hb.start_range, ?_, ?_, ?_, hb.distance_le,
      hb.parent_unset, ?_, hb.reachable⟩
    · intro x hx
      obtain ⟨h1, h2⟩ := (hmem x).1 hx
      show Function.update st.visited u true x.vertex = false ∧ _
      rw [Function.update_noteq h2]
      exact hb.entry_sound x h1
    · intro v hv0 hv1 hvv hvd
      have hvv2 : Function.update st.visited u true v = false := hvv
      show (⟨v, st.distance v⟩ : HeapNode) ∈ heap1.entries
      have hc2 : v ≠ u := by
        intro hc2
        rw [hc2, Function.update_same] at hvv2
        exact Bool.noConfusion hvv2
      rw [Function.update_noteq hc2] at hvv2
      exact (hmem _).2 ⟨hb.entry_complete v hv0 hv1 hvv2 hvd, hc2⟩
    · intro v hv0 hv1 hvd
      show heap1.pos v = -1
      have hp := hb.pos_unset v hv0 hv1 hvd
      rw [hfr v (absent_of_pos_unset _ v hb.heap_inv.2 hp)]
      exact hp
    · intro v hv0 hv1 hvv
      have hvv2 : Function.update st.visited u true v = true := hvv
      show st.distance v < INF
      by_cases hc2 : v = u
      · rw [hc2, hs.2]; exact hdlt
      · rw [Function.update_noteq hc2] at hvv2
        exact hb.visited_found v hv0 hv1 hvv2

theorem INF_eq : INF = 2147483647 := rfl

theorem dijkstra_loop_invariant (g : Graph) (start : Int) (J : DState → Prop)
    (hJ : ∀ st, J st → BaseInv g start st)
    (hstep : ∀ st u d heap1, J st → heap_pop st.heap = some (some (u, d), heap1) →
      (0 ≤ u ∧ u < g.num_vertices) → st.visited u = false →
      ∃ st2, relax_neighbors g.num_vertices u (g.array u)
          { st with
            heap := heap1
            visited := Function.update st.visited u true
            events := st.events ++ [Event.extracted u d, Event.settled u d] } = some st2 ∧
        J st2 ∧ st2.visited = Function.update st.visited u true) :
    ∀ fuel st, J st → unvisited_count g.num_vertices st.visited < fuel →
      ∃ st2, dijkstra_loop g fuel st = some st2 ∧ J st2 ∧ st2.heap.size = 0 := by
  intro fuel
  induction fuel with
  | zero => intro st _ h; omega
  | succ fuel ih =>
    intro st hj hcount
    unfold dijkstra_loop
    by_cases hz : st.heap.size = 0
    · refine ⟨st, ?_, hj, hz⟩
      simp [heap_is_empty, hz]
    · obtain ⟨u, d, heap1, hrun, hur, huv, _, _, _, _⟩ := pop_step_base g start st (hJ st hj) hz
      obtain ⟨st2, hrel, hj2, hvis2⟩ := hstep st u d heap1 hj hrun hur huv
      have hc := unvisited_count_update st.visited u huv g.num_vertices
      simp only [hur, and_self, if_true] at hc
      obtain ⟨st3, hrun3, hj3, hz3⟩ := ih st2 hj2 (by rw [hvis2]; omega)
      refine ⟨st3, ?_, hj3, hz3⟩
      have he : heap_is_empty st.heap = false := by simp [heap_is_empty, hz]
      simp only [he, Bool.false_eq_true, if_false, hrun, Option.some_bind, hur, and_self,
        if_true, huv, hrel, hrun3]

theorem dijkstra_init_base (g : Graph) (start : Int)
    (hs : 0 ≤ start ∧ start < g.num_vertices) :
    ∃ st, dijkstra_init g start = some st ∧ BaseInv g start st ∧
      st.visited = (fun _ => false) ∧ st.distance = Function.update (fun _ => INF) start 0 ∧
      st.parent = Function.update (fun _ => -1) start start := by
  have hab : Absent (heap_create g.num_vertices) start := by
    intro i hi; exact absurd hi (Nat.not_lt_zero _)
  obtain ⟨h2, hrun, hinv2, hc, hmem, hfr⟩ := heap_push_mem (heap_create g.num_vertices) start 0
    (heap_create_inv _) hs hab
  unfold dijkstra_init
  simp only [hs, and_self, if_true, hrun, Option.map_some']
  refine ⟨_, rfl, ?_, rfl, rfl, rfl⟩
  have hnil : ∀ e, e ∉ (heap_create g.num_vertices).entries := by
    intro e he
    obtain ⟨i, hi, _⟩ := mem_entries.1 he
    exact absurd hi (Nat.not_lt_zero _)
  have hdist : ∀ v : Int, Function.update (fun _ => INF) start (0 : Int) v < INF → v = start := by
    intro v hv
    by_contra hc2
    rw [Function.update_noteq hc2] at hv
    exact lt_irrefl _ hv
  refine ⟨hinv2, hc, hs, ?_, ?_, ?_, ?_, ?_, ?_, ?_⟩
  · intro e he
    rcases (hmem e).1 he with h1 | h1
    · rw [h1]; exact ⟨rfl, by simp⟩
    · exact absurd h1 (hnil e)
  · intro v _ _ _ hvd
    have := hdist v hvd
    subst this
    show (⟨v, Function.update (fun _ => INF) v (0 : Int) v⟩ : HeapNode) ∈ h2.entries
    rw [Function.update_same]
    exact (hmem _).2 (Or.inl rfl)
  · intro v _ _ hvd
    have hvd2 : Function.update (fun _ => INF) start (0 : Int) v = INF := hvd
    have hc2 : v ≠ start := by
      intro hc2
      rw [hc2, Function.update_same, INF_eq] at hvd2
      omega
    show h2.pos v = -1
    rw [hfr v hc2 (fun i hi => absurd hi (Nat.not_lt_zero _))]
    rfl
  · intro v _ _
    show Function.update (fun _ => INF) start (0 : Int) v ≤ INF
    by_cases hc2 : v = start
    · rw [hc2, Function.update_same, INF_eq]; omega
    · rw [Function.update_noteq hc2]
  · intro v _ _ hvd
    have hvd2 : Function.update (fun _ => INF) start (0 : Int) v = INF := hvd
    have hc2 : v ≠ start := by
      intro hc2
      rw [hc2, Function.update_same, INF_eq] at hvd2
      omega
    show Function.update (fun _ => (-1 : Int)) start start v = -1
    rw [Function.update_noteq hc2]
  · intro v _ _ hvv
    exact Bool.noConfusion hvv
  · intro v _ _ hvd
    have := hdist v hvd
    subst this
    exact ⟨_, _, Walk.nil hs.1 hs.2⟩

theorem unvisited_count_le (n : Nat) (visited : Int → Bool) : unvisited_count n visited ≤ n := by
  unfold unvisited_count
  exact (List.length_filter_le _ _).trans (by simp)

theorem pop_step_base_of_eq (g : Graph) (start : Int) (st : DState) (hb : BaseInv g start st)
    (u d : Int) (heap1 : MinHeap) (hrun : heap_pop st.heap = some (some (u, d), heap1)) :
    st.distance u = d ∧ d < INF ∧
      (∀ v : Int, 0 ≤ v → v < g.num_vertices → st.visited v = false → d ≤ st.distance v) ∧
      ∀ evs, BaseInv g start
        { st with heap := heap1, visited := Function.update st.visited u true, events := evs } := by
  have hne : st.heap.size ≠ 0 := by
    intro hz
    unfold heap_pop at hrun
    simp [hz] at hrun
  obtain ⟨u2, d2, heap2, hrun2, _, _, h3, h4, h5, h6⟩ := pop_step_base g start st hb hne
  rw [hrun] at hrun2
  simp only [Option.some.injEq, Prod.mk.injEq] at hrun2
  obtain ⟨⟨rfl, rfl⟩, rfl⟩ := hrun2
  exact ⟨h3, h4, h5, h6⟩

theorem base_step (g : Graph) (hv : g.Valid) (start : Int) (st : DState) (u d : Int)
    (heap1 : MinHeap) (hb : BaseInv g start st)
    (hrun : heap_pop st.heap = some (some (u, d), heap1))
    (hur : 0 ≤ u ∧ u < g.num_vertices) (evs : List Event) :
    ∃ st2, relax_neighbors g.num_vertices u (g.array u)
        { st with heap := heap1, visited := Function.update st.visited u true, events := evs }
          = some st2 ∧
      BaseInv g start st2 ∧ st2.visited = Function.update st.visited u true := by
  obtain ⟨_, _, _, hb1⟩ := pop_step_base_of_eq g start st hb u d heap1 hrun
  have := relax_neighbors_invariant g.num_vertices u
    (fun todo s => BaseInv g start s ∧ s.visited = Function.update st.visited u true ∧
      ∀ e, e ∈ todo → e ∈ g.array u)
    (by
      intro e rest s ⟨hbs, hvs, hsub⟩
      have huv : s.visited u = true := by rw [hvs]; simp
      obtain ⟨s2, hr, hb2, hv2, _, _⟩ :=
        relax_edge_base g hv start s hbs u e hur huv (hsub e (List.mem_cons_self _ _))
      exact ⟨s2, hr, hb2, hv2.trans hvs, fun x hx => hsub x (List.mem_cons_of_mem _ hx)⟩)
    (g.array u) _ ⟨hb1 evs, rfl, fun e he => he⟩
  obtain ⟨st2, hr, hb2, hv2, _⟩ := this
  exact ⟨st2, hr, hb2, hv2⟩

theorem tree_path_last (g : Graph) (start : Int) (st : DState) (v : Int) (vs : List Int)
    (ht : TreePath g start st v vs) : v ∈ vs := by
  cases ht with
  | root => simp
  | step e _ _ _ _ _ _ => simp

theorem tree_path_start (g : Graph) (start : Int) (st : DState) (v : Int) (vs : List Int)
    (ht : TreePath g start st v vs) : start ∈ vs := by
  induction ht with
  | root => simp
  | step e _ _ _ _ _ _ ih => exact List.mem_append_left _ ih

theorem tree_path_visited (g : Graph) (start : Int) (st : DState) (v : Int) (vs : List Int)
    (ht : TreePath g start st v vs) : ∀ x, x ∈ vs → x = v ∨ st.visited x = true := by
  induction ht with
  | root => intro x hx; left; simpa using hx
  | step e _ hu _ _ _ _ ih =>
    intro x hx
    rcases List.mem_append.1 hx with h1 | h1
    · right
      rcases ih x h1 with h2 | h2
      · rw [h2]; exact hu
      · exact h2
    · left; simpa using h1

theorem tree_path_nodup (g : Graph) (start : Int) (st : DState) (v : Int) (vs : List Int)
    (ht : TreePath g start st v vs) : vs.Nodup := by
  induction ht with
  | root => simp
  | step e _ _ _ _ _ hn ih =>
    rw [List.nodup_append]
    refine ⟨ih, by simp, ?_⟩
    intro a ha hb
    have : a = e.to_ := by simpa using hb
    rw [this] at ha
    exact hn ha

theorem tree_path_walk (g : Graph) (start : Int) (st : DState)
    (hs : 0 ≤ start ∧ start < g.num_vertices) (hd : st.distance start = 0) (v : Int)
    (vs : List Int) (ht : TreePath g start st v vs) : Walk g start v vs (st.distance v) := by
  induction ht with
  | root => rw [hd]; exact Walk.nil hs.1 hs.2
  | step e _ _ he _ hdist _ ih =>
    rw [hdist]
    exact Walk.snoc e ih he

theorem tree_path_stable (g : Graph) (start : Int) (st st2 : DState) (v : Int) (vs : List Int)
    (ht : TreePath g start st v vs)
    (hvis : ∀ x, st.visited x = true → st2.visited x = true)
    (heq : ∀ x, x ∈ vs → st2.distance x = st.distance x ∧ st2.parent x = st.parent x) :
    TreePath g start st2 v vs := by
  induction ht with
  | root => exact TreePath.root
  | @step u vs e ht hu he hp hd hn ih =>
    have h1 := ih (fun x hx => heq x (List.mem_append_left _ hx))
    have hu2 := heq u (List.mem_append_left _ (tree_path_last g start st u vs ht))
    have hv2 := heq e.to_ (by simp)
    refine TreePath.step e h1 (hvis u hu) he ?_ ?_ hn
    · rw [hv2.2]; exact hp
    · rw [hv2.1, hu2.1]; exact hd

theorem tree_path_parent_chain (g : Graph) (start : Int) (st : DState)
    (hd : st.distance start = 0) (hp : st.parent start = start) (v : Int) (vs : List Int)
    (ht : TreePath g start st v vs) : ParentChain g st.parent start v (st.distance v) := by
  induction ht with
  | root => rw [hd]; exact ParentChain.root hp
  | @step u vs e ht hu he hpar hdist hn ih =>
    rw [hdist]
    refine ParentChain.step e ih ?_ hpar he rfl
    intro hc
    rw [hc] at hn
    exact hn (tree_path_start g start st u vs ht)

theorem nonneg_edge (g : Graph) (hn : g.NonNegative) (u : Int)
    (hu : 0 ≤ u ∧ u < g.num_vertices) (e : AdjNode) (he : e ∈ g.array u) : 0 ≤ e.weight := by
  have := hn u.toNat (List.mem_range.2 (by omega)) e (by
    have h1 : ((u.toNat : Nat) : Int) = u := by omega
    rw [h1]; exact he)
  exact this

theorem walk_nonneg (g : Graph) (hv : g.Valid) (hn : g.NonNegative) (start v : Int)
    (vs : List Int) (W : Int) (hw : Walk g start v vs W) : 0 ≤ W := by
  induction hw with
  | nil _ _ => exact le_refl _
  | @snoc u vs W e hw he ih =>
    have := nonneg_edge g hn u (walk_range g hv start u vs W hw) e he
    omega

theorem walk_lower_bound (g : Graph) (hv : g.Valid) (hn : g.NonNegative) (start : Int)
    (st : DState) (c : Int) (ho : OptInv g start st c []) :
    ∀ x vs W, Walk g start x vs W →
      st.distance x ≤ W ∨
        ∃ y : Int, 0 ≤ y ∧ y < g.num_vertices ∧ st.visited y = false ∧ st.distance y ≤ W := by
  intro x vs W hw
  induction hw with
  | nil _ _ => left; rw [ho.start_distance]
  | @snoc u vs W e hw he ih =>
    have hur := walk_range g hv start u vs W hw
    have hw0 := nonneg_edge g hn u hur e he
    rcases ih with h1 | ⟨y, hy0, hy1, hyv, hyd⟩
    · by_cases hvis : st.visited u = true
      · rcases ho.relaxed u hur.1 hur.2 hvis e he with h2 | h2
        · exact absurd h2.2 (List.not_mem_nil _)
        · left; omega
      · right
        exact ⟨u, hur.1, hur.2, by simpa using hvis, by omega⟩
    · right
      exact ⟨y, hy0, hy1, hyv, by omega⟩

theorem opt_pop_step (g : Graph) (hv : g.Valid) (hn : g.NonNegative) (start : Int)
    (st : DState) (c u : Int) (heap1 : MinHeap) (evs : List Event)
    (ho : OptInv g start st c [])
    (hmin : ∀ v : Int, 0 ≤ v → v < g.num_vertices → st.visited v = false →
      st.distance u ≤ st.distance v) :
    OptInv g start
      { st with heap := heap1, visited := Function.update st.visited u true, events := evs }
      u (g.array u) := by
  refine ⟨ho.start_distance, ho.start_parent, ho.root_unique, ?_, ?_, ?_⟩
  · intro x hx0 hx1 hxv e he
    have hxv2 : Function.update st.visited u true x = true := hxv
    by_cases hc : x = u
    · left; rw [hc] at he; exact ⟨hc, he⟩
    · rw [Function.update_noteq hc] at hxv2
      rcases ho.relaxed x hx0 hx1 hxv2 e he with h2 | h2
      · exact absurd h2.2 (List.not_mem_nil _)
      · right; exact h2
  · intro x hx0 hx1 hxd
    obtain ⟨vs, ht⟩ := ho.tree x hx0 hx1 hxd
    refine ⟨vs, tree_path_stable g start st _ x vs ht ?_ (fun _ _ => ⟨rfl, rfl⟩)⟩
    intro y hy
    show Function.update st.visited u true y = true
    by_cases hc : y = u
    · rw [hc]; simp
    · rw [Function.update_noteq hc]; exact hy
  · intro x hx0 hx1 hxv vs W hw
    have hxv2 : Function.update st.visited u true x = true := hxv
    show st.distance x ≤ W
    by_cases hc : x = u
    · rcases walk_lower_bound g hv hn start st c ho x vs W hw with h1 | ⟨y, hy0, hy1, hyv, hyd⟩
      · exact h1
      · have := hmin y hy0 hy1 hyv
        rw [hc]; omega
    · rw [Function.update_noteq hc] at hxv2
      exact ho.settled x hx0 hx1 hxv2 vs W hw

theorem wrap32_eq (x : Int) (h0 : 0 ≤ x) (h1 : x < INT_MAX) : wrap32 x = x := by
  unfold wrap32
  unfold INT_MAX at h1
  omega

theorem opt_same_arrays (g : Graph) (start : Int) (st st2 : DState) (u : Int) (e : AdjNode)
    (rest : List AdjNode) (ho : OptInv g start st u (e :: rest))
    (hvis2 : st2.visited = st.visited) (hd2 : st2.distance = st.distance)
    (hp2 : st2.parent = st.parent)
    (hrel : st.distance e.to_ ≤ st.distance u + e.weight) : OptInv g start st2 u rest := by
  refine ⟨?_, ?_, ?_, ?_, ?_, ?_⟩
  · rw [hd2]; exact ho.start_distance
  · rw [hp2]; exact ho.start_parent
  · rw [hp2]; exact ho.root_unique
  · rw [hd2, hvis2]
    intro x hx0 hx1 hxv e2 he2
    rcases ho.relaxed x hx0 hx1 hxv e2 he2 with ⟨h1, h2⟩ | h2
    · rcases List.mem_cons.1 h2 with h3 | h3
      · right; rw [h3, h1]; exact hrel
      · left; exact ⟨h1, h3⟩
    · right; exact h2
  · rw [hd2]
    intro x hx0 hx1 hxd
    obtain ⟨vs, ht⟩ := ho.tree x hx0 hx1 hxd
    refine ⟨vs, tree_path_stable g start st st2 x vs ht ?_ ?_⟩
    · intro y hy; rw [hvis2]; exact hy
    · intro y _; rw [hd2, hp2]; exact ⟨rfl, rfl⟩
  · rw [hd2, hvis2]; exact ho.settled

theorem opt_update (g : Graph) (start : Int) (st st2 : DState) (u : Int) (e : AdjNode)
    (rest : List AdjNode) (hb : BaseInv g start st) (ho : OptInv g start st u (e :: rest))
    (hur : 0 ≤ u ∧ u < g.num_vertices) (huv : st.visited u = true) (he : e ∈ g.array u)
    (hvis : st.visited e.to_ = false) (hw0 : 0 ≤ st.distance u + e.weight)
    (hlt : st.distance u + e.weight < st.distance e.to_)
    (hvis2 : st2.visited = st.visited)
    (hd2 : st2.distance = Function.update st.distance e.to_ (st.distance u + e.weight))
    (hp2 : st2.parent = Function.update st.parent e.to_ u) : OptInv g start st2 u rest := by
  have hne_start : e.to_ ≠ start := by
    intro hc
    rw [hc, ho.start_distance] at hlt
    omega
  have hne_u : e.to_ ≠ u := by
    intro hc
    rw [hc, huv] at hvis
    exact Bool.noConfusion hvis
  have hnotin : ∀ x vs, TreePath g start st x vs → x ≠ e.to_ → e.to_ ∉ vs := by
    intro x vs ht hx hm
    rcases tree_path_visited g start st x vs ht e.to_ hm with h1 | h1
    · exact hx h1.symm
    · rw [hvis] at h1; exact Bool.noConfusion h1
  have hstable : ∀ x vs, TreePath g start st x vs → x ≠ e.to_ → TreePath g start st2 x vs := by
    intro x vs ht hx
    refine tree_path_stable g start st st2 x vs ht ?_ ?_
    · intro y hy; rw [hvis2]; exact hy
    · intro y hy
      have hye : y ≠ e.to_ := fun hc => hnotin x vs ht hx (hc ▸ hy)
      rw [hd2, hp2, Function.update_noteq hye, Function.update_noteq hye]
      exact ⟨rfl, rfl⟩
  refine ⟨?_, ?_, ?_, ?_, ?_, ?_⟩
  · rw [hd2, Function.update_noteq hne_start.symm]; exact ho.start_distance
  · rw [hp2, Function.update_noteq hne_start.symm]; exact ho.start_parent
  · intro x hx0 hx1 hxp
    rw [hp2] at hxp
    by_cases hc : x = e.to_
    · rw [hc, Function.update_same] at hxp
      exact absurd hxp.symm hne_u
    · rw [Function.update_noteq hc] at hxp
      exact ho.root_unique x hx0 hx1 hxp
  · intro x hx0 hx1 hxv e2 he2
    rw [hvis2] at hxv
    have hxe : x ≠ e.to_ := by
      intro hc
      rw [hc, hvis] at hxv
      exact Bool.noConfusion hxv
    have hle : ∀ y, st2.distance y ≤ st.distance y := by
      intro y
      rw [hd2]
      by_cases hc : y = e.to_
      · rw [hc, Function.update_same]; omega
      · rw [Function.update_noteq hc]
    have hxd : st2.distance x = st.distance x := by
      rw [hd2, Function.update_noteq hxe]
    rw [hxd]
    rcases ho.relaxed x hx0 hx1 hxv e2 he2 with ⟨h1, h2⟩ | h2
    · rcases List.mem_cons.1 h2 with h3 | h3
      · right
        rw [h3, h1, hd2, Function.update_same]
      · left; exact ⟨h1, h3⟩
    · right; exact (hle _).trans h2
  · intro x hx0 hx1 hxd
    by_cases hc : x = e.to_
    · obtain ⟨vs, ht⟩ := ho.tree u hur.1 hur.2 (hb.visited_found u hur.1 hur.2 huv)
      have ht2 := hstable u vs ht hne_u.symm
      rw [hc]
      refine ⟨vs ++ [e.to_], TreePath.step e ht2 (by rw [hvis2]; exact huv) he ?_ ?_
        (hnotin u vs ht hne_u.symm)⟩
      · rw [hp2, Function.update_same]
      · rw [hd2, Function.update_same, Function.update_noteq hne_u.symm]
    · rw [hd2, Function.update_noteq hc] at hxd
      obtain ⟨vs, ht⟩ := ho.tree x hx0 hx1 hxd
      exact ⟨vs, hstable x vs ht hc⟩
  · intro x hx0 hx1 hxv vs W hw
    rw [hvis2] at hxv
    have hxe : x ≠ e.to_ := by
      intro hc
      rw [hc, hvis] at hxv
      exact Bool.noConfusion hxv
    rw [hd2, Function.update_noteq hxe]
    exact ho.settled x hx0 hx1 hxv vs W hw

theorem opt_relax_edge (g : Graph) (hv : g.Valid) (hn : g.NonNegative) (start : Int)
    (hsum : PathSumsBelowMax g start) (st st2 : DState) (u : Int) (e : AdjNode)
    (rest : List AdjNode) (hb : BaseInv g start st) (ho : OptInv g start st u (e :: rest))
    (hur : 0 ≤ u ∧ u < g.num_vertices) (huv : st.visited u = true) (he : e ∈ g.array u)
    (hvis2 : st2.visited = st.visited) (hd2 : st2.distance = relax_distance st u e)
    (hp2 : st2.parent = relax_parent st u e) : OptInv g start st2 u rest := by
  have hvr := valid_edge g hv u hur e he
  obtain ⟨vs, ht⟩ := ho.tree u hur.1 hur.2 (hb.visited_found u hur.1 hur.2 huv)
  have hwu := tree_path_walk g start st hb.start_range ho.start_distance u vs ht
  have hwe := Walk.snoc e hwu he
  unfold relax_distance at hd2
  unfold relax_parent at hp2
  by_cases hvis : st.visited e.to_ = true
  · simp only [hvis, if_true] at hd2 hp2
    exact opt_same_arrays g start st st2 u e rest ho hvis2 hd2 hp2
      (ho.settled e.to_ hvr.1 hvr.2 hvis _ _ hwe)
  · have hvisf : st.visited e.to_ = false := by simpa using hvis
    have hw0 : 0 ≤ st.distance u + e.weight := walk_nonneg g hv hn start _ _ _ hwe
    have hnotin : e.to_ ∉ vs := by
      intro hm
      rcases tree_path_visited g start st u vs ht e.to_ hm with h1 | h1
      · rw [h1, huv] at hvisf; exact Bool.noConfusion hvisf
      · exact hvis h1
    have hnd : (vs ++ [e.to_]).Nodup := by
      rw [List.nodup_append]
      refine ⟨tree_path_nodup g start st u vs ht, by simp, ?_⟩
      intro a ha hb2
      have : a = e.to_ := by simpa using hb2
      rw [this] at ha
      exact hnotin ha
    have hmax := hsum _ _ _ hwe hnd
    rw [wrap32_eq _ hw0 hmax] at hd2 hp2
    simp only [hvisf, Bool.false_eq_true, if_false] at hd2 hp2
    by_cases hlt : st.distance u + e.weight < st.distance e.to_
    · simp only [hlt, if_true] at hd2 hp2
      exact opt_update g start st st2 u e rest hb ho hur huv he hvisf hw0 hlt hvis2 hd2 hp2
    · simp only [hlt, if_false] at hd2 hp2
      exact opt_same_arrays g start st st2 u e rest ho hvis2 hd2 hp2 (by omega)

theorem opt_step (g : Graph) (hv : g.Valid) (hn : g.NonNegative) (start : Int)
    (hsum : PathSumsBelowMax g start) (st : DState) (u d : Int) (heap1 : MinHeap)
    (hb : BaseInv g start st) (c : Int) (ho : OptInv g start st c [])
    (hrun : heap_pop st.heap = some (some (u, d), heap1))
    (hur : 0 ≤ u ∧ u < g.num_vertices) (evs : List Event) :
    ∃ st2, relax_neighbors g.num_vertices u (g.array u)
        { st with heap := heap1, visited := Function.update st.visited u true, events := evs }
          = some st2 ∧
      (BaseInv g start st2 ∧ OptInv g start st2 u []) ∧
      st2.visited = Function.update st.visited u true := by
  obtain ⟨hdu, _, hmin, hb1⟩ := pop_step_base_of_eq g start st hb u d heap1 hrun
  have ho1 := opt_pop_step g hv hn start st c u heap1 evs ho (by rw [hdu]; exact hmin)
  have := relax_neighbors_invariant g.num_vertices u
    (fun todo s => BaseInv g start s ∧ OptInv g start s u todo ∧
      s.visited = Function.update st.visited u true ∧ ∀ e, e ∈ todo → e ∈ g.array u)
    (by
      intro e rest s ⟨hbs, hos, hvs, hsub⟩
      have huv : s.visited u = true := by rw [hvs]; simp
      have hem := hsub e (List.mem_cons_self _ _)
      obtain ⟨s2, hr, hb2, hv2, hd2, hp2⟩ := relax_edge_base g hv start s hbs u e hur huv hem
      exact ⟨s2, hr, hb2,
        opt_relax_edge g hv hn start hsum s s2 u e rest hbs hos hur huv hem hv2 hd2 hp2,
        hv2.trans hvs, fun x hx => hsub x (List.mem_cons_of_mem _ hx)⟩)
    (g.array u) _ ⟨hb1 evs, ho1, rfl, fun e he => he⟩
  obtain ⟨st2, hr, hb2, ho2, hv2, _⟩ := this
  exact ⟨st2, hr, ⟨hb2, ho2⟩, hv2⟩

theorem dijkstra_init_opt (g : Graph) (start : Int) (st : DState)
    (hvis : st.visited = fun _ => false)
    (hd : st.distance = Function.update (fun _ => INF) start 0)
    (hp : st.parent = Function.update (fun _ => -1) start start) :
    OptInv g start st 0 [] := by
  refine ⟨?_, ?_, ?_, ?_, ?_, ?_⟩
  · rw [hd, Function.update_same]
  · rw [hp, Function.update_same]
  · intro x hx0 _ hxp
    by_contra hc
    rw [hp, Function.update_noteq hc] at hxp
    omega
  · intro x _ _ hxv
    rw [hvis] at hxv
    exact Bool.noConfusion hxv
  · intro x _ _ hxd
    have : x = start := by
      by_contra hc
      rw [hd, Function.update_noteq hc] at hxd
      exact lt_irrefl _ hxd
    rw [this]
    exact ⟨[start], TreePath.root⟩
  · intro x _ _ hxv
    rw [hvis] at hxv
    exact Bool.noConfusion hxv

/-- The outcome of the main loop on a graph with non-negative weights. -/
theorem dijkstra_run_opt (g : Graph) (start : Int) (fuel : Nat) (hv : g.Valid)
    (hn : g.NonNegative) (hs : 0 ≤ start ∧ start < g.num_vertices)
    (hsum : PathSumsBelowMax g start) (hfuel : g.num_vertices < fuel) :
    ∃ st c, dijkstra_shortest_path fuel g start = some st ∧ BaseInv g start st ∧
      OptInv g start st c [] ∧ st.heap.size = 0 := by
  obtain ⟨st0, hinit, hb0, hvis0, hd0, hp0⟩ := dijkstra_init_base g start hs
  have ho0 := dijkstra_init_opt g start st0 hvis0 hd0 hp0
  obtain ⟨st, hrun, ⟨hb, c, ho⟩, hz⟩ := dijkstra_loop_invariant g start
    (fun s => BaseInv g start s ∧ ∃ c, OptInv g start s c [])
    (fun _ h => h.1)
    (fun s u d heap1 hj hr hur _ => by
      obtain ⟨hbs, c, hos⟩ := hj
      obtain ⟨s2, h1, ⟨h2, h3⟩, h4⟩ :=
        opt_step g hv hn start hsum s u d heap1 hbs c hos hr hur _
      exact ⟨s2, h1, ⟨h2, u, h3⟩, h4⟩)
    fuel st0 ⟨hb0, 0, ho0⟩ (lt_of_le_of_lt (unvisited_count_le _ _) hfuel)
  exact ⟨st, c, by simp [dijkstra_shortest_path, hinit, hrun], hb, ho, hz⟩

theorem final_closed (g : Graph) (hv : g.Valid) (start : Int)
    (hsum : PathSumsBelowMax g start) (st : DState) (c : Int) (hb : BaseInv g start st)
    (ho : OptInv g start st c []) (hz : st.heap.size = 0) :
    ∀ x vs W, Walk g start x vs W → st.visited x = true ∧ st.distance x ≤ W := by
  have hvisited : ∀ y : Int, 0 ≤ y → y < g.num_vertices → st.distance y < INF →
      st.visited y = true := by
    intro y hy0 hy1 hyd
    by_contra hc
    have hm := hb.entry_complete y hy0 hy1 (by simpa using hc) hyd
    obtain ⟨i, hi, _⟩ := mem_entries.1 hm
    omega
  intro x vs W hw
  induction hw with
  | nil h0 h1 =>
    have hd := ho.start_distance
    refine ⟨hvisited start h0 h1 (by rw [hd, INF_eq]; omega), by rw [hd]⟩
  | @snoc u vs W e hw he ih =>
    have hur := walk_range g hv start u vs W hw
    have hvr := valid_edge g hv u hur e he
    have hrel : st.distance e.to_ ≤ st.distance u + e.weight := by
      rcases ho.relaxed u hur.1 hur.2 ih.1 e he with h2 | h2
      · exact absurd h2.2 (List.not_mem_nil _)
      · exact h2
    refine ⟨?_, by omega⟩
    by_contra hc
    have hvisf : st.visited e.to_ = false := by simpa using hc
    obtain ⟨ts, ht⟩ := ho.tree u hur.1 hur.2 (hb.visited_found u hur.1 hur.2 ih.1)
    have hwu := tree_path_walk g start st hb.start_range ho.start_distance u ts ht
    have hnotin : e.to_ ∉ ts := by
      intro hm
      rcases tree_path_visited g start st u ts ht e.to_ hm with h1 | h1
      · rw [h1, ih.1] at hvisf; exact Bool.noConfusion hvisf
      · exact hc h1
    have hnd : (ts ++ [e.to_]).Nodup := by
      rw [List.nodup_append]
      refine ⟨tree_path_nodup g start st u ts ht, by simp, ?_⟩
      intro a ha hb2
      have : a = e.to_ := by simpa using hb2
      rw [this] at ha
      exact hnotin ha
    have hmax := hsum _ _ _ (Walk.snoc e hwu he) hnd
    have : st.distance e.to_ < INF := by
      rw [INF_eq]; unfold INT_MAX at hmax; omega
    exact hc (hvisited e.to_ hvr.1 hvr.2 this)

theorem walk_vertices_range (g : Graph) (hv : g.Valid) (start v : Int) (vs : List Int)
    (W : Int) (hw : Walk g start v vs W) : ∀ x, x ∈ vs → 0 ≤ x ∧ x < g.num_vertices := by
  induction hw with
  | nil h0 h1 =>
    intro x hx
    have : x = start := by simpa using hx
    rw [this]; exact ⟨h0, h1⟩
  | @snoc u vs W e hw he ih =>
    intro x hx
    rcases List.mem_append.1 hx with h1 | h1
    · exact ih x h1
    · have : x = e.to_ := by simpa using h1
      rw [this]
      exact valid_edge g hv u (walk_range g hv start u vs W hw) e he

theorem walk_weight_le (g : Graph) (hv : g.Valid) (M : Int) (hM : g.WeightsAtMost M)
    (start v : Int) (vs : List Int) (W : Int) (hw : Walk g start v vs W) :
    1 ≤ vs.length ∧ W ≤ ((vs.length : Int) - 1) * M := by
  induction hw with
  | nil _ _ => simp
  | @snoc u vs W e hw he ih =>
    have hur := walk_range g hv start u vs W hw
    have hwe : e.weight ≤ M := by
      have := hM u.toNat (List.mem_range.2 (by omega)) e (by
        have h1 : ((u.toNat : Nat) : Int) = u := by omega
        rw [h1]; exact he)
      exact this
    refine ⟨by simp, ?_⟩
    have hl : (((vs ++ [e.to_]).length : Nat) : Int) = (vs.length : Int) + 1 := by simp
    rw [hl]
    have : ((vs.length : Int) + 1 - 1) * M = ((vs.length : Int) - 1) * M + M := by ring
    rw [this]
    omega

theorem path_sums_below_of_bound (g : Graph) (hv : g.Valid) (start : Int) (M : Int)
    (hM0 : 0 ≤ M) (hM : g.WeightsAtMost M)
    (hb : ((g.num_vertices : Int) - 1) * M < INT_MAX) : PathSumsBelowMax g start := by
  intro v vs W hw hnd
  obtain ⟨h1, h2⟩ := walk_weight_le g hv M hM start v vs W hw
  have h3 := length_le_of_nodup_range vs g.num_vertices hnd
    (walk_vertices_range g hv start v vs W hw)
  have h4 : ((vs.length : Int) - 1) * M ≤ ((g.num_vertices : Int) - 1) * M := by
    apply mul_le_mul_of_nonneg_right _ hM0
    omega
  omega

theorem main_graph_valid : main_graph.Valid := by
  unfold Graph.Valid
  decide

theorem main_graph_non_negative : main_graph.NonNegative := by
  unfold Graph.NonNegative
  decide

theorem main_graph_path_sums : PathSumsBelowMax main_graph 0 :=
  path_sums_below_of_bound main_graph main_graph_valid 0 10 (by decide)
    (by unfold Graph.WeightsAtMost; decide) (by decide)

theorem two_group_graph_valid : two_group_graph.Valid := by
  unfold Graph.Valid
  decide

end Dijkstra

/-! ## Claims about `dijkstra_shortest_path` -/

namespace Dijkstra

/-- C10: for every graph whose adjacency nodes point to vertices of the graph
(any edge weights, any order of the adjacency lists) and every start vertex,
the main loop of `dijkstra_shortest_path` ends (any fuel above `num_vertices`
is enough) and every vertex `v` that is not reachable from `start` then has
`distance[v] = INF` and `parent[v] = -1`. -/
theorem dijkstra_unreachable_stays_unset (g : Graph) (start : Int) (fuel : Nat)
    (hv : g.Valid) (hs : 0 ≤ start ∧ start < g.num_vertices) (hfuel : g.num_vertices < fuel) :
    ∃ st, dijkstra_shortest_path fuel g start = some st ∧
      ∀ v : Int, 0 ≤ v → v < g.num_vertices → ¬ Reachable g start v →
        st.distance v = INF ∧ st.parent v = -1 := by
  obtain ⟨st0, hinit, hb0, hvis0, _, _⟩ := dijkstra_init_base g start hs
  obtain ⟨st, hrun, hb, _⟩ := dijkstra_loop_invariant g start (BaseInv g start)
    (fun _ h => h)
    (fun s u d heap1 hbs hr hur _ => base_step g hv start s u d heap1 hbs hr hur _)
    fuel st0 hb0 (lt_of_le_of_lt (unvisited_count_le _ _) hfuel)
  refine ⟨st, by simp [dijkstra_shortest_path, hinit, hrun], ?_⟩
  intro v hv0 hv1 hnr
  have hd : st.distance v = INF := by
    have h1 := hb.distance_le v hv0 hv1
    rcases lt_or_eq_of_le h1 with h2 | h2
    · exact absurd (hb.reachable v hv0 hv1 h2) hnr
    · exact h2
  exact ⟨hd, hb.parent_unset v hv0 hv1 hd⟩

/-- Witness of `dijkstra_unreachable_stays_unset`: the graph of two separate
groups, one with a negative edge, from vertex 0. -/
theorem dijkstra_unreachable_stays_unset_witness :
    two_group_graph.Valid ∧ ((0 : Int) ≤ 0 ∧ (0 : Int) < two_group_graph.num_vertices) ∧
      two_group_graph.num_vertices < 5 ∧
      ∃ st, dijkstra_shortest_path 5 two_group_graph 0 = some st ∧
        ∀ v : Int, 0 ≤ v → v < two_group_graph.num_vertices →
          ¬ Reachable two_group_graph 0 v → st.distance v = INF ∧ st.parent v = -1 :=
  ⟨two_group_graph_valid, by decide, by decide,
    dijkstra_unreachable_stays_unset two_group_graph 0 5 two_group_graph_valid (by decide)
      (by decide)⟩

/-- C1: for every graph whose adjacency nodes point to vertices of the graph,
whose edge weights are all non-negative and in which every path from `start`
without repeated vertex has a total weight below `INT_MAX`, and for every valid
start vertex, the main loop of `dijkstra_shortest_path` ends (any fuel above
`num_vertices` is enough), and for every vertex `v` reachable from `start`,
`distance[v]` is the total weight of a path from `start` to `v` and no path
from `start` to `v` (repeated vertices allowed) has a smaller total weight. -/
theorem dijkstra_distance_is_minimum (g : Graph) (start : Int) (fuel : Nat) (hv : g.Valid)
    (hn : g.NonNegative) (hs : 0 ≤ start ∧ start < g.num_vertices)
    (hsum : PathSumsBelowMax g start) (hfuel : g.num_vertices < fuel) :
    ∃ st, dijkstra_shortest_path fuel g start = some st ∧
      ∀ v, Reachable g start v →
        (∃ vs, Walk g start v vs (st.distance v)) ∧
          ∀ vs W, Walk g start v vs W → st.distance v ≤ W := by
  obtain ⟨st, c, hrun, hb, ho, hz⟩ := dijkstra_run_opt g start fuel hv hn hs hsum hfuel
  refine ⟨st, hrun, ?_⟩
  rintro v ⟨vs, W, hw⟩
  have hclosed := final_closed g hv start hsum st c hb ho hz
  have hvr := walk_range g hv start v vs W hw
  have hvis := (hclosed v vs W hw).1
  obtain ⟨ts, ht⟩ := ho.tree v hvr.1 hvr.2 (hb.visited_found v hvr.1 hvr.2 hvis)
  exact ⟨⟨ts, tree_path_walk g start st hb.start_range ho.start_distance v ts ht⟩,
    fun vs2 W2 hw2 => (hclosed v vs2 W2 hw2).2⟩

/-- Witness of `dijkstra_distance_is_minimum`: the graph of `main`, from
vertex 0. -/
theorem dijkstra_distance_is_minimum_witness :
    main_graph.Valid ∧ main_graph.NonNegative ∧
      ((0 : Int) ≤ 0 ∧ (0 : Int) < main_graph.num_vertices) ∧ PathSumsBelowMax main_graph 0 ∧
      main_graph.num_vertices < 6 ∧
      ∃ st, dijkstra_shortest_path 6 main_graph 0 = some st ∧
        ∀ v, Reachable main_graph 0 v →
          (∃ vs, Walk main_graph 0 v vs (st.distance v)) ∧
            ∀ vs W, Walk main_graph 0 v vs W → st.distance v ≤ W :=
  ⟨main_graph_valid, main_graph_non_negative, by decide, main_graph_path_sums, by decide,
    dijkstra_distance_is_minimum main_graph 0 6 main_graph_valid main_graph_non_negative
      (by decide) main_graph_path_sums (by decide)⟩

theorem no_parent_chain_of_unset (g : Graph) (parent : Int → Int) (start v : Int)
    (hne : v ≠ start) (hp : g.array (parent v) = []) :
    ¬ ∃ W, ParentChain g parent start v W := by
  rintro ⟨W, h⟩
  cases h with
  | root _ => exact hne rfl
  | step e _ _ hpar he _ =>
    rw [← hpar, hp] at he
    exact List.not_mem_nil _ he

/-- C2, as stated, fails: non-negative weights alone do not suffice.  On the
graph of two vertices with the single edge `0→1` of weight `INT_MAX` (no sum
overflows), vertex 1 is reachable from 0, but the candidate `0 + INT_MAX` is
not smaller than `INF`, so the run ends with `distance[1] == INF` and
`parent[1] == -1`: following `parent[]` from vertex 1 does not reach the
start. -/
theorem parent_unset_at_sentinel_weight :
    max_edge_graph.Valid ∧ max_edge_graph.NonNegative ∧ Reachable max_edge_graph 0 1 ∧
      ∃ st, dijkstra_shortest_path 3 max_edge_graph 0 = some st ∧
        st.distance 1 = INF ∧ st.parent 1 = -1 ∧
        ¬ ∃ W, ParentChain max_edge_graph st.parent 0 1 W :=
  ⟨by unfold Graph.Valid; decide, by unfold Graph.NonNegative; decide,
    ⟨_, _, Walk.snoc (⟨1, 2147483647⟩ : AdjNode) (Walk.nil (by decide) (by decide))
      (by decide)⟩,
    _, rfl, by decide, by decide,
    no_parent_chain_of_unset _ _ _ _ (by decide) (by decide)⟩

/-- C2, amended: for every graph with non-negative edge weights whose
repeat-free path sums from `start` stay below `INT_MAX` (the hypotheses of
C1), in the output of `dijkstra_shortest_path` the start vertex is the only
vertex equal to its own parent, and for every vertex `v` reachable from
`start`, following `parent[]` from `v` reaches `start` after finitely many
steps, every step `(parent[x], x)` is an edge of the graph, and the weights of
those edges sum to exactly `distance[v]`. -/
theorem dijkstra_parent_chain_matches_distance (g : Graph) (start : Int) (fuel : Nat)
    (hv : g.Valid) (hn : g.NonNegative) (hs : 0 ≤ start ∧ start < g.num_vertices)
    (hsum : PathSumsBelowMax g start) (hfuel : g.num_vertices < fuel) :
    ∃ st, dijkstra_shortest_path fuel g start = some st ∧
      (∀ x : Int, 0 ≤ x → x < g.num_vertices → (st.parent x = x ↔ x = start)) ∧
      ∀ v, Reachable g start v → ParentChain g st.parent start v (st.distance v) := by
  obtain ⟨st, c, hrun, hb, ho, hz⟩ := dijkstra_run_opt g start fuel hv hn hs hsum hfuel
  refine ⟨st, hrun, ?_, ?_⟩
  · intro x hx0 hx1
    exact ⟨ho.root_unique x hx0 hx1, fun hx => by rw [hx]; exact ho.start_parent⟩
  · rintro v ⟨vs, W, hw⟩
    have hclosed := final_closed g hv start hsum st c hb ho hz
    have hvr := walk_range g hv start v vs W hw
    have hvis := (hclosed v vs W hw).1
    obtain ⟨ts, ht⟩ := ho.tree v hvr.1 hvr.2 (hb.visited_found v hvr.1 hvr.2 hvis)
    exact tree_path_parent_chain g start st ho.start_distance ho.start_parent v ts ht

/-- Witness of `dijkstra_parent_chain_matches_distance`: the graph of `main`,
from vertex 0. -/
theorem dijkstra_parent_chain_matches_distance_witness :
    main_graph.Valid ∧ main_graph.NonNegative ∧
      ((0 : Int) ≤ 0 ∧ (0 : Int) < main_graph.num_vertices) ∧ PathSumsBelowMax main_graph 0 ∧
      main_graph.num_vertices < 6 ∧
      ∃ st, dijkstra_shortest_path 6 main_graph 0 = some st ∧
        (∀ x : Int, 0 ≤ x → x < main_graph.num_vertices → (st.parent x = x ↔ x = 0)) ∧
        ∀ v, Reachable main_graph 0 v →
          ParentChain main_graph st.parent 0 v (st.distance v) :=
  ⟨main_graph_valid, main_graph_non_negative, by decide, main_graph_path_sums, by decide,
    dijkstra_parent_chain_matches_distance main_graph 0 6 main_graph_valid
      main_graph_non_negative (by decide) main_graph_path_sums (by decide)⟩

theorem main_graph_is_built :
    ∃ g, add_edges (graph_create 5)
        [(0, 1, 10), (0, 3, 5), (1, 2, 5), (1, 4, 3), (2, 4, 2), (3, 4, 1)] = some g ∧
      g.num_vertices = main_graph.num_vertices ∧
      ∀ u : Nat, u ∈ List.range 5 → g.array (u : Int) = main_graph.array (u : Int) :=
  ⟨_, rfl, rfl, by decide⟩

end Dijkstra

/-! ## The heap operations without assumption on the order of keys -/

namespace Dijkstra

theorem sift_up_loop_total : ∀ (fuel : Nat) (h : MinHeap) (k : Nat), k < fuel → k < h.size →
    h.size ≤ h.capacity → VerticesInRange h → h.pos (h.data k).vertex = k →
    ∃ h2 j, sift_up_loop fuel h k = some h2 ∧ Rearranged h h2 ∧ j < h2.size ∧
      h2.data j = h.data k ∧ h2.pos (h.data k).vertex = j := by
  intro fuel
  induction fuel with
  | zero => intro h k hk; omega
  | succ fuel ih =>
    intro h k hk hks hsz hv hpk
    unfold sift_up_loop
    by_cases hk0 : 0 < k
    · have hkc : k < h.capacity := by omega
      simp only [hk0, hkc, if_true]
      by_cases hlt : (h.data k).distance < (h.data ((k - 1) / 2)).distance
      · have hps : (k - 1) / 2 < h.size := by omega
        simp only [hlt, if_true]
        rw [heap_swap_nodes_eq h k ((k - 1) / 2) hks hps hsz hv]
        simp only [Option.some_bind]
        have r1 := swapped_rearranged h k ((k - 1) / 2) hks hps
        have hd : (swapped h k ((k - 1) / 2)).data ((k - 1) / 2) = h.data k := by
          rw [swapped_data]; simp
        have hp : (swapped h k ((k - 1) / 2)).pos (h.data k).vertex
            = (((k - 1) / 2 : Nat) : Int) := by
          show Function.update (Function.update h.pos _ _) (h.data k).vertex _ _ = _
          rw [Function.update_same]
        obtain ⟨h2, j, hrun, r2, hj, hdj, hpj⟩ := ih (swapped h k ((k - 1) / 2)) ((k - 1) / 2)
          (by omega) hps hsz (r1.vertices hv) (by rw [hd]; exact hp)
        rw [hd] at hdj hpj
        exact ⟨h2, j, hrun, r1.trans r2, hj, hdj, hpj⟩
      · simp only [hlt, if_false]
        exact ⟨h, k, rfl, Rearranged.refl h, hks, rfl, hpk⟩
    · simp only [hk0, if_false]
      exact ⟨h, k, rfl, Rearranged.refl h, hks, rfl, hpk⟩

theorem pick_smaller_cases (h : MinHeap) (c s : Nat) (hsz : h.size ≤ h.capacity)
    (hs : c < h.size → s < h.capacity) :
    pick_smaller h c s = some s ∨ (pick_smaller h c s = some c ∧ c < h.size) := by
  rw [pick_smaller_eq h c s hsz hs]
  by_cases hc : c < h.size ∧ (h.data c).distance < (h.data s).distance
  · right; simp only [hc, and_self, if_true]
  · left; simp only [hc, if_false]

theorem sift_down_rec_total : ∀ (fuel : Nat) (h : MinHeap) (k : Nat), h.size < fuel + k →
    k ≤ h.size → h.size ≤ h.capacity → VerticesInRange h →
    ∃ h2, sift_down_rec fuel h k = some h2 ∧ Rearranged h h2 := by
  intro fuel
  induction fuel with
  | zero => intro h k h1 h2; omega
  | succ fuel ih =>
    intro h k hf hks hsz hv
    unfold sift_down_rec
    have step : ∀ s, k < s → s < h.size →
        ∃ h2, (if s ≠ k then
            (heap_swap_nodes h k s).bind fun h1 => sift_down_rec fuel h1 s
          else some h) = some h2 ∧ Rearranged h h2 := by
      intro s hks2 hss
      have hne : s ≠ k := by omega
      have hk : k < h.size := by omega
      simp only [hne, ne_eq, not_false_eq_true, if_true]
      rw [heap_swap_nodes_eq h k s hk hss hsz hv]
      simp only [Option.some_bind]
      have r1 := swapped_rearranged h k s hk hss
      obtain ⟨h2, hrun, r2⟩ := ih (swapped h k s) s (by show h.size < fuel + s; omega)
        (by show s ≤ h.size; omega) hsz (r1.vertices hv)
      exact ⟨h2, hrun, r1.trans r2⟩
    have stay : ∃ h2, (if k ≠ k then
          (heap_swap_nodes h k k).bind fun h1 => sift_down_rec fuel h1 k
        else some h) = some h2 ∧ Rearranged h h2 := by
      simp only [ne_eq, not_true_eq_false, if_false]
      exact ⟨h, rfl, Rearranged.refl h⟩
    rcases pick_smaller_cases h (2 * k + 1) k hsz (by omega) with e1 | ⟨e1, hl⟩
    · rw [e1]
      simp only [Option.some_bind]
      rcases pick_smaller_cases h (2 * k + 2) k hsz (by omega) with e2 | ⟨e2, hr⟩
      · rw [e2]; simp only [Option.some_bind]; exact stay
      · rw [e2]; simp only [Option.some_bind]; exact step _ (by omega) hr
    · rw [e1]
      simp only [Option.some_bind]
      rcases pick_smaller_cases h (2 * k + 2) (2 * k + 1) hsz (by omega) with e2 | ⟨e2, hr⟩
      · rw [e2]; simp only [Option.some_bind]; exact step _ (by omega) hl
      · rw [e2]; simp only [Option.some_bind]; exact step _ (by omega) hr

theorem heap_push_total (h : MinHeap) (v d : Int) (hvr : VerticesInRange h)
    (hlt : h.size < h.capacity) (hv : 0 ≤ v ∧ v < h.capacity) :
    ∃ h2, heap_push h v d = some (true, h2) ∧ h2.size = h.size + 1 ∧
      h2.capacity = h.capacity ∧ VerticesInRange h2 ∧
      h2.entries.Perm (⟨v, d⟩ :: h.entries) ∧
      (PosConsistent h → Absent h v → PosConsistent h2) ∧
      heap_contains h2 v = some true := by
  let h1 : MinHeap :=
    { h with
      data := Function.update h.data h.size ⟨v, d⟩
      pos := Function.update h.pos v (h.size : Int)
      size := h.size + 1 }
  have hd1 : ∀ i, i < h.size → h1.data i = h.data i := by
    intro i hi
    show Function.update h.data h.size ⟨v, d⟩ i = h.data i
    rw [Function.update_noteq (by omega)]
  have hd2 : h1.data h.size = ⟨v, d⟩ := by
    show Function.update h.data h.size ⟨v, d⟩ h.size = _
    simp
  have hvr1 : VerticesInRange h1 := by
    intro i hi
    have hi2 : i < h.size + 1 := hi
    by_cases e : i = h.size
    · rw [e, hd2]; exact hv
    · rw [hd1 i (by omega)]; exact hvr i (by omega)
  have hp1 : h1.pos (h1.data h.size).vertex = (h.size : Int) := by
    rw [hd2]
    show Function.update h.pos v (h.size : Int) v = _
    simp
  obtain ⟨h2, j, hrun, r, hj, hdj, hpj⟩ := sift_up_loop_total (h.size + 1) h1 h.size (by omega)
    (by show h.size < h.size + 1; omega) (by show h.size + 1 ≤ h.capacity; omega) hvr1 hp1
  rw [hd2] at hpj
  have he1 : h1.entries = h.entries ++ [⟨v, d⟩] := by
    show (List.range (h.size + 1)).map h1.data = _
    rw [entries_succ, hd2, map_congr_range h1.data h.data h.size hd1]
    rfl
  refine ⟨h2, ?_, r.size_eq, r.capacity_eq, r.vertices hvr1, ?_, ?_, ?_⟩
  · unfold heap_push
    have : ¬ h.size ≥ h.capacity := by omega
    simp only [this, if_false, hv, and_self, if_true]
    show Option.map _ (heap_sift_up h1 (h.size + 1 - 1)) = _
    unfold heap_sift_up
    rw [Nat.add_sub_cancel, hrun]
    rfl
  · refine r.perm.trans ?_
    rw [he1]
    exact List.perm_append_singleton _ _
  · intro hp ha
    apply r.pos_ok
    intro i hi
    have hi2 : i < h.size + 1 := hi
    show Function.update h.pos v (h.size : Int) (h1.data i).vertex = i
    by_cases e : i = h.size
    · rw [e, hd2]; simp
    · rw [hd1 i (by omega), Function.update_noteq (ha i (by omega))]
      exact hp i (by omega)
  · unfold heap_contains
    have hv2 : 0 ≤ v ∧ v < (h2.capacity : Int) := by rw [r.capacity_eq]; exact hv
    simp only [hv2, and_self, if_true, hpj]
    simp
    omega

theorem heap_pop_total (h : MinHeap) (hsz : h.size ≤ h.capacity) (hvr : VerticesInRange h)
    (hpos : 0 < h.size) :
    ∃ h2, heap_pop h = some (some ((h.data 0).vertex, (h.data 0).distance), h2) ∧
      h2.size = h.size - 1 ∧ h2.capacity = h.capacity ∧ VerticesInRange h2 := by
  obtain ⟨n, hn⟩ : ∃ n, h.size = n + 1 := ⟨h.size - 1, by omega⟩
  let h1 : MinHeap :=
    { h with
      data := Function.update h.data 0 (h.data n)
      pos := Function.update h.pos (h.data n).vertex 0
      size := n }
  have hd0 : h1.data 0 = h.data n := by
    show Function.update h.data 0 (h.data n) 0 = _
    simp
  have hd1 : ∀ i, 0 < i → h1.data i = h.data i := by
    intro i hi
    show Function.update h.data 0 (h.data n) i = h.data i
    rw [Function.update_noteq (by omega)]
  have hvr1 : VerticesInRange h1 := by
    intro i hi
    have hi2 : i < n := hi
    by_cases e : i = 0
    · rw [e, hd0]; exact hvr n (by omega)
    · rw [hd1 i (by omega)]; exact hvr i (by omega)
  obtain ⟨h2, hrun, r⟩ := sift_down_rec_total (n + 1) h1 0 (by show n < n + 1 + 0; omega)
    (Nat.zero_le _) (by show n ≤ h.capacity; omega) hvr1
  refine ⟨h2, ?_, ?_, r.capacity_eq, r.vertices hvr1⟩
  · unfold heap_pop
    have c1 : ¬ h.size = 0 := by omega
    have c2 : n < h.capacity := by omega
    have c3 : h.size - 1 = n := by omega
    simp only [c1, c3, c2, if_false, if_true, Function.update_same, hvr n (by omega), and_self]
    show Option.map _ (heap_sift_down h1 0) = _
    unfold heap_sift_down
    show Option.map _ (sift_down_rec (n + 1) h1 0) = _
    rw [hrun]
    rfl
  · rw [r.size_eq]; show n = h.size - 1; omega

end Dijkstra

/-! ## Claims about single heap calls -/

namespace Dijkstra

theorem sample_heap_vertices : VerticesInRange sample_heap := sample_heap_inv.1.2.1

/-- C11: when `size < capacity`, every stored vertex indexes `pos`, and
`vertex` is in `[0, capacity)` and not present, `heap_push(vertex, key)`
returns `true`; afterwards the heap holds `(vertex, key)` together with exactly
the previous entries, `size` has grown by one, `heap_contains(vertex)` is true,
and the heap invariant holds if it held before. -/
theorem heap_push_inserts_entry (h : MinHeap) (vertex key : Int) (hvr : VerticesInRange h)
    (hlt : h.size < h.capacity) (hv : 0 ≤ vertex ∧ vertex < h.capacity)
    (ha : Absent h vertex) :
    ∃ h2, heap_push h vertex key = some (true, h2) ∧
      h2.entries.Perm (⟨vertex, key⟩ :: h.entries) ∧ h2.size = h.size + 1 ∧
      heap_contains h2 vertex = some true ∧ (HeapInv h → HeapInv h2) := by
  obtain ⟨h2, hrun, hs, _, _, hperm, hp, hc⟩ := heap_push_total h vertex key hvr hlt hv
  refine ⟨h2, hrun, hperm, hs, hc, ?_⟩
  intro hinv
  obtain ⟨h3, hrun3, hw3, _⟩ := heap_push_spec h vertex key hinv.1 hlt hv
  rw [hrun] at hrun3
  simp only [Option.some.injEq, Prod.mk.injEq, true_and] at hrun3
  subst hrun3
  exact ⟨hw3, hp hinv.2 ha⟩

/-- Witness of `heap_push_inserts_entry`: vertex 3 with key 1 pushed into
`sample_heap`. -/
theorem heap_push_inserts_entry_witness :
    VerticesInRange sample_heap ∧ sample_heap.size < sample_heap.capacity ∧
      ((0 : Int) ≤ 3 ∧ (3 : Int) < sample_heap.capacity) ∧ Absent sample_heap 3 ∧
      ∃ h2, heap_push sample_heap 3 1 = some (true, h2) ∧
        h2.entries.Perm (⟨3, 1⟩ :: sample_heap.entries) ∧ h2.size = sample_heap.size + 1 ∧
        heap_contains h2 3 = some true ∧ (HeapInv sample_heap → HeapInv h2) :=
  ⟨sample_heap_vertices, by decide, by decide, by unfold Absent; decide,
    heap_push_inserts_entry sample_heap 3 1 sample_heap_vertices (by decide) (by decide)
      (by unfold Absent; decide)⟩

/-- C12: when `vertex` is present with key `old_key` in a heap satisfying the
invariant and `new_key < old_key`, `heap_decrease_key(vertex, new_key)` returns
`true`, the entry of `vertex` now carries `new_key`, every other entry keeps
its vertex and its key, the size is unchanged and the invariant still holds. -/
theorem heap_decrease_key_lowers_key (h : MinHeap) (vertex old_key new_key : Int)
    (hinv : HeapInv h) (hm : (⟨vertex, old_key⟩ : HeapNode) ∈ h.entries)
    (hlt : new_key < old_key) :
    ∃ h2, heap_decrease_key h vertex new_key = some (true, h2) ∧
      (⟨vertex, new_key⟩ : HeapNode) ∈ h2.entries ∧
      (∀ e, e ∈ h2.entries → e.vertex = vertex → e = ⟨vertex, new_key⟩) ∧
      (∀ e, e.vertex ≠ vertex → (e ∈ h2.entries ↔ e ∈ h.entries)) ∧
      (⟨vertex, old_key⟩ :: h2.entries).Perm (⟨vertex, new_key⟩ :: h.entries) ∧
      h2.size = h.size ∧ HeapInv h2 := by
  obtain ⟨i, hi, hdi⟩ := mem_entries.1 hm
  have hvr := hinv.1.2.1 i hi
  have hpi := hinv.2 i hi
  rw [hdi] at hvr hpi
  obtain ⟨h2, hrun, hw2, hs, _, hperm, hp2, _⟩ :=
    heap_decrease_key_spec h vertex new_key i hinv.1 hvr hi hpi
      (by rw [hdi]; exact le_of_lt hlt)
  rw [hdi] at hperm
  obtain ⟨h3, hrun3, _, _, hmem, _⟩ :=
    heap_decrease_key_mem h vertex old_key new_key hinv hm hlt
  rw [hrun] at hrun3
  simp only [Option.some.injEq, Prod.mk.injEq, true_and] at hrun3
  subst hrun3
  refine ⟨h2, hrun, (hmem _).2 (Or.inl rfl), ?_, ?_, hperm, hs, hw2, hp2 hinv.2⟩
  · intro e he hev
    rcases (hmem e).1 he with h1 | h1
    · exact h1
    · exact absurd hev h1.2
  · intro e hev
    rw [hmem]
    constructor
    · rintro (h1 | h1)
      · rw [h1] at hev; exact absurd rfl hev
      · exact h1.1
    · intro h1; exact Or.inr ⟨h1, hev⟩

/-- Witness of `heap_decrease_key_lowers_key`: vertex 2 of `sample_heap`
goes from key 8 to key 1. -/
theorem heap_decrease_key_lowers_key_witness :
    HeapInv sample_heap ∧ (⟨2, 8⟩ : HeapNode) ∈ sample_heap.entries ∧ (1 : Int) < 8 ∧
      ∃ h2, heap_decrease_key sample_heap 2 1 = some (true, h2) ∧
        (⟨2, 1⟩ : HeapNode) ∈ h2.entries ∧
        (∀ e, e ∈ h2.entries → e.vertex = 2 → e = ⟨2, 1⟩) ∧
        (∀ e, e.vertex ≠ 2 → (e ∈ h2.entries ↔ e ∈ sample_heap.entries)) ∧
        (⟨2, 8⟩ :: h2.entries).Perm (⟨2, 1⟩ :: sample_heap.entries) ∧
        h2.size = sample_heap.size ∧ HeapInv h2 :=
  ⟨sample_heap_inv, by decide, by decide,
    heap_decrease_key_lowers_key sample_heap 2 8 1 sample_heap_inv (by decide) (by decide)⟩

/-- C13, as stated, fails: `heap_push` has no test for a vertex that is already
present, in `dijkstra.c` and in `prim.c` alike.  After `push(0, 5)` the call
`push(0, 3)` returns `true` and the heap holds two entries of vertex 0. -/
theorem heap_push_stores_duplicate :
    (∃ h h2, heap_push (heap_create 2) 0 5 = some (true, h) ∧
      heap_push h 0 3 = some (true, h2) ∧ h2.size = 2 ∧ h2.entries = [⟨0, 3⟩, ⟨0, 5⟩]) ∧
    (∃ h h2, Prim.heap_push (Prim.heap_create 2 (fun _ => ⟨0, 0⟩) (fun _ => 0)) 0 5
        = some (true, h) ∧
      Prim.heap_push h 0 3 = some (true, h2) ∧ h2.size = 2 ∧
      (h2.data 0, h2.data 1) = (⟨0, 3⟩, ⟨0, 5⟩)) :=
  ⟨⟨_, _, rfl, rfl, by decide, by decide⟩, ⟨_, _, rfl, rfl, by decide, by decide⟩⟩

/-- C13, amended: `heap_push(vertex, key)` does not test whether `vertex` is
already present.  On a heap with `size < capacity` whose stored vertices index
`pos`, a push of an in-range vertex that is already present returns `true`,
adds the entry `(vertex, key)` to the previous entries and grows `size` by one,
so that the vertex is then stored at least twice. -/
theorem heap_push_accepts_present_vertex (h : MinHeap) (vertex key : Int)
    (hvr : VerticesInRange h) (hlt : h.size < h.capacity)
    (hv : 0 ≤ vertex ∧ vertex < h.capacity)
    (hp : ∃ i, i < h.size ∧ (h.data i).vertex = vertex) :
    ∃ h2, heap_push h vertex key = some (true, h2) ∧
      h2.entries.Perm (⟨vertex, key⟩ :: h.entries) ∧ h2.size = h.size + 1 ∧
      2 ≤ (h2.entries.map fun e => e.vertex).count vertex := by
  obtain ⟨h2, hrun, hs, _, _, hperm, _, _⟩ := heap_push_total h vertex key hvr hlt hv
  refine ⟨h2, hrun, hperm, hs, ?_⟩
  have hc := (hperm.map fun e => e.vertex).count_eq vertex
  rw [hc, List.map_cons, List.count_cons_self]
  obtain ⟨i, hi, hiv⟩ := hp
  have hm : vertex ∈ h.entries.map fun e => e.vertex :=
    List.mem_map.2 ⟨h.data i, mem_entries.2 ⟨i, hi, rfl⟩, hiv⟩
  have := List.count_pos_iff.2 hm
  omega

/-- Witness of `heap_push_accepts_present_vertex`: vertex 0, already in
`sample_heap`, is pushed again. -/
theorem heap_push_accepts_present_vertex_witness :
    VerticesInRange sample_heap ∧ sample_heap.size < sample_heap.capacity ∧
      ((0 : Int) ≤ 0 ∧ (0 : Int) < sample_heap.capacity) ∧
      (∃ i, i < sample_heap.size ∧ (sample_heap.data i).vertex = 0) ∧
      ∃ h2, heap_push sample_heap 0 2 = some (true, h2) ∧
        h2.entries.Perm (⟨0, 2⟩ :: sample_heap.entries) ∧ h2.size = sample_heap.size + 1 ∧
        2 ≤ (h2.entries.map fun e => e.vertex).count 0 :=
  ⟨sample_heap_vertices, by decide, by decide, by decide,
    heap_push_accepts_present_vertex sample_heap 0 2 sample_heap_vertices (by decide)
      (by decide) (by decide)⟩

/-- C14: when the heap already holds `capacity` entries (`size >= capacity`),
`heap_push` returns `false` and the heap it leaves is the heap it was given:
`data`, `pos` and `size` are unchanged. -/
theorem heap_push_full_returns_false (h : MinHeap) (vertex key : Int)
    (hfull : h.size ≥ h.capacity) : heap_push h vertex key = some (false, h) := by
  unfold heap_push
  simp only [hfull, if_true]

/-- Witness of `heap_push_full_returns_false` on `full_heap`. -/
theorem heap_push_full_returns_false_witness :
    full_heap.size ≥ full_heap.capacity ∧ heap_push full_heap 0 9 = some (false, full_heap) :=
  ⟨by decide, heap_push_full_returns_false full_heap 0 9 (by decide)⟩

/-- C15: on a heap whose size is within its capacity and whose stored vertices
index `pos`, `heap_is_empty` is true exactly when `size == 0`; on an empty heap
`heap_pop` returns `false` and leaves the heap as it was; on a non-empty heap
it returns `true` (with its two outputs) and removes one entry. -/
theorem heap_pop_false_iff_empty (h : MinHeap) (hsz : h.size ≤ h.capacity)
    (hvr : VerticesInRange h) :
    (heap_is_empty h = true ↔ h.size = 0) ∧
      (h.size = 0 → heap_pop h = some (none, h)) ∧
      (h.size ≠ 0 → ∃ vertex distance h2,
        heap_pop h = some (some (vertex, distance), h2) ∧ h2.size = h.size - 1) := by
  refine ⟨by simp [heap_is_empty], ?_, ?_⟩
  · intro hz
    unfold heap_pop
    simp only [hz, if_true]
  · intro hne
    obtain ⟨h2, hrun, hs, _⟩ := heap_pop_total h hsz hvr (by omega)
    exact ⟨_, _, h2, hrun, hs⟩

/-- Witness of `heap_pop_false_iff_empty` on `sample_heap`. -/
theorem heap_pop_false_iff_empty_witness :
    sample_heap.size ≤ sample_heap.capacity ∧ VerticesInRange sample_heap ∧
      (heap_is_empty sample_heap = true ↔ sample_heap.size = 0) ∧
      (sample_heap.size = 0 → heap_pop sample_heap = some (none, sample_heap)) ∧
      (sample_heap.size ≠ 0 → ∃ vertex distance h2,
        heap_pop sample_heap = some (some (vertex, distance), h2) ∧
          h2.size = sample_heap.size - 1) :=
  ⟨by decide, sample_heap_vertices,
    heap_pop_false_iff_empty sample_heap (by decide) sample_heap_vertices⟩

/-- C16 fails on the code.  For an extracted vertex: after `push(0,1)`,
`push(1,2)` and one `heap_pop` (which extracts vertex 0 and leaves `pos[0]` at
0), the call `heap_decrease_key(0, 7)` passes the test `index >= size`,
returns `true` and overwrites the key of vertex 1, which goes from 2 to 7.  For
a vertex never pushed: with only vertex 0 in the heap, `pos[1]` is `-1`, the
test `index >= size` does not catch it, and `heap_decrease_key(1, 0)` writes
`data[-1]`, outside the array. -/
theorem heap_decrease_key_accepts_absent_vertex :
    (∃ h h2 h3, run_ops (heap_create 2) [HeapOp.push 0 1, HeapOp.push 1 2] = some h ∧
      heap_pop h = some (some (0, 1), h2) ∧ h2.entries = [⟨1, 2⟩] ∧
      heap_decrease_key h2 0 7 = some (true, h3) ∧ h3.entries = [⟨1, 7⟩]) ∧
    (∃ h, run_ops (heap_create 2) [HeapOp.push 0 1] = some h ∧ h.entries = [⟨0, 1⟩] ∧
      h.pos 1 = -1 ∧ heap_decrease_key h 1 0 = none) :=
  ⟨⟨_, _, _, rfl, rfl, by decide, rfl, by decide⟩, ⟨_, rfl, by decide, by decide, rfl⟩⟩

theorem heap_create_is_empty (capacity : Nat) :
    heap_is_empty (heap_create capacity) = true ∧
      ∀ v : Int, 0 ≤ v → v < capacity → heap_contains (heap_create capacity) v = some false := by
  refine ⟨rfl, ?_⟩
  intro v h0 h1
  exact heap_contains_unset _ v ⟨h0, h1⟩ rfl

/-- C17 fails on the code for the heap of `prim.c`: its `heap_create` does not
initialise `pos` and its `heap_contains` tests only `pos[vertex] < size`.  When
the memory handed out by `malloc` holds `-1` in the cells of `pos`, the fresh
heap is empty, yet `heap_contains(0)` and `heap_contains(1)` return `true`.
The heap of `dijkstra.c`, which fills `pos` with `-1` and also tests
`position >= 0`, answers `false` there. -/
theorem prim_heap_create_contains_true :
    Prim.heap_is_empty (Prim.heap_create 2 (fun _ => ⟨0, 0⟩) (fun _ => -1)) = true ∧
      Prim.heap_contains (Prim.heap_create 2 (fun _ => ⟨0, 0⟩) (fun _ => -1)) 0 = some true ∧
      Prim.heap_contains (Prim.heap_create 2 (fun _ => ⟨0, 0⟩) (fun _ => -1)) 1 = some true ∧
      heap_is_empty (heap_create 2) = true ∧
      heap_contains (heap_create 2) 0 = some false ∧
      heap_contains (heap_create 2) 1 = some false :=
  ⟨by decide, by decide, by decide, by decide, by decide, by decide⟩

end Dijkstra

/-! ## Claims about the graph store -/

namespace Dijkstra

theorem graph_add_edge_eq (g : Graph) (u v w : Int) (hu : 0 ≤ u ∧ u < g.num_vertices) :
    graph_add_edge g u v w =
      some { g with array := Function.update g.array u (⟨v, w⟩ :: g.array u) } := by
  unfold graph_add_edge
  simp only [hu, and_self, if_true]

theorem inserted_at_cons (e : Int × Int × Int) (es : List (Int × Int × Int)) (u : Int) :
    inserted_at (e :: es) u =
      inserted_at es u ++ (if e.1 = u then [(⟨e.2.1, e.2.2⟩ : AdjNode)] else []) := by
  unfold inserted_at
  by_cases h : e.1 = u
  · simp [List.filter_cons, h]
  · simp [List.filter_cons, h]

theorem add_edges_spec : ∀ (es : List (Int × Int × Int)) (g : Graph),
    (∀ e, e ∈ es → 0 ≤ e.1 ∧ e.1 < g.num_vertices) →
    ∃ g2, add_edges g es = some g2 ∧ g2.num_vertices = g.num_vertices ∧
      ∀ u, g2.array u = inserted_at es u ++ g.array u := by
  intro es
  induction es with
  | nil => intro g _; exact ⟨g, rfl, rfl, fun u => by simp [inserted_at]⟩
  | cons e es ih =>
    intro g hr
    have he := hr e (List.mem_cons_self _ _)
    obtain ⟨g2, hrun, hn, harr⟩ :=
      ih { g with array := Function.update g.array e.1 (⟨e.2.1, e.2.2⟩ :: g.array e.1) }
        (fun x hx => hr x (List.mem_cons_of_mem _ hx))
    refine ⟨g2, ?_, hn, ?_⟩
    · unfold add_edges
      rw [graph_add_edge_eq g e.1 e.2.1 e.2.2 he]
      exact hrun
    · intro u
      rw [harr u, inserted_at_cons, List.append_assoc]
      congr 1
      show Function.update g.array e.1 _ u = _
      by_cases h : e.1 = u
      · subst h; simp
      · rw [Function.update_noteq (fun hc => h hc.symm)]; simp [h]

/-- C18: `graph_create(n)` gives `n` vertices with empty adjacency lists; one
`graph_add_edge(u, v, w)` with `u` in `[0, n)` puts `(v, w)` at the head of the
list of `u` and leaves the list of every other vertex unchanged; and after any
sequence of `graph_add_edge` calls with both endpoints in `[0, n)` on
`graph_create(n)`, every call has succeeded and the adjacency list of every
vertex `u` holds exactly the `(v, w)` pairs inserted with source `u`, most
recent first. -/
theorem adjacency_lists_hold_inserted_edges (n : Nat) (edges : List (Int × Int × Int))
    (hr : ∀ e, e ∈ edges → (0 ≤ e.1 ∧ e.1 < n) ∧ (0 ≤ e.2.1 ∧ e.2.1 < n)) :
    ((graph_create n).num_vertices = n ∧ ∀ u, (graph_create n).array u = []) ∧
      (∀ (g : Graph) (u v w : Int), 0 ≤ u ∧ u < g.num_vertices →
        ∃ g2, graph_add_edge g u v w = some g2 ∧ g2.num_vertices = g.num_vertices ∧
          g2.array u = ⟨v, w⟩ :: g.array u ∧ ∀ x, x ≠ u → g2.array x = g.array x) ∧
      ∃ g, add_edges (graph_create n) edges = some g ∧ g.num_vertices = n ∧
        ∀ u, g.array u = inserted_at edges u := by
  refine ⟨⟨rfl, fun _ => rfl⟩, ?_, ?_⟩
  · intro g u v w hu
    refine ⟨_, graph_add_edge_eq g u v w hu, rfl, ?_, ?_⟩
    · show Function.update g.array u _ u = _
      simp
    · intro x hx
      show Function.update g.array u _ x = _
      rw [Function.update_noteq hx]
  · obtain ⟨g, hrun, hn, harr⟩ := add_edges_spec edges (graph_create n)
      (fun e he => (hr e he).1)
    refine ⟨g, hrun, hn, ?_⟩
    intro u
    rw [harr u]
    show inserted_at edges u ++ [] = _
    simp

/-- Witness of `adjacency_lists_hold_inserted_edges`: the six insertions of
`main`. -/
theorem adjacency_lists_hold_inserted_edges_witness :
    (∀ e, e ∈ [((0 : Int), (1 : Int), (10 : Int)), (0, 3, 5), (1, 2, 5), (1, 4, 3), (2, 4, 2),
        (3, 4, 1)] → (0 ≤ e.1 ∧ e.1 < (5 : Nat)) ∧ (0 ≤ e.2.1 ∧ e.2.1 < (5 : Nat))) ∧
      (((graph_create 5).num_vertices = 5 ∧ ∀ u, (graph_create 5).array u = []) ∧
        (∀ (g : Graph) (u v w : Int), 0 ≤ u ∧ u < g.num_vertices →
          ∃ g2, graph_add_edge g u v w = some g2 ∧ g2.num_vertices = g.num_vertices ∧
            g2.array u = ⟨v, w⟩ :: g.array u ∧ ∀ x, x ≠ u → g2.array x = g.array x) ∧
        ∃ g, add_edges (graph_create 5)
            [(0, 1, 10), (0, 3, 5), (1, 2, 5), (1, 4, 3), (2, 4, 2), (3, 4, 1)] = some g ∧
          g.num_vertices = 5 ∧
          ∀ u, g.array u =
            inserted_at [(0, 1, 10), (0, 3, 5), (1, 2, 5), (1, 4, 3), (2, 4, 2), (3, 4, 1)] u) :=
  ⟨by decide, adjacency_lists_hold_inserted_edges 5 _ (by decide)⟩

/-- C19: `graph_add_undirected_edge(u, v, w)` of `dijkstra.c` produces the
graph of `graph_add_edge(u, v, w)` followed by `graph_add_edge(v, u, w)`, and
`graph_add_edge(u, v, w)` of `prim.c` produces that same graph (and is
undefined in the same cases, an endpoint outside `[0, n)`). -/
theorem undirected_insertion_is_two_directed (u v w : Int) :
    (∀ g : Graph, graph_add_undirected_edge g u v w =
      (graph_add_edge g u v w).bind fun g1 => graph_add_edge g1 v u w) ∧
    ∀ g : Prim.Graph, (Prim.graph_add_edge g u v w).map Prim.Graph.to_dijkstra =
      graph_add_undirected_edge g.to_dijkstra u v w := by
  refine ⟨fun _ => rfl, ?_⟩
  intro g
  unfold Prim.graph_add_edge graph_add_undirected_edge graph_add_edge
  have hn : g.to_dijkstra.num_vertices = g.num_vertices := rfl
  by_cases hu : 0 ≤ u ∧ u < (g.num_vertices : Int)
  · by_cases hv : 0 ≤ v ∧ v < (g.num_vertices : Int)
    · simp only [hn, hu, hv, and_self, if_true, Option.some_bind, Option.map_some']
      congr 1
      unfold Prim.Graph.to_dijkstra
      simp only [Graph.mk.injEq, true_and]
      funext x
      simp only [Function.update_apply]
      by_cases h1 : x = v
      · by_cases h2 : v = u
        · simp [h1, h2, Prim.AdjNode.to_dijkstra]
        · simp [h1, h2, Prim.AdjNode.to_dijkstra]
      · by_cases h2 : x = u
        · subst h2
          have h3 : ¬ v = x := fun hc => h1 hc.symm
          simp [h1, h3, Prim.AdjNode.to_dijkstra]
        · simp [h1, h2]
    · simp only [hn, hu, hv, and_self, if_true, if_false, Option.some_bind, Option.map_none']
  · simp only [hn, hu, if_false, Option.none_bind, Option.map_none']

/-- C20, as stated, fails: `graph_add_edge` makes no range check.  On the graph
of 3 vertices without edges, `graph_add_edge(0, 7, 1)` succeeds and stores the
edge `(0, 7, 1)`, whose target is not a vertex of the graph. -/
theorem graph_add_edge_stores_out_of_range_target :
    ∃ g, graph_add_edge (graph_create 3) 0 7 1 = some g ∧ g.num_vertices = 3 ∧
      g.array 0 = [⟨7, 1⟩] ∧ ¬ g.Valid := by
  refine ⟨_, rfl, rfl, by decide, ?_⟩
  unfold Graph.Valid
  decide

/-- C20, amended: `graph_add_edge(u, v, w)` makes no range check and has no
failure result.  With `u` in `[0, n)` it stores `(v, w)` at the head of the list
of `u` whatever `v` is; every stored edge of the new graph has its target in
`[0, n)` when that held before the call and `v` is in `[0, n)`. -/
theorem graph_add_edge_stores_any_target (g : Graph) (u v w : Int)
    (hu : 0 ≤ u ∧ u < g.num_vertices) :
    ∃ g2, graph_add_edge g u v w = some g2 ∧ g2.num_vertices = g.num_vertices ∧
      g2.array u = ⟨v, w⟩ :: g.array u ∧
      (g.Valid → 0 ≤ v ∧ v < g.num_vertices → g2.Valid) := by
  refine ⟨_, graph_add_edge_eq g u v w hu, rfl, ?_, ?_⟩
  · show Function.update g.array u _ u = _
    simp
  · intro hval hv x hx e he
    have he2 : e ∈ Function.update g.array u (⟨v, w⟩ :: g.array u) (x : Int) := he
    show 0 ≤ e.to_ ∧ e.to_ < (g.num_vertices : Int)
    by_cases hc : (x : Int) = u
    · rw [hc, Function.update_same] at he2
      rcases List.mem_cons.1 he2 with h1 | h1
      · rw [h1]; exact hv
      · exact hval x hx e (by rw [hc]; exact h1)
    · rw [Function.update_noteq hc] at he2
      exact hval x hx e he2

/-- Witness of `graph_add_edge_stores_any_target`: an edge from vertex 2 to
the out-of-range target 9 is added to the graph of `main`. -/
theorem graph_add_edge_stores_any_target_witness :
    ((0 : Int) ≤ 2 ∧ (2 : Int) < main_graph.num_vertices) ∧
      ∃ g2, graph_add_edge main_graph 2 9 1 = some g2 ∧
        g2.num_vertices = main_graph.num_vertices ∧
        g2.array 2 = ⟨9, 1⟩ :: main_graph.array 2 ∧
        (main_graph.Valid → 0 ≤ (9 : Int) ∧ (9 : Int) < main_graph.num_vertices → g2.Valid) :=
  ⟨by decide, graph_add_edge_stores_any_target main_graph 2 9 1 (by decide)⟩

end Dijkstra

/-! ## Claims about construction and the example runs -/

namespace Dijkstra

/-- C21, as stated, fails: `graph_create` makes no test of its argument.  It
returns a graph for the count 0 and for the count 101, above `MAX_VERTICES`,
in `dijkstra.c` and in `prim.c` alike. -/
theorem graph_create_accepts_any_count :
    (graph_create 0).num_vertices = 0 ∧ MAX_VERTICES < 101 ∧
      (graph_create 101).num_vertices = 101 ∧ (graph_create 101).array 100 = [] ∧
      (Prim.graph_create 0).num_vertices = 0 ∧ (Prim.graph_create 101).num_vertices = 101 :=
  ⟨rfl, by decide, rfl, rfl, rfl, rfl⟩

/-- C21, amended: `graph_create(vertex_count)` has no failure result and does
not consult `MAX_VERTICES`: for every count `vertex_count >= 0`, zero and
counts above `MAX_VERTICES` included, it returns a graph of `vertex_count`
vertices with empty adjacency lists, in `dijkstra.c` and in `prim.c` alike. -/
theorem graph_create_returns_graph (vertex_count : Nat) :
    ((graph_create vertex_count).num_vertices = vertex_count ∧
      ∀ u, (graph_create vertex_count).array u = []) ∧
    ((Prim.graph_create vertex_count).num_vertices = vertex_count ∧
      ∀ u, (Prim.graph_create vertex_count).array u = []) :=
  ⟨⟨rfl, fun _ => rfl⟩, ⟨rfl, fun _ => rfl⟩⟩

/-- C27, as stated, fails: on the graph of `main`, Dijkstra from vertex 0 ends
with `distance[2] = 15`, not 13; the distances are not `[0,10,13,5,6]`. -/
theorem main_distances_differ_from_claimed :
    ∃ g st, add_edges (graph_create 5) main_edges = some g ∧
      dijkstra_shortest_path 6 g 0 = some st ∧ st.distance 2 = 15 ∧
      (List.range 5).map (fun (i : Nat) => st.distance (i : Int)) ≠ [0, 10, 13, 5, 6] :=
  ⟨_, _, rfl, rfl, by decide, by decide⟩

/-- C27, amended: on the 5-vertex directed graph with edges `(0,1,10) (0,3,5)
(1,2,5) (1,4,3) (2,4,2) (3,4,1)`, Dijkstra from vertex 0 yields
`distance = [0,10,15,5,6]`. -/
theorem main_distances :
    ∃ g st, add_edges (graph_create 5) main_edges = some g ∧
      dijkstra_shortest_path 6 g 0 = some st ∧
      (List.range 5).map (fun (i : Nat) => st.distance (i : Int)) = [0, 10, 15, 5, 6] :=
  ⟨_, _, rfl, rfl, by decide⟩

/-- C28, as stated, fails: the edges of the graph of `main` are directed, and
vertex 4 has no outgoing edge, so `0→3→4→2` and `0→3→4→1` are not paths.
Dijkstra from vertex 0 ends with `distance[2] = 15` and `distance[1] = 10`. -/
theorem main_graph_has_no_path_through_four :
    ∃ g st, add_edges (graph_create 5) main_edges = some g ∧
      dijkstra_shortest_path 6 g 0 = some st ∧ g.array 4 = [] ∧
      st.distance 2 = 15 ∧ st.distance 2 ≠ 8 ∧ st.distance 1 = 10 ∧ st.distance 1 ≠ 9 :=
  ⟨_, _, rfl, rfl, by decide, by decide, by decide, by decide, by decide⟩

/-- C28, amended: on the 5-vertex directed graph of `main`, Dijkstra from
vertex 0 yields `distance[2] = 15` via the path `0→1→2` and `distance[1] = 10`
via the path `0→1`, the paths being those that `print_path_recursive` emits
from `parent[]`. -/
theorem main_paths_to_two_and_one :
    ∃ g st, add_edges (graph_create 5) main_edges = some g ∧
      dijkstra_shortest_path 6 g 0 = some st ∧
      result_line 5 st 5 2 = some (ResultLine.shortest 15 [0, 1, 2]) ∧
      result_line 5 st 5 1 = some (ResultLine.shortest 10 [0, 1]) :=
  ⟨_, _, rfl, rfl, by decide, by decide⟩

/-- C30: on the single-vertex graph (`n = 1`, no edges), the main loop of
`dijkstra_shortest_path` from vertex 0 ends after one extraction (any fuel of
at least 2) with `distance = [0]` and vertex 0 its own parent. -/
theorem single_vertex_dijkstra (fuel : Nat) (hfuel : 2 ≤ fuel) :
    ∃ st, dijkstra_shortest_path fuel (graph_create 1) 0 = some st ∧
      st.distance 0 = 0 ∧ st.parent 0 = 0 ∧ st.visited 0 = true ∧ st.heap.size = 0 ∧
      st.events = [Event.extracted 0 0, Event.settled 0 0] := by
  obtain ⟨k, rfl⟩ : ∃ k, fuel = k + 2 := ⟨fuel - 2, by omega⟩
  exact ⟨_, rfl, by decide, by decide, by decide, by decide, by decide⟩

/-- Witness of `single_vertex_dijkstra` with fuel 2. -/
theorem single_vertex_dijkstra_witness :
    2 ≤ 2 ∧ ∃ st, dijkstra_shortest_path 2 (graph_create 1) 0 = some st ∧
      st.distance 0 = 0 ∧ st.parent 0 = 0 ∧ st.visited 0 = true ∧ st.heap.size = 0 ∧
      st.events = [Event.extracted 0 0, Event.settled 0 0] :=
  ⟨by decide, single_vertex_dijkstra 2 (by decide)⟩

theorem heap_pop_unique_min (h : MinHeap) (hinv : HeapInv h) (v d : Int)
    (hm : (⟨v, d⟩ : HeapNode) ∈ h.entries)
    (hmin : ∀ e, e ∈ h.entries → e.vertex ≠ v → d < e.distance) :
    ∃ h2, heap_pop h = some (some (v, d), h2) ∧ HeapInv h2 ∧
      ∀ e, e ∈ h2.entries ↔ e ∈ h.entries ∧ e.vertex ≠ v := by
  have hne : 0 < h.size := by
    obtain ⟨i, hi, _⟩ := mem_entries.1 hm
    omega
  obtain ⟨v2, d2, h2, hrun, hm2, hmin2, hinv2, _, hmem, _, _⟩ := heap_pop_mem h hinv hne
  have hv : v2 = v := by
    by_contra hc
    have h1 := hmin _ hm2 hc
    have h2 := hmin2 _ hm
    simp only at h1 h2
    omega
  subst hv
  have hd : d2 = d := by
    have := entries_vertex_inj h hinv.2 _ _ hm2 hm rfl
    exact congrArg HeapNode.distance this
  subst hd
  exact ⟨h2, hrun, hinv2, hmem⟩

/-- C26: on a fresh heap of capacity at least 3 with distinct vertices `A`,
`B`, `C` in `[0, capacity)`: the calls `push (A,5)`, `push (B,3)`,
`push (C,8)` and `decrease_key (C,1)` all return `true`, and the next three
`heap_pop` calls return `C` (key 1), `B` (key 3), `A` (key 5) in that order,
leaving the heap empty. -/
theorem heap_sequence_pops_in_key_order (capacity : Nat) (A B C : Int)
    (hA : 0 ≤ A ∧ A < capacity) (hB : 0 ≤ B ∧ B < capacity) (hC : 0 ≤ C ∧ C < capacity)
    (hAB : A ≠ B) (hAC : A ≠ C) (hBC : B ≠ C) :
    ∃ h1 h2 h3 h4 h5 h6 h7,
      heap_push (heap_create capacity) A 5 = some (true, h1) ∧
      heap_push h1 B 3 = some (true, h2) ∧
      heap_push h2 C 8 = some (true, h3) ∧
      heap_decrease_key h3 C 1 = some (true, h4) ∧
      heap_pop h4 = some (some (C, 1), h5) ∧
      heap_pop h5 = some (some (B, 3), h6) ∧
      heap_pop h6 = some (some (A, 5), h7) ∧ h7.size = 0 := by
  have hnil : ∀ e, e ∉ (heap_create capacity).entries := by
    intro e he
    obtain ⟨i, hi, _⟩ := mem_entries.1 he
    exact absurd hi (Nat.not_lt_zero _)
  obtain ⟨h1, r1, i1, c1, m1, _⟩ := heap_push_mem (heap_create capacity) A 5
    (heap_create_inv _) hA (fun i hi => absurd hi (Nat.not_lt_zero _))
  have m1' : ∀ e, e ∈ h1.entries ↔ e = ⟨A, 5⟩ := by
    intro e; rw [m1]
    constructor
    · rintro (h | h)
      · exact h
      · exact absurd h (hnil e)
    · intro h; exact Or.inl h
  have a1 : Absent h1 B := by
    rw [absent_iff]; intro e he; rw [(m1' e).1 he]; exact hAB
  obtain ⟨h2, r2, i2, c2, m2, _⟩ := heap_push_mem h1 B 3 i1 (by rw [c1]; exact hB) a1
  have m2' : ∀ e, e ∈ h2.entries ↔ e = ⟨B, 3⟩ ∨ e = ⟨A, 5⟩ := by
    intro e; rw [m2, m1']
  have a2 : Absent h2 C := by
    rw [absent_iff]; intro e he
    rcases (m2' e).1 he with h | h
    · rw [h]; exact hBC
    · rw [h]; exact hAC
  obtain ⟨h3, r3, i3, c3, m3, _⟩ := heap_push_mem h2 C 8 i2 (by rw [c2, c1]; exact hC) a2
  have m3' : ∀ e, e ∈ h3.entries ↔ e = ⟨C, 8⟩ ∨ e = ⟨B, 3⟩ ∨ e = ⟨A, 5⟩ := by
    intro e; rw [m3, m2']
  obtain ⟨h4, r4, i4, _, m4, _⟩ := heap_decrease_key_mem h3 C 8 1 i3
    ((m3' _).2 (Or.inl rfl)) (by decide)
  have m4' : ∀ e, e ∈ h4.entries ↔ e = ⟨C, 1⟩ ∨ e = ⟨B, 3⟩ ∨ e = ⟨A, 5⟩ := by
    intro e; rw [m4, m3']
    constructor
    · rintro (h | ⟨h | h | h, hv⟩)
      · exact Or.inl h
      · rw [h] at hv; exact absurd rfl hv
      · exact Or.inr (Or.inl h)
      · exact Or.inr (Or.inr h)
    · rintro (h | h | h)
      · exact Or.inl h
      · exact Or.inr ⟨Or.inr (Or.inl h), by rw [h]; exact hBC⟩
      · exact Or.inr ⟨Or.inr (Or.inr h), by rw [h]; exact hAC⟩
  obtain ⟨h5, r5, i5, m5⟩ := heap_pop_unique_min h4 i4 C 1 ((m4' _).2 (Or.inl rfl)) (by
    intro e he hv
    rcases (m4' e).1 he with h | h | h
    · rw [h] at hv; exact absurd rfl hv
    · rw [h]; show (_ : Int) < _; norm_num
    · rw [h]; show (_ : Int) < _; norm_num)
  have m5' : ∀ e, e ∈ h5.entries ↔ e = ⟨B, 3⟩ ∨ e = ⟨A, 5⟩ := by
    intro e; rw [m5, m4']
    constructor
    · rintro ⟨h | h | h, hv⟩
      · rw [h] at hv; exact absurd rfl hv
      · exact Or.inl h
      · exact Or.inr h
    · rintro (h | h)
      · exact ⟨Or.inr (Or.inl h), by rw [h]; exact hBC⟩
      · exact ⟨Or.inr (Or.inr h), by rw [h]; exact hAC⟩
  obtain ⟨h6, r6, i6, m6⟩ := heap_pop_unique_min h5 i5 B 3 ((m5' _).2 (Or.inl rfl)) (by
    intro e he hv
    rcases (m5' e).1 he with h | h
    · rw [h] at hv; exact absurd rfl hv
    · rw [h]; show (_ : Int) < _; norm_num)
  have m6' : ∀ e, e ∈ h6.entries ↔ e = ⟨A, 5⟩ := by
    intro e; rw [m6, m5']
    constructor
    · rintro ⟨h | h, hv⟩
      · rw [h] at hv; exact absurd rfl hv
      · exact h
    · intro h
      exact ⟨Or.inr h, by rw [h]; exact hAB⟩
  obtain ⟨h7, r7, _, m7⟩ := heap_pop_unique_min h6 i6 A 5 ((m6' _).2 rfl) (by
    intro e he hv
    rw [(m6' e).1 he] at hv
    exact absurd rfl hv)
  refine ⟨h1, h2, h3, h4, h5, h6, h7, r1, r2, r3, r4, r5, r6, r7, ?_⟩
  by_contra hz
  have hm : h7.data 0 ∈ h7.entries := mem_entries.2 ⟨0, by omega, rfl⟩
  obtain ⟨he, hv⟩ := (m7 _).1 hm
  rw [(m6' _).1 he] at hv
  exact hv rfl

/-- Witness of `heap_sequence_pops_in_key_order` with capacity 3 and the
vertices 0, 1, 2. -/
theorem heap_sequence_pops_in_key_order_witness :
    ((0 : Int) ≤ 0 ∧ (0 : Int) < (3 : Nat)) ∧ ((0 : Int) ≤ 1 ∧ (1 : Int) < (3 : Nat)) ∧
      ((0 : Int) ≤ 2 ∧ (2 : Int) < (3 : Nat)) ∧ (0 : Int) ≠ 1 ∧ (0 : Int) ≠ 2 ∧ (1 : Int) ≠ 2 ∧
      ∃ h1 h2 h3 h4 h5 h6 h7,
        heap_push (heap_create 3) 0 5 = some (true, h1) ∧
        heap_push h1 1 3 = some (true, h2) ∧
        heap_push h2 2 8 = some (true, h3) ∧
        heap_decrease_key h3 2 1 = some (true, h4) ∧
        heap_pop h4 = some (some (2, 1), h5) ∧
        heap_pop h5 = some (some (1, 3), h6) ∧
        heap_pop h6 = some (some (0, 5), h7) ∧ h7.size = 0 :=
  ⟨by decide, by decide, by decide, by decide, by decide, by decide,
    heap_sequence_pops_in_key_order 3 0 1 2 (by decide) (by decide) (by decide) (by decide)
      (by decide) (by decide)⟩

theorem extractions_append (a b : List Event) :
    extractions (a ++ b) = extractions a + extractions b := by
  unfold extractions
  exact List.countP_append _ _ _

theorem relax_edge_extractions (n : Nat) (u : Int) (e : AdjNode) (st st2 : DState)
    (h : relax_edge n u e st = some st2) : extractions st2.events = extractions st.events := by
  unfold relax_edge at h
  by_cases hr : 0 ≤ e.to_ ∧ e.to_ < (n : Int)
  · simp only [hr, and_self, if_true] at h
    by_cases hvis : st.visited e.to_ = true
    · simp only [hvis, if_true, Option.some.injEq] at h
      rw [← h]
    · simp only [hvis, Bool.false_eq_true, if_false] at h
      by_cases hlt : wrap32 (st.distance u + e.weight) < st.distance e.to_
      · simp only [hlt, if_true] at h
        cases hc : heap_contains st.heap e.to_ with
        | none => rw [hc] at h; simp at h
        | some present =>
          rw [hc] at h
          simp only [Option.some_bind] at h
          cases present with
          | true =>
            simp only [if_true] at h
            cases hd : heap_decrease_key st.heap e.to_ (wrap32 (st.distance u + e.weight)) with
            | none => rw [hd] at h; simp at h
            | some r =>
              rw [hd] at h
              simp only [Option.map_some', Option.some.injEq] at h
              rw [← h]
              show extractions (st.events ++ _) = _
              rw [extractions_append]
              simp [extractions]
          | false =>
            simp only [Bool.false_eq_true, if_false] at h
            cases hd : heap_push st.heap e.to_ (wrap32 (st.distance u + e.weight)) with
            | none => rw [hd] at h; simp at h
            | some r =>
              rw [hd] at h
              simp only [Option.map_some', Option.some.injEq] at h
              rw [← h]
              show extractions (st.events ++ _) = _
              rw [extractions_append]
              simp [extractions]
      · simp only [hlt, if_false, Option.some.injEq] at h
        rw [← h]
        show extractions (st.events ++ _) = _
        rw [extractions_append]
        simp [extractions]
  · simp only [hr, if_false] at h
    exact absurd h (by simp)

theorem relax_neighbors_extractions (n : Nat) (u : Int) : ∀ (todo : List AdjNode)
    (st st2 : DState), relax_neighbors n u todo st = some st2 →
    extractions st2.events = extractions st.events := by
  intro todo
  induction todo with
  | nil =>
    intro st st2 h
    simp only [relax_neighbors, Option.some.injEq] at h
    rw [h]
  | cons e rest ih =>
    intro st st2 h
    unfold relax_neighbors at h
    cases h1 : relax_edge n u e st with
    | none => rw [h1] at h; simp at h
    | some st1 =>
      rw [h1] at h
      simp only [Option.some_bind] at h
      rw [ih st1 st2 h, relax_edge_extractions n u e st st1 h1]

theorem unvisited_count_none (n : Nat) : unvisited_count n (fun _ => false) = n := by
  unfold unvisited_count
  simp

theorem dijkstra_init_events (g : Graph) (start : Int) (st : DState)
    (h : dijkstra_init g start = some st) : st.events = [] := by
  unfold dijkstra_init at h
  by_cases hs : 0 ≤ start ∧ start < (g.num_vertices : Int)
  · simp only [hs, and_self, if_true] at h
    cases hp : heap_push (heap_create g.num_vertices) start 0 with
    | none => rw [hp] at h; simp at h
    | some r =>
      rw [hp] at h
      simp only [Option.map_some', Option.some.injEq] at h
      rw [← h]
  · simp only [hs, if_false] at h
    exact absurd h (by simp)

/-- C25: for every graph with `n` vertices whose adjacency nodes point to
vertices of the graph (any edge weights) and every valid start vertex, the
main loop of `dijkstra_shortest_path` terminates (any fuel above `n` is
enough) with an empty heap, after at most `n` extractions from the heap: the
number of `heap_pop` calls equals the number of visited vertices. -/
theorem dijkstra_terminates_within_n_extractions (g : Graph) (start : Int) (fuel : Nat)
    (hv : g.Valid) (hs : 0 ≤ start ∧ start < g.num_vertices) (hfuel : g.num_vertices < fuel) :
    ∃ st, dijkstra_shortest_path fuel g start = some st ∧ st.heap.size = 0 ∧
      extractions st.events ≤ g.num_vertices ∧
      extractions st.events + unvisited_count g.num_vertices st.visited = g.num_vertices := by
  obtain ⟨st0, hinit, hb0, hvis0, _, _⟩ := dijkstra_init_base g start hs
  have hev0 := dijkstra_init_events g start st0 hinit
  obtain ⟨st, hrun, ⟨_, hcount⟩, hz⟩ := dijkstra_loop_invariant g start
    (fun s => BaseInv g start s ∧
      extractions s.events + unvisited_count g.num_vertices s.visited = g.num_vertices)
    (fun _ h => h.1)
    (fun s u d heap1 hj hr hur huv => by
      obtain ⟨hbs, hcs⟩ := hj
      obtain ⟨s2, h1, h2, h3⟩ := base_step g hv start s u d heap1 hbs hr hur
        (s.events ++ [Event.extracted u d, Event.settled u d])
      refine ⟨s2, h1, ⟨h2, ?_⟩, h3⟩
      have he := relax_neighbors_extractions _ _ _ _ _ h1
      have hc := unvisited_count_update s.visited u huv g.num_vertices
      simp only [hur, and_self, if_true] at hc
      rw [he, h3]
      show extractions (s.events ++ _) + _ = _
      rw [extractions_append]
      have h4 : extractions [Event.extracted u d, Event.settled u d] = 1 := by
        simp [extractions]
      omega)
    fuel st0 ⟨hb0, by rw [hev0, hvis0, unvisited_count_none]; simp [extractions]⟩
    (lt_of_le_of_lt (unvisited_count_le _ _) hfuel)
  exact ⟨st, by simp [dijkstra_shortest_path, hinit, hrun], hz, by omega, hcount⟩

/-- Witness of `dijkstra_terminates_within_n_extractions`: the graph of two
separate groups, one with a negative edge, from vertex 0. -/
theorem dijkstra_terminates_within_n_extractions_witness :
    two_group_graph.Valid ∧ ((0 : Int) ≤ 0 ∧ (0 : Int) < two_group_graph.num_vertices) ∧
      two_group_graph.num_vertices < 5 ∧
      ∃ st, dijkstra_shortest_path 5 two_group_graph 0 = some st ∧ st.heap.size = 0 ∧
        extractions st.events ≤ two_group_graph.num_vertices ∧
        extractions st.events + unvisited_count two_group_graph.num_vertices st.visited
          = two_group_graph.num_vertices :=
  ⟨two_group_graph_valid, by decide, by decide,
    dijkstra_terminates_within_n_extractions two_group_graph 0 5 two_group_graph_valid
      (by decide) (by decide)⟩

end Dijkstra

/-! ## Parent pointers and path reconstruction -/

namespace Dijkstra

theorem parent_path_last (g : Graph) (start : Int) (st : DState) (v : Int) (vs : List Int)
    (ht : ParentPath g start st v vs) : v ∈ vs := by
  cases ht with
  | root => simp
  | step e _ _ _ _ _ => simp

theorem parent_path_start (g : Graph) (start : Int) (st : DState) (v : Int) (vs : List Int)
    (ht : ParentPath g start st v vs) : start ∈ vs := by
  induction ht with
  | root => simp
  | step e _ _ _ _ _ ih => exact List.mem_append_left _ ih

theorem parent_path_visited (g : Graph) (start : Int) (st : DState) (v : Int) (vs : List Int)
    (ht : ParentPath g start st v vs) : ∀ x, x ∈ vs → x = v ∨ st.visited x = true := by
  induction ht with
  | root => intro x hx; left; simpa using hx
  | step e _ hu _ _ _ ih =>
    intro x hx
    rcases List.mem_append.1 hx with h1 | h1
    · right
      rcases ih x h1 with h2 | h2
      · rw [h2]; exact hu
      · exact h2
    · left; simpa using h1

theorem parent_path_nodup (g : Graph) (start : Int) (st : DState) (v : Int) (vs : List Int)
    (ht : ParentPath g start st v vs) : vs.Nodup := by
  induction ht with
  | root => simp
  | step e _ _ _ _ hn ih =>
    rw [List.nodup_append]
    refine ⟨ih, by simp, ?_⟩
    intro a ha hb
    have : a = e.to_ := by simpa using hb
    rw [this] at ha
    exact hn ha

theorem parent_path_range (g : Graph) (hv : g.Valid) (start : Int)
    (hs : 0 ≤ start ∧ start < g.num_vertices) (st : DState) (v : Int) (vs : List Int)
    (ht : ParentPath g start st v vs) :
    (0 ≤ v ∧ v < g.num_vertices) ∧ ∀ x, x ∈ vs → 0 ≤ x ∧ x < g.num_vertices := by
  induction ht with
  | root =>
    refine ⟨hs, ?_⟩
    intro x hx
    have : x = start := by simpa using hx
    rw [this]; exact hs
  | @step u vs e _ _ he _ _ ih =>
    have hr := valid_edge g hv u ih.1 e he
    refine ⟨hr, ?_⟩
    intro x hx
    rcases List.mem_append.1 hx with h1 | h1
    · exact ih.2 x h1
    · have : x = e.to_ := by simpa using h1
      rw [this]; exact hr

theorem parent_path_stable (g : Graph) (start : Int) (st st2 : DState) (v : Int)
    (vs : List Int) (ht : ParentPath g start st v vs)
    (hvis : ∀ x, st.visited x = true → st2.visited x = true)
    (heq : ∀ x, x ∈ vs → st2.parent x = st.parent x) : ParentPath g start st2 v vs := by
  induction ht with
  | root => exact ParentPath.root
  | @step u vs e ht hu he hp hn ih =>
    have h1 := ih (fun x hx => heq x (List.mem_append_left _ hx))
    refine ParentPath.step e h1 (hvis u hu) he ?_ hn
    rw [heq e.to_ (by simp)]; exact hp

theorem chain_pop_step (g : Graph) (start : Int) (st : DState) (u : Int) (heap1 : MinHeap)
    (evs : List Event) (hc : ChainInv g start st) :
    ChainInv g start
      { st with heap := heap1, visited := Function.update st.visited u true, events := evs } := by
  refine ⟨hc.start_parent, hc.root_unique, ?_⟩
  intro x hx0 hx1 hxd
  obtain ⟨vs, ht⟩ := hc.chain x hx0 hx1 hxd
  refine ⟨vs, parent_path_stable g start st _ x vs ht ?_ (fun _ _ => rfl)⟩
  intro y hy
  show Function.update st.visited u true y = true
  by_cases h : y = u
  · rw [h]; simp
  · rw [Function.update_noteq h]; exact hy

theorem chain_same_arrays (g : Graph) (start : Int) (st st2 : DState)
    (hc : ChainInv g start st) (hvis2 : st2.visited = st.visited)
    (hd2 : st2.distance = st.distance) (hp2 : st2.parent = st.parent) :
    ChainInv g start st2 := by
  refine ⟨by rw [hp2]; exact hc.start_parent, by rw [hp2]; exact hc.root_unique, ?_⟩
  rw [hd2]
  intro x hx0 hx1 hxd
  obtain ⟨vs, ht⟩ := hc.chain x hx0 hx1 hxd
  refine ⟨vs, parent_path_stable g start st st2 x vs ht ?_ ?_⟩
  · intro y hy; rw [hvis2]; exact hy
  · intro y _; rw [hp2]

theorem chain_update (g : Graph) (start : Int) (st st2 : DState) (u : Int) (e : AdjNode)
    (new : Int) (hb : BaseInv g start st) (hc : ChainInv g start st)
    (hur : 0 ≤ u ∧ u < g.num_vertices) (huv : st.visited u = true) (he : e ∈ g.array u)
    (hvis : st.visited e.to_ = false) (hvis2 : st2.visited = st.visited)
    (hd2 : st2.distance = Function.update st.distance e.to_ new)
    (hp2 : st2.parent = Function.update st.parent e.to_ u) : ChainInv g start st2 := by
  obtain ⟨us, hu⟩ := hc.chain u hur.1 hur.2 (hb.visited_found u hur.1 hur.2 huv)
  have hne_u : e.to_ ≠ u := by
    intro h
    rw [h, huv] at hvis
    exact Bool.noConfusion hvis
  have hnotin : ∀ x vs, ParentPath g start st x vs → x ≠ e.to_ → e.to_ ∉ vs := by
    intro x vs ht hx hm
    rcases parent_path_visited g start st x vs ht e.to_ hm with h1 | h1
    · exact hx h1.symm
    · rw [hvis] at h1; exact Bool.noConfusion h1
  have hne_start : e.to_ ≠ start := by
    intro h
    have := hnotin u us hu hne_u.symm
    rw [h] at this
    exact this (parent_path_start g start st u us hu)
  have hstable : ∀ x vs, ParentPath g start st x vs → x ≠ e.to_ →
      ParentPath g start st2 x vs := by
    intro x vs ht hx
    refine parent_path_stable g start st st2 x vs ht ?_ ?_
    · intro y hy; rw [hvis2]; exact hy
    · intro y hy
      have hye : y ≠ e.to_ := fun h => hnotin x vs ht hx (h ▸ hy)
      rw [hp2, Function.update_noteq hye]
  refine ⟨?_, ?_, ?_⟩
  · rw [hp2, Function.update_noteq hne_start.symm]; exact hc.start_parent
  · intro x hx0 hx1 hxp
    rw [hp2] at hxp
    by_cases h : x = e.to_
    · rw [h, Function.update_same] at hxp
      exact absurd hxp.symm hne_u
    · rw [Function.update_noteq h] at hxp
      exact hc.root_unique x hx0 hx1 hxp
  · intro x hx0 hx1 hxd
    by_cases h : x = e.to_
    · rw [h]
      refine ⟨us ++ [e.to_], ParentPath.step e (hstable u us hu hne_u.symm)
        (by rw [hvis2]; exact huv) he ?_ (hnotin u us hu hne_u.symm)⟩
      rw [hp2, Function.update_same]
    · rw [hd2, Function.update_noteq h] at hxd
      obtain ⟨vs, ht⟩ := hc.chain x hx0 hx1 hxd
      exact ⟨vs, hstable x vs ht h⟩

theorem chain_relax_edge (g : Graph) (start : Int) (st st2 : DState) (u : Int) (e : AdjNode)
    (hb : BaseInv g start st) (hc : ChainInv g start st)
    (hur : 0 ≤ u ∧ u < g.num_vertices) (huv : st.visited u = true) (he : e ∈ g.array u)
    (hvis2 : st2.visited = st.visited) (hd2 : st2.distance = relax_distance st u e)
    (hp2 : st2.parent = relax_parent st u e) : ChainInv g start st2 := by
  unfold relax_distance at hd2
  unfold relax_parent at hp2
  by_cases hvis : st.visited e.to_ = true
  · simp only [hvis, if_true] at hd2 hp2
    exact chain_same_arrays g start st st2 hc hvis2 hd2 hp2
  · have hvisf : st.visited e.to_ = false := by simpa using hvis
    simp only [hvisf, Bool.false_eq_true, if_false] at hd2 hp2
    by_cases hlt : wrap32 (st.distance u + e.weight) < st.distance e.to_
    · simp only [hlt, if_true] at hd2 hp2
      exact chain_update g start st st2 u e _ hb hc hur huv he hvisf hvis2 hd2 hp2
    · simp only [hlt, if_false] at hd2 hp2
      exact chain_same_arrays g start st st2 hc hvis2 hd2 hp2

theorem chain_step (g : Graph) (hv : g.Valid) (start : Int) (st : DState) (u d : Int)
    (heap1 : MinHeap) (hb : BaseInv g start st) (hc : ChainInv g start st)
    (hrun : heap_pop st.heap = some (some (u, d), heap1))
    (hur : 0 ≤ u ∧ u < g.num_vertices) (evs : List Event) :
    ∃ st2, relax_neighbors g.num_vertices u (g.array u)
        { st with heap := heap1, visited := Function.update st.visited u true, events := evs }
          = some st2 ∧
      (BaseInv g start st2 ∧ ChainInv g start st2) ∧
      st2.visited = Function.update st.visited u true := by
  obtain ⟨_, _, _, hb1⟩ := pop_step_base_of_eq g start st hb u d heap1 hrun
  have hc1 := chain_pop_step g start st u heap1 evs hc
  have := relax_neighbors_invariant g.num_vertices u
    (fun todo s => BaseInv g start s ∧ ChainInv g start s ∧
      s.visited = Function.update st.visited u true ∧ ∀ e, e ∈ todo → e ∈ g.array u)
    (by
      intro e rest s ⟨hbs, hcs, hvs, hsub⟩
      have huv : s.visited u = true := by rw [hvs]; simp
      have hem := hsub e (List.mem_cons_self _ _)
      obtain ⟨s2, hr, hb2, hv2, hd2, hp2⟩ := relax_edge_base g hv start s hbs u e hur huv hem
      exact ⟨s2, hr, hb2, chain_relax_edge g start s s2 u e hbs hcs hur huv hem hv2 hd2 hp2,
        hv2.trans hvs, fun x hx => hsub x (List.mem_cons_of_mem _ hx)⟩)
    (g.array u) _ ⟨hb1 evs, hc1, rfl, fun e he => he⟩
  obtain ⟨st2, hr, hb2, hc2, hv2, _⟩ := this
  exact ⟨st2, hr, ⟨hb2, hc2⟩, hv2⟩

theorem dijkstra_run_chain (g : Graph) (start : Int) (fuel : Nat) (hv : g.Valid)
    (hs : 0 ≤ start ∧ start < g.num_vertices) (hfuel : g.num_vertices < fuel) :
    ∃ st, dijkstra_shortest_path fuel g start = some st ∧ BaseInv g start st ∧
      ChainInv g start st := by
  obtain ⟨st0, hinit, hb0, hvis0, hd0, hp0⟩ := dijkstra_init_base g start hs
  have hc0 : ChainInv g start st0 := by
    refine ⟨by rw [hp0, Function.update_same], ?_, ?_⟩
    · intro x hx0 _ hxp
      by_contra hc
      rw [hp0, Function.update_noteq hc] at hxp
      omega
    · intro x _ _ hxd
      have : x = start := by
        by_contra hc
        rw [hd0, Function.update_noteq hc] at hxd
        exact lt_irrefl _ hxd
      rw [this]
      exact ⟨[start], ParentPath.root⟩
  obtain ⟨st, hrun, ⟨hb, hc⟩, _⟩ := dijkstra_loop_invariant g start
    (fun s => BaseInv g start s ∧ ChainInv g start s)
    (fun _ h => h.1)
    (fun s u d heap1 hj hr hur _ => chain_step g hv start s u d heap1 hj.1 hj.2 hr hur _)
    fuel st0 ⟨hb0, hc0⟩ (lt_of_le_of_lt (unvisited_count_le _ _) hfuel)
  exact ⟨st, by simp [dijkstra_shortest_path, hinit, hrun], hb, hc⟩

theorem parent_path_shape (g : Graph) (start : Int) (st : DState) (v : Int) (vs : List Int)
    (ht : ParentPath g start st v vs) :
    vs.head? = some start ∧ vs.getLast? = some v ∧
      vs.Chain' (fun a b => st.parent b = a) := by
  induction ht with
  | root => simp
  | @step u vs e ht _ _ hp _ ih =>
    obtain ⟨h1, h2, h3⟩ := ih
    refine ⟨?_, by simp, ?_⟩
    · cases vs with
      | nil => simp at h1
      | cons a tl => simpa using h1
    · rw [List.chain'_append]
      refine ⟨h3, by simp, ?_⟩
      intro x hx y hy
      rw [h2] at hx
      have hx2 : x = u := by simpa using hx.symm
      have hy2 : y = e.to_ := by simpa using hy.symm
      rw [hx2, hy2]; exact hp

theorem print_path_of_parent_path (g : Graph) (hv : g.Valid) (start : Int)
    (hs : 0 ≤ start ∧ start < g.num_vertices) (st : DState)
    (hp : st.parent start = start) (v : Int) (vs : List Int)
    (ht : ParentPath g start st v vs) :
    ∀ depth, vs.length ≤ depth →
      print_path_recursive g.num_vertices st.parent depth v = some vs := by
  induction ht with
  | root =>
    intro depth hd
    obtain ⟨k, rfl⟩ : ∃ k, depth = k + 1 := ⟨depth - 1, by simp at hd; omega⟩
    unfold print_path_recursive
    simp only [hs, and_self, if_true, hp]
  | @step u vs e ht _ he hpar hn ih =>
    intro depth hd
    have hl : (vs ++ [e.to_]).length = vs.length + 1 := by simp
    obtain ⟨k, rfl⟩ : ∃ k, depth = k + 1 := ⟨depth - 1, by omega⟩
    have hr := valid_edge g hv u (parent_path_range g hv start hs st u vs ht).1 e he
    have hne : ¬ u = e.to_ := by
      intro h
      rw [← h] at hn
      exact hn (parent_path_last g start st u vs ht)
    unfold print_path_recursive
    simp only [hr, and_self, if_true, hpar, hne, if_false]
    rw [ih k (by omega)]
    rfl

theorem print_path_unset_parent (n : Nat) (parent : Int → Int) (target : Int)
    (ht : 0 ≤ target) (hp : parent target = -1) :
    ∀ depth, print_path_recursive n parent depth target = none := by
  intro depth
  cases depth with
  | zero => rfl
  | succ k =>
    unfold print_path_recursive
    by_cases hr : 0 ≤ target ∧ target < (n : Int)
    · have hne : ¬ (-1 : Int) = target := by omega
      simp only [hr, and_self, if_true, hp, hne, if_false]
      cases k with
      | zero => rfl
      | succ j =>
        unfold print_path_recursive
        have : ¬ ((0 : Int) ≤ -1 ∧ (-1 : Int) < (n : Int)) := by omega
        simp only [this, if_false, Option.map_none']
    · simp only [hr, if_false]

theorem discovered_of_parent_set (g : Graph) (start : Int) (st : DState)
    (hb : BaseInv g start st) (v : Int) (hv0 : 0 ≤ v) (hv1 : v < g.num_vertices)
    (hp : st.parent v ≠ -1) : st.distance v < INF := by
  have h1 := hb.distance_le v hv0 hv1
  rcases lt_or_eq_of_le h1 with h2 | h2
  · exact h2
  · exact absurd (hb.parent_unset v hv0 hv1 h2) hp

theorem parent_set_of_discovered (g : Graph) (hv : g.Valid) (start : Int) (st : DState)
    (hb : BaseInv g start st) (hc : ChainInv g start st) (v : Int) (hv0 : 0 ≤ v)
    (hv1 : v < g.num_vertices) (hd : st.distance v < INF) : 0 ≤ st.parent v := by
  obtain ⟨vs, ht⟩ := hc.chain v hv0 hv1 hd
  cases ht with
  | root => rw [hc.start_parent]; exact hb.start_range.1
  | @step u vs e ht _ _ hp _ =>
    rw [hp]
    exact (parent_path_range g hv start hb.start_range st u vs ht).1.1

/-- C22: for every graph whose adjacency nodes point to vertices of the graph
(any edge weights), every valid start vertex and the `parent[]` array at the
end of the main loop of `dijkstra_shortest_path`: for every target `v` whose
parent is set, `print_path_recursive` terminates (a recursion depth of
`num_vertices` is enough) and emits a sequence of distinct vertices that
begins with `start`, the vertex equal to its own parent, ends with `v`, and in
which each vertex after the first has the vertex before it as its parent. -/
theorem print_path_emits_root_to_target (g : Graph) (start : Int) (fuel : Nat) (hv : g.Valid)
    (hs : 0 ≤ start ∧ start < g.num_vertices) (hfuel : g.num_vertices < fuel) :
    ∃ st, dijkstra_shortest_path fuel g start = some st ∧ st.parent start = start ∧
      ∀ v : Int, 0 ≤ v → v < g.num_vertices → st.parent v ≠ -1 →
        ∀ depth, g.num_vertices ≤ depth →
          ∃ path, print_path_recursive g.num_vertices st.parent depth v = some path ∧
            path.head? = some start ∧ path.getLast? = some v ∧
            path.Chain' (fun a b => st.parent b = a) ∧ path.Nodup := by
  obtain ⟨st, hrun, hb, hc⟩ := dijkstra_run_chain g start fuel hv hs hfuel
  refine ⟨st, hrun, hc.start_parent, ?_⟩
  intro v hv0 hv1 hp depth hd
  obtain ⟨vs, ht⟩ := hc.chain v hv0 hv1 (discovered_of_parent_set g start st hb v hv0 hv1 hp)
  have hnd := parent_path_nodup g start st v vs ht
  have hlen := length_le_of_nodup_range vs g.num_vertices hnd
    (parent_path_range g hv start hs st v vs ht).2
  obtain ⟨h1, h2, h3⟩ := parent_path_shape g start st v vs ht
  exact ⟨vs, print_path_of_parent_path g hv start hs st hc.start_parent v vs ht depth
    (by omega), h1, h2, h3, hnd⟩

/-- Witness of `print_path_emits_root_to_target`: the graph of `main`, from
vertex 0. -/
theorem print_path_emits_root_to_target_witness :
    main_graph.Valid ∧ ((0 : Int) ≤ 0 ∧ (0 : Int) < main_graph.num_vertices) ∧
      main_graph.num_vertices < 6 ∧
      ∃ st, dijkstra_shortest_path 6 main_graph 0 = some st ∧ st.parent 0 = 0 ∧
        ∀ v : Int, 0 ≤ v → v < main_graph.num_vertices → st.parent v ≠ -1 →
          ∀ depth, main_graph.num_vertices ≤ depth →
            ∃ path, print_path_recursive main_graph.num_vertices st.parent depth v
                = some path ∧
              path.head? = some 0 ∧ path.getLast? = some v ∧
              path.Chain' (fun a b => st.parent b = a) ∧ path.Nodup :=
  ⟨main_graph_valid, by decide, by decide,
    print_path_emits_root_to_target main_graph 0 6 main_graph_valid (by decide) (by decide)⟩

/-- C23, as stated, fails: `print_path_recursive` has no test for an unset
parent.  After Dijkstra from vertex 0 on the graph of two separate groups,
`parent[2]` is `-1`; the call on target 2 does not stop there but calls itself
on vertex `-1`, that is, it reads `parent[-1]`, outside the array, for which
the program defines no result. -/
theorem print_path_reads_outside_on_unset_parent :
    ∃ st, dijkstra_shortest_path 5 two_group_graph 0 = some st ∧ st.parent 2 = -1 ∧
      ¬ ((0 : Int) ≤ st.parent 2 ∧ st.parent 2 < two_group_graph.num_vertices) ∧
      ∀ depth, print_path_recursive 4 st.parent (depth + 1) 2
          = (print_path_recursive 4 st.parent depth (st.parent 2)).map (fun l => l ++ [2]) ∧
        print_path_recursive 4 st.parent depth (st.parent 2) = none := by
  refine ⟨_, rfl, by decide, by decide, ?_⟩
  intro depth
  refine ⟨rfl, ?_⟩
  cases depth with
  | zero => rfl
  | succ k => rfl

/-- C23, amended: `print_path_recursive` has no test for an unset parent, and
called on a target with `parent[target] == -1` it has no defined result (it
reads `parent[-1]`).  `dijkstra_shortest_path` does not make that call: at the
end of its main loop every vertex whose parent was never set has
`distance == INF`, and its result section reports such a vertex as unreachable
without calling `print_path`. -/
theorem unset_parent_is_reported_unreachable (g : Graph) (start : Int) (fuel : Nat)
    (hv : g.Valid) (hs : 0 ≤ start ∧ start < g.num_vertices) (hfuel : g.num_vertices < fuel) :
    ∃ st, dijkstra_shortest_path fuel g start = some st ∧
      ∀ v : Int, 0 ≤ v → v < g.num_vertices → st.parent v = -1 →
        (∀ depth, print_path_recursive g.num_vertices st.parent depth v = none) ∧
        st.distance v = INF ∧
        ∀ depth, result_line g.num_vertices st depth v = some ResultLine.unreachable := by
  obtain ⟨st, hrun, hb, hc⟩ := dijkstra_run_chain g start fuel hv hs hfuel
  refine ⟨st, hrun, ?_⟩
  intro v hv0 hv1 hp
  have hd : st.distance v = INF := by
    have h1 := hb.distance_le v hv0 hv1
    rcases lt_or_eq_of_le h1 with h2 | h2
    · have := parent_set_of_discovered g hv start st hb hc v hv0 hv1 h2
      omega
    · exact h2
  refine ⟨print_path_unset_parent _ _ v hv0 hp, hd, ?_⟩
  intro depth
  unfold result_line
  simp only [hv0, hv1, and_self, if_true, hd]

/-- Witness of `unset_parent_is_reported_unreachable`: the graph of two
separate groups, from vertex 0. -/
theorem unset_parent_is_reported_unreachable_witness :
    two_group_graph.Valid ∧ ((0 : Int) ≤ 0 ∧ (0 : Int) < two_group_graph.num_vertices) ∧
      two_group_graph.num_vertices < 5 ∧
      ∃ st, dijkstra_shortest_path 5 two_group_graph 0 = some st ∧
        ∀ v : Int, 0 ≤ v → v < two_group_graph.num_vertices → st.parent v = -1 →
          (∀ depth, print_path_recursive two_group_graph.num_vertices st.parent depth v
            = none) ∧
          st.distance v = INF ∧
          ∀ depth, result_line two_group_graph.num_vertices st depth v
            = some ResultLine.unreachable :=
  ⟨two_group_graph_valid, by decide, by decide,
    unset_parent_is_reported_unreachable two_group_graph 0 5 two_group_graph_valid (by decide)
      (by decide)⟩

end Dijkstra

/-! ## The heap of `prim.c` behaves as the heap of `dijkstra.c` -/

namespace Prim

theorem to_dijkstra_update (f : Nat → HeapNode) (a : Nat) (x : HeapNode) :
    (fun i => (Function.update f a x i).to_dijkstra)
      = Function.update (fun i => (f i).to_dijkstra) a x.to_dijkstra := by
  funext i
  simp only [Function.update_apply]
  split_ifs <;> rfl

theorem heap_swap_nodes_sim (h : MinHeap) (i j : Nat) :
    (heap_swap_nodes h i j).map MinHeap.to_dijkstra
      = Dijkstra.heap_swap_nodes h.to_dijkstra i j := by
  unfold heap_swap_nodes Dijkstra.heap_swap_nodes
  have hc : h.to_dijkstra.capacity = h.capacity := rfl
  have hp : h.to_dijkstra.pos = h.pos := rfl
  have hd : ∀ k, h.to_dijkstra.data k = (h.data k).to_dijkstra := fun _ => rfl
  have e1 : ∀ k, (Function.update (Function.update h.to_dijkstra.data i (h.to_dijkstra.data j)) j
      (h.to_dijkstra.data i) k).vertex
      = (Function.update (Function.update h.data i (h.data j)) j (h.data i) k).vertex := by
    intro k
    simp only [Function.update_apply, hd]
    split_ifs <;> rfl
  simp only [hc, hp, e1]
  by_cases c1 : i < h.capacity ∧ j < h.capacity
  · simp only [c1, and_self, if_true]
    split_ifs
    · simp only [Option.map_some', Option.some.injEq]
      unfold MinHeap.to_dijkstra
      simp only [Dijkstra.MinHeap.mk.injEq, and_true, true_and]
      funext k
      simp only [Function.update_apply]
      split_ifs <;> rfl
    · rfl
    · rfl
  · simp only [c1, if_false, Option.map_none']

theorem sift_up_loop_sim : ∀ (fuel : Nat) (h : MinHeap) (k : Nat),
    (sift_up_loop fuel h k).map MinHeap.to_dijkstra
      = Dijkstra.sift_up_loop fuel h.to_dijkstra k := by
  intro fuel
  induction fuel with
  | zero => intro h k; rfl
  | succ fuel ih =>
    intro h k
    unfold sift_up_loop Dijkstra.sift_up_loop
    have hc : h.to_dijkstra.capacity = h.capacity := rfl
    have hd : ∀ i, (h.to_dijkstra.data i).distance = (h.data i).weight := fun _ => rfl
    simp only [hc, hd]
    by_cases c0 : 0 < k
    · simp only [c0, if_true]
      by_cases c1 : k < h.capacity
      · simp only [c1, if_true]
        by_cases c2 : (h.data k).weight < (h.data ((k - 1) / 2)).weight
        · simp only [c2, if_true]
          rw [← heap_swap_nodes_sim]
          cases hs : heap_swap_nodes h k ((k - 1) / 2) with
          | none => rfl
          | some h1 =>
            simp only [Option.some_bind, Option.map_some']
            exact ih h1 _
        · simp only [c2, if_false, Option.map_some']
      · simp only [c1, if_false, Option.map_none']
    · simp only [c0, if_false, Option.map_some']

theorem pick_smaller_sim (h : MinHeap) (c s : Nat) :
    pick_smaller h c s = Dijkstra.pick_smaller h.to_dijkstra c s := rfl

theorem sift_down_rec_sim : ∀ (fuel : Nat) (h : MinHeap) (k : Nat),
    (sift_down_rec fuel h k).map MinHeap.to_dijkstra
      = Dijkstra.sift_down_rec fuel h.to_dijkstra k := by
  intro fuel
  induction fuel with
  | zero => intro h k; rfl
  | succ fuel ih =>
    intro h k
    unfold sift_down_rec Dijkstra.sift_down_rec
    rw [← pick_smaller_sim]
    cases h1 : pick_smaller h (2 * k + 1) k with
    | none => rfl
    | some s1 =>
      simp only [Option.some_bind]
      rw [← pick_smaller_sim]
      cases h2 : pick_smaller h (2 * k + 2) s1 with
      | none => rfl
      | some s =>
        simp only [Option.some_bind]
        by_cases c : s ≠ k
        · simp only [c, ne_eq, not_false_eq_true, if_true]
          rw [← heap_swap_nodes_sim]
          cases hs : heap_swap_nodes h k s with
          | none => rfl
          | some h3 =>
            simp only [Option.some_bind, Option.map_some']
            exact ih h3 _
        · simp only [c, if_false, Option.map_some']

end Prim

namespace Dijkstra

theorem heap_push_unfold (h : MinHeap) (v d : Int) :
    heap_push h v d =
      if h.size ≥ h.capacity then some (false, h)
      else if 0 ≤ v ∧ v < h.capacity then
        (sift_up_loop (h.size + 1) (pushed h v d) h.size).map fun h2 => (true, h2)
      else none := rfl

theorem heap_pop_unfold (h : MinHeap) :
    heap_pop h =
      if h.size = 0 then some (none, h)
      else if h.size - 1 < h.capacity then
        if 0 ≤ (h.data (h.size - 1)).vertex ∧ (h.data (h.size - 1)).vertex < h.capacity then
          (sift_down_rec (h.size - 1 + 1) (popped h) 0).map fun h2 =>
            (some ((h.data 0).vertex, (h.data 0).distance), h2)
        else none
      else none := by
  unfold heap_pop
  simp only [Function.update_same]
  rfl

theorem heap_decrease_key_unfold2 (h : MinHeap) (v d : Int) :
    heap_decrease_key h v d =
      if 0 ≤ v ∧ v < h.capacity then
        if h.pos v ≥ h.size then some (false, h)
        else if 0 ≤ h.pos v ∧ h.pos v < h.capacity then
          (sift_up_loop ((h.pos v).toNat + 1) (rekeyed h (h.pos v).toNat d)
            (h.pos v).toNat).map fun h2 => (true, h2)
        else none
      else none := rfl

end Dijkstra

namespace Prim

theorem prim_heap_push_unfold (h : MinHeap) (v w : Int) :
    heap_push h v w =
      if h.size ≥ h.capacity then some (false, h)
      else if 0 ≤ v ∧ v < h.capacity then
        (sift_up_loop (h.size + 1) (pushed h v w) h.size).map fun h2 => (true, h2)
      else none := rfl

theorem prim_heap_pop_unfold (h : MinHeap) :
    heap_pop h =
      if h.size = 0 then some (none, h)
      else if h.size - 1 < h.capacity then
        if 0 ≤ (h.data (h.size - 1)).vertex ∧ (h.data (h.size - 1)).vertex < h.capacity then
          (sift_down_rec (h.size - 1 + 1) (popped h) 0).map fun h2 =>
            (some ((h.data 0).vertex, (h.data 0).weight), h2)
        else none
      else none := by
  unfold heap_pop
  simp only [Function.update_same]
  rfl

theorem prim_heap_decrease_key_unfold (h : MinHeap) (v w : Int) :
    heap_decrease_key h v w =
      if 0 ≤ v ∧ v < h.capacity then
        if h.pos v ≥ h.size then some (false, h)
        else if 0 ≤ h.pos v ∧ h.pos v < h.capacity then
          (sift_up_loop ((h.pos v).toNat + 1) (rekeyed h (h.pos v).toNat w)
            (h.pos v).toNat).map fun h2 => (true, h2)
        else none
      else none := rfl

theorem pushed_to_dijkstra (h : MinHeap) (v w : Int) :
    (pushed h v w).to_dijkstra = Dijkstra.pushed h.to_dijkstra v w := by
  unfold pushed Dijkstra.pushed MinHeap.to_dijkstra
  simp only [Dijkstra.MinHeap.mk.injEq, and_true, true_and]
  exact to_dijkstra_update h.data h.size ⟨v, w⟩

theorem popped_to_dijkstra (h : MinHeap) :
    (popped h).to_dijkstra = Dijkstra.popped h.to_dijkstra := by
  unfold popped Dijkstra.popped MinHeap.to_dijkstra
  simp only [Dijkstra.MinHeap.mk.injEq, and_true, true_and]
  exact ⟨to_dijkstra_update h.data 0 _, rfl⟩

theorem rekeyed_to_dijkstra (h : MinHeap) (i : Nat) (w : Int) :
    (rekeyed h i w).to_dijkstra = Dijkstra.rekeyed h.to_dijkstra i w := by
  unfold rekeyed Dijkstra.rekeyed MinHeap.to_dijkstra
  simp only [Dijkstra.MinHeap.mk.injEq, and_true]
  exact to_dijkstra_update h.data i _

theorem heap_push_sim (h : MinHeap) (v w : Int) :
    (heap_push h v w).map (fun r => (r.1, r.2.to_dijkstra))
      = Dijkstra.heap_push h.to_dijkstra v w := by
  rw [prim_heap_push_unfold, Dijkstra.heap_push_unfold, ← pushed_to_dijkstra, ← sift_up_loop_sim]
  show _ = (if h.size ≥ h.capacity then _ else if 0 ≤ v ∧ v < (h.capacity : Int) then _ else _)
  split_ifs
  · rfl
  · simp only [Option.map_map]; rfl
  · rfl

theorem heap_pop_sim (h : MinHeap) :
    (heap_pop h).map (fun r => (r.1, r.2.to_dijkstra)) = Dijkstra.heap_pop h.to_dijkstra := by
  rw [prim_heap_pop_unfold, Dijkstra.heap_pop_unfold, ← popped_to_dijkstra]
  show _ = (if h.size = 0 then _ else if h.size - 1 < h.capacity then
    (if 0 ≤ (h.data (h.size - 1)).vertex ∧ (h.data (h.size - 1)).vertex < (h.capacity : Int)
      then (Dijkstra.sift_down_rec (h.size - 1 + 1) (popped h).to_dijkstra 0).map _ else _)
    else _)
  rw [← sift_down_rec_sim]
  split_ifs
  · rfl
  · simp only [Option.map_map]; rfl
  · rfl
  · rfl

theorem heap_decrease_key_sim (h : MinHeap) (v w : Int) :
    (heap_decrease_key h v w).map (fun r => (r.1, r.2.to_dijkstra))
      = Dijkstra.heap_decrease_key h.to_dijkstra v w := by
  rw [prim_heap_decrease_key_unfold, Dijkstra.heap_decrease_key_unfold2]
  show _ = (if 0 ≤ v ∧ v < (h.capacity : Int) then
    (if h.pos v ≥ (h.size : Int) then _ else if 0 ≤ h.pos v ∧ h.pos v < (h.capacity : Int) then
      (Dijkstra.sift_up_loop ((h.pos v).toNat + 1)
        (Dijkstra.rekeyed h.to_dijkstra (h.pos v).toNat w) (h.pos v).toNat).map _ else _)
    else _)
  rw [← rekeyed_to_dijkstra, ← sift_up_loop_sim]
  split_ifs
  · rfl
  · simp only [Option.map_map]; rfl
  · rfl
  · rfl

end Prim
/-! ## The heap operations without assumption on the keys or on `pos` -/

namespace Dijkstra

theorem swapped_pos_nonneg (h : MinHeap) (i j : Nat) (v : Int) (hp : 0 ≤ h.pos v) :
    0 ≤ (swapped h i j).pos v := by
  show 0 ≤ Function.update (Function.update h.pos _ (i : Int)) _ (j : Int) v
  simp only [Function.update_apply]
  split_ifs
  · exact Int.ofNat_nonneg _
  · exact Int.ofNat_nonneg _
  · exact hp

theorem rearranged_vertices {h1 h2 : MinHeap} (r : Rearranged h1 h2) (P : Int → Prop)
    (hP : ∀ i, i < h1.size → P (h1.data i).vertex) : ∀ i, i < h2.size → P (h2.data i).vertex := by
  intro i hi
  have hm : h2.data i ∈ h2.entries := mem_entries.2 ⟨i, hi, rfl⟩
  obtain ⟨k, hk, hke⟩ := mem_entries.1 ((r.mem_iff _).1 hm)
  rw [← hke]
  exact hP k hk

theorem sift_up_loop_run : ∀ (fuel : Nat) (h : MinHeap) (k : Nat), k < fuel → k < h.size →
    h.size ≤ h.capacity → VerticesInRange h →
    ∃ h2, sift_up_loop fuel h k = some h2 ∧ Rearranged h h2 ∧
      ∀ v, 0 ≤ h.pos v → 0 ≤ h2.pos v := by
  intro fuel
  induction fuel with
  | zero => intro h k hk; omega
  | succ fuel ih =>
    intro h k hk hks hsz hv
    unfold sift_up_loop
    by_cases hk0 : 0 < k
    · have hkc : k < h.capacity := by omega
      simp only [hk0, hkc, if_true]
      by_cases hlt : (h.data k).distance < (h.data ((k - 1) / 2)).distance
      · have hps : (k - 1) / 2 < h.size := by omega
        simp only [hlt, if_true]
        rw [heap_swap_nodes_eq h k ((k - 1) / 2) hks hps hsz hv]
        simp only [Option.some_bind]
        have r1 := swapped_rearranged h k ((k - 1) / 2) hks hps
        obtain ⟨h2, hrun, r2, hp2⟩ := ih (swapped h k ((k - 1) / 2)) ((k - 1) / 2)
          (by omega) hps hsz (r1.vertices hv)
        exact ⟨h2, hrun, r1.trans r2, fun v hp => hp2 v (swapped_pos_nonneg h _ _ v hp)⟩
      · simp only [hlt, if_false]
        exact ⟨h, rfl, Rearranged.refl h, fun _ hp => hp⟩
    · simp only [hk0, if_false]
      exact ⟨h, rfl, Rearranged.refl h, fun _ hp => hp⟩

theorem sift_down_rec_run : ∀ (fuel : Nat) (h : MinHeap) (k : Nat), h.size < fuel + k →
    k ≤ h.size → h.size ≤ h.capacity → VerticesInRange h →
    ∃ h2, sift_down_rec fuel h k = some h2 ∧ Rearranged h h2 ∧
      ∀ v, 0 ≤ h.pos v → 0 ≤ h2.pos v := by
  intro fuel
  induction fuel with
  | zero => intro h k h1 h2; omega
  | succ fuel ih =>
    intro h k hf hks hsz hv
    unfold sift_down_rec
    have step : ∀ s, k < s → s < h.size →
        ∃ h2, (if s ≠ k then
            (heap_swap_nodes h k s).bind fun h1 => sift_down_rec fuel h1 s
          else some h) = some h2 ∧ Rearranged h h2 ∧ ∀ v, 0 ≤ h.pos v → 0 ≤ h2.pos v := by
      intro s hks2 hss
      have hne : s ≠ k := by omega
      have hk : k < h.size := by omega
      simp only [hne, ne_eq, not_false_eq_true, if_true]
      rw [heap_swap_nodes_eq h k s hk hss hsz hv]
      simp only [Option.some_bind]
      have r1 := swapped_rearranged h k s hk hss
      obtain ⟨h2, hrun, r2, hp2⟩ := ih (swapped h k s) s (by show h.size < fuel + s; omega)
        (by show s ≤ h.size; omega) hsz (r1.vertices hv)
      exact ⟨h2, hrun, r1.trans r2, fun v hp => hp2 v (swapped_pos_nonneg h _ _ v hp)⟩
    have stay : ∃ h2, (if k ≠ k then
          (heap_swap_nodes h k k).bind fun h1 => sift_down_rec fuel h1 k
        else some h) = some h2 ∧ Rearranged h h2 ∧ ∀ v, 0 ≤ h.pos v → 0 ≤ h2.pos v := by
      simp only [ne_eq, not_true_eq_false, if_false]
      exact ⟨h, rfl, Rearranged.refl h, fun _ hp => hp⟩
    rcases pick_smaller_cases h (2 * k + 1) k hsz (by omega) with e1 | ⟨e1, hl⟩
    · rw [e1]
      simp only [Option.some_bind]
      rcases pick_smaller_cases h (2 * k + 2) k hsz (by omega) with e2 | ⟨e2, hr⟩
      · rw [e2]; simp only [Option.some_bind]; exact stay
      · rw [e2]; simp only [Option.some_bind]; exact step _ (by omega) hr
    · rw [e1]
      simp only [Option.some_bind]
      rcases pick_smaller_cases h (2 * k + 2) (2 * k + 1) hsz (by omega) with e2 | ⟨e2, hr⟩
      · rw [e2]; simp only [Option.some_bind]; exact step _ (by omega) hl
      · rw [e2]; simp only [Option.some_bind]; exact step _ (by omega) hr

/-- `heap_push` without assumption on the keys or on `pos`: it returns, the
heap stays within its allocation, every stored vertex is the pushed one or was
stored before, and non-negative cells of `pos` stay non-negative. -/
theorem heap_push_run (h : MinHeap) (v d : Int) (hsz : h.size ≤ h.capacity)
    (hvr : VerticesInRange h) (hv : 0 ≤ v ∧ v < h.capacity) :
    ∃ r, heap_push h v d = some r ∧ r.2.capacity = h.capacity ∧ r.2.size ≤ r.2.capacity ∧
      (∀ P : Int → Prop, (∀ i, i < h.size → P (h.data i).vertex) → P v →
        ∀ i, i < r.2.size → P (r.2.data i).vertex) ∧
      ∀ x, 0 ≤ h.pos x → 0 ≤ r.2.pos x := by
  rw [heap_push_unfold]
  by_cases hfull : h.size ≥ h.capacity
  · simp only [hfull, if_true]
    exact ⟨(false, h), rfl, rfl, hsz, fun P hP _ => hP, fun _ hp => hp⟩
  · simp only [hfull, if_false, hv, and_self, if_true]
    have hd : ∀ i, (pushed h v d).data i = if i = h.size then ⟨v, d⟩ else h.data i := by
      intro i
      show Function.update h.data h.size ⟨v, d⟩ i = _
      rw [Function.update_apply]
    have hall : ∀ P : Int → Prop, (∀ i, i < h.size → P (h.data i).vertex) → P v →
        ∀ i, i < (pushed h v d).size → P ((pushed h v d).data i).vertex := by
      intro P hP hPv i hi
      have hi2 : i < h.size + 1 := hi
      rw [hd]
      by_cases e : i = h.size
      · simp only [e, if_true]; exact hPv
      · simp only [e, if_false]; exact hP i (by omega)
    have hvr1 : VerticesInRange (pushed h v d) :=
      hall (fun x => 0 ≤ x ∧ x < (h.capacity : Int)) hvr hv
    obtain ⟨h2, hrun, r, hp2⟩ := sift_up_loop_run (h.size + 1) (pushed h v d) h.size
      (by omega) (by show h.size < h.size + 1; omega)
      (by show h.size + 1 ≤ h.capacity; omega) hvr1
    rw [hrun]
    refine ⟨(true, h2), rfl, r.capacity_eq, ?_, ?_, ?_⟩
    · show h2.size ≤ h2.capacity
      rw [r.size_eq, r.capacity_eq]
      show h.size + 1 ≤ h.capacity
      omega
    · intro P hP hPv
      exact rearranged_vertices r P (hall P hP hPv)
    · intro x hx
      apply hp2
      show 0 ≤ Function.update h.pos v (h.size : Int) x
      rw [Function.update_apply]
      split_ifs
      · exact Int.ofNat_nonneg _
      · exact hx

/-- `heap_decrease_key` without assumption on the keys, for a vertex whose
cell of `pos` is non-negative. -/
theorem heap_decrease_key_run (h : MinHeap) (v d : Int) (hsz : h.size ≤ h.capacity)
    (hvr : VerticesInRange h) (hv : 0 ≤ v ∧ v < h.capacity) (hp : 0 ≤ h.pos v) :
    ∃ r, heap_decrease_key h v d = some r ∧ r.2.capacity = h.capacity ∧ r.2.size = h.size ∧
      (∀ P : Int → Prop, (∀ i, i < h.size → P (h.data i).vertex) →
        ∀ i, i < r.2.size → P (r.2.data i).vertex) ∧
      ∀ x, 0 ≤ h.pos x → 0 ≤ r.2.pos x := by
  rw [heap_decrease_key_unfold2]
  simp only [hv, and_self, if_true]
  by_cases hge : h.pos v ≥ h.size
  · simp only [hge, if_true]
    exact ⟨(false, h), rfl, rfl, rfl, fun P hP => hP, fun _ hx => hx⟩
  · have hc : 0 ≤ h.pos v ∧ h.pos v < (h.capacity : Int) := by omega
    simp only [hge, if_false, hc, and_self, if_true]
    have hk : (h.pos v).toNat < h.size := by omega
    have hall : ∀ P : Int → Prop, (∀ i, i < h.size → P (h.data i).vertex) →
        ∀ i, i < (rekeyed h (h.pos v).toNat d).size →
          P ((rekeyed h (h.pos v).toNat d).data i).vertex := by
      intro P hP i hi
      have hi2 : i < h.size := hi
      show P (Function.update h.data (h.pos v).toNat
        { h.data (h.pos v).toNat with distance := d } i).vertex
      rw [Function.update_apply]
      split_ifs with e
      · exact hP _ hk
      · exact hP i hi2
    have hvr1 : VerticesInRange (rekeyed h (h.pos v).toNat d) :=
      hall (fun x => 0 ≤ x ∧ x < (h.capacity : Int)) hvr
    obtain ⟨h2, hrun, r, hp2⟩ := sift_up_loop_run ((h.pos v).toNat + 1)
      (rekeyed h (h.pos v).toNat d) (h.pos v).toNat (by omega) hk hsz hvr1
    rw [hrun]
    exact ⟨(true, h2), rfl, r.capacity_eq, r.size_eq,
      fun P hP => rearranged_vertices r P (hall P hP), fun x hx => hp2 x hx⟩

/-- `heap_pop` on a non-empty heap without assumption on the keys or on
`pos`. -/
theorem heap_pop_run (h : MinHeap) (hsz : h.size ≤ h.capacity) (hvr : VerticesInRange h)
    (hpos : 0 < h.size) :
    ∃ h2, heap_pop h = some (some ((h.data 0).vertex, (h.data 0).distance), h2) ∧
      h2.capacity = h.capacity ∧ h2.size = h.size - 1 ∧
      (∀ P : Int → Prop, (∀ i, i < h.size → P (h.data i).vertex) →
        ∀ i, i < h2.size → P (h2.data i).vertex) ∧
      ∀ x, 0 ≤ h.pos x → 0 ≤ h2.pos x := by
  rw [heap_pop_unfold]
  have c1 : ¬ h.size = 0 := by omega
  have c2 : h.size - 1 < h.capacity := by omega
  have c3 := hvr (h.size - 1) (by omega)
  simp only [c1, if_false, c2, if_true, c3, and_self]
  have hall : ∀ P : Int → Prop, (∀ i, i < h.size → P (h.data i).vertex) →
      ∀ i, i < (popped h).size → P ((popped h).data i).vertex := by
    intro P hP i hi
    have hi2 : i < h.size - 1 := hi
    show P (Function.update h.data 0 (h.data (h.size - 1)) i).vertex
    rw [Function.update_apply]
    split_ifs with e
    · exact hP _ (by omega)
    · exact hP i (by omega)
  have hvr1 : VerticesInRange (popped h) :=
    hall (fun x => 0 ≤ x ∧ x < (h.capacity : Int)) hvr
  obtain ⟨h2, hrun, r, hp2⟩ := sift_down_rec_run (h.size - 1 + 1) (popped h) 0
    (by show h.size - 1 < h.size - 1 + 1 + 0; omega) (Nat.zero_le _)
    (by show h.size - 1 ≤ h.capacity; omega) hvr1
  rw [hrun]
  refine ⟨h2, rfl, r.capacity_eq, r.size_eq, fun P hP => rearranged_vertices r P (hall P hP), ?_⟩
  intro x hx
  apply hp2
  show 0 ≤ Function.update h.pos (h.data (h.size - 1)).vertex 0 x
  rw [Function.update_apply]
  split_ifs
  · exact le_refl _
  · exact hx

end Dijkstra
/-! ## `prim_mst` on any graph: what is stored, visited or given a parent is reachable -/

namespace Prim

theorem prim_heap_push_run (h : MinHeap) (v w : Int) (hsz : h.size ≤ h.capacity)
    (hvr : Dijkstra.VerticesInRange h.to_dijkstra) (hv : 0 ≤ v ∧ v < h.capacity) :
    ∃ r, heap_push h v w = some r ∧ r.2.capacity = h.capacity ∧ r.2.size ≤ r.2.capacity ∧
      (∀ P : Int → Prop, (∀ i, i < h.size → P (h.data i).vertex) → P v →
        ∀ i, i < r.2.size → P (r.2.data i).vertex) ∧
      ∀ x, 0 ≤ h.pos x → 0 ≤ r.2.pos x := by
  obtain ⟨R, hrun, hc, hs, hall, hp⟩ := Dijkstra.heap_push_run h.to_dijkstra v w hsz hvr hv
  rw [← heap_push_sim] at hrun
  obtain ⟨r, hr, hR⟩ := Option.map_eq_some'.1 hrun
  subst hR
  exact ⟨r, hr, hc, hs, hall, hp⟩

theorem prim_heap_decrease_key_run (h : MinHeap) (v w : Int) (hsz : h.size ≤ h.capacity)
    (hvr : Dijkstra.VerticesInRange h.to_dijkstra) (hv : 0 ≤ v ∧ v < h.capacity)
    (hp : 0 ≤ h.pos v) :
    ∃ r, heap_decrease_key h v w = some r ∧ r.2.capacity = h.capacity ∧ r.2.size = h.size ∧
      (∀ P : Int → Prop, (∀ i, i < h.size → P (h.data i).vertex) →
        ∀ i, i < r.2.size → P (r.2.data i).vertex) ∧
      ∀ x, 0 ≤ h.pos x → 0 ≤ r.2.pos x := by
  obtain ⟨R, hrun, hc, hs, hall, hp2⟩ :=
    Dijkstra.heap_decrease_key_run h.to_dijkstra v w hsz hvr hv hp
  rw [← heap_decrease_key_sim] at hrun
  obtain ⟨r, hr, hR⟩ := Option.map_eq_some'.1 hrun
  subst hR
  exact ⟨r, hr, hc, hs, hall, hp2⟩

theorem prim_heap_pop_run (h : MinHeap) (hsz : h.size ≤ h.capacity)
    (hvr : Dijkstra.VerticesInRange h.to_dijkstra) (hpos : 0 < h.size) :
    ∃ h2, heap_pop h = some (some ((h.data 0).vertex, (h.data 0).weight), h2) ∧
      h2.capacity = h.capacity ∧ h2.size = h.size - 1 ∧
      (∀ P : Int → Prop, (∀ i, i < h.size → P (h.data i).vertex) →
        ∀ i, i < h2.size → P (h2.data i).vertex) ∧
      ∀ x, 0 ≤ h.pos x → 0 ≤ h2.pos x := by
  obtain ⟨H2, hrun, hc, hs, hall, hp2⟩ := Dijkstra.heap_pop_run h.to_dijkstra hsz hvr hpos
  rw [← heap_pop_sim] at hrun
  obtain ⟨r, hr, hR⟩ := Option.map_eq_some'.1 hrun
  obtain ⟨r1, r2⟩ := r
  simp only [Prod.mk.injEq] at hR
  obtain ⟨h1, h2⟩ := hR
  subst h2
  refine ⟨r2, ?_, hc, hs, hall, hp2⟩
  rw [hr, h1]
  rfl

theorem prim_valid_edge (g : Graph) (hv : g.to_dijkstra.Valid) (u : Int)
    (hu : 0 ≤ u ∧ u < g.num_vertices) (e : AdjNode) (he : e ∈ g.array u) :
    0 ≤ e.to_ ∧ e.to_ < g.num_vertices := by
  have h := hv u.toNat (List.mem_range.2 (by show u.toNat < g.num_vertices; omega))
    e.to_dijkstra (by
      rw [Int.toNat_of_nonneg hu.1]
      exact List.mem_map_of_mem _ he)
  exact h

theorem reachable_edge (g : Graph) (start u : Int) (e : AdjNode)
    (hu : Dijkstra.Reachable g.to_dijkstra start u) (he : e ∈ g.array u) :
    Dijkstra.Reachable g.to_dijkstra start e.to_ := by
  obtain ⟨vs, W, hw⟩ := hu
  exact ⟨_, _, Dijkstra.Walk.snoc e.to_dijkstra hw (List.mem_map_of_mem _ he)⟩

/-- The invariant `PInv` moves to a state whose heap stores only vertices that
were stored before or are reachable, and whose `visited` and `parent` arrays
changed only at reachable vertices. -/
theorem PInv.of_parts {g : Graph} {start : Int} {st : PState} (hinv : PInv g start st)
    (st1 : PState) (hc : st1.heap.capacity = st.heap.capacity)
    (hs : st1.heap.size ≤ st1.heap.capacity)
    (hall : ∀ P : Int → Prop,
      (∀ x : Int, 0 ≤ x → x < g.num_vertices → Dijkstra.Reachable g.to_dijkstra start x → P x) →
      (∀ i, i < st.heap.size → P (st.heap.data i).vertex) →
      ∀ i, i < st1.heap.size → P (st1.heap.data i).vertex)
    (hp : ∀ x, 0 ≤ st.heap.pos x → 0 ≤ st1.heap.pos x)
    (hvis : ∀ v : Int, st1.visited v = true →
      st.visited v = true ∨ Dijkstra.Reachable g.to_dijkstra start v)
    (hpar : ∀ v : Int, st1.parent v ≠ -1 →
      st.parent v ≠ -1 ∨ Dijkstra.Reachable g.to_dijkstra start v) :
    PInv g start st1 where
  capacity_eq := hc.trans hinv.capacity_eq
  size_le := hs
  vertices := by
    have h := hall (fun x => 0 ≤ x ∧ x < (g.num_vertices : Int)) (fun x h0 h1 _ => ⟨h0, h1⟩)
      (fun i hi => by
        have := hinv.vertices i hi
        rw [← hinv.capacity_eq]
        exact this)
    intro i hi
    have := h i hi
    show 0 ≤ (st1.heap.data i).vertex ∧ (st1.heap.data i).vertex < (st1.heap.capacity : Int)
    rw [hc, hinv.capacity_eq]
    exact this
  pos_nonneg := by
    intro v h0 h1
    apply hp
    apply hinv.pos_nonneg v h0
    have : v < (st1.heap.capacity : Int) := h1
    rw [hc] at this
    exact this
  reach_entries := hall _ (fun _ _ _ h => h) hinv.reach_entries
  reach_visited := by
    intro v h0 h1 h
    rcases hvis v h with h2 | h2
    · exact hinv.reach_visited v h0 h1 h2
    · exact h2
  reach_parent := by
    intro v h0 h1 h
    rcases hpar v h with h2 | h2
    · exact hinv.reach_parent v h0 h1 h2
    · exact h2

theorem scan_edge_inv (g : Graph) (start u : Int) (e : AdjNode) (st : PState)
    (hinv : PInv g start st) (hu : Dijkstra.Reachable g.to_dijkstra start u)
    (he : e ∈ g.array u) (hr : 0 ≤ e.to_ ∧ e.to_ < g.num_vertices) :
    ∃ st1, scan_edge g.num_vertices u e st = some st1 ∧ PInv g start st1 ∧
      st1.visited = st.visited := by
  have hreach := reachable_edge g start u e hu he
  have hrc : 0 ≤ e.to_ ∧ e.to_ < (st.heap.capacity : Int) := by
    rw [hinv.capacity_eq]; exact hr
  have hpar : ∀ v : Int, Function.update st.parent e.to_ u v ≠ -1 →
      st.parent v ≠ -1 ∨ Dijkstra.Reachable g.to_dijkstra start v := by
    intro v hne
    by_cases hve : v = e.to_
    · right; rw [hve]; exact hreach
    · left; rw [Function.update_noteq hve] at hne; exact hne
  unfold scan_edge
  simp only [hr, and_self, if_true]
  by_cases hvis : st.visited e.to_ = true
  · rw [if_pos hvis]
    exact ⟨st, rfl, hinv, rfl⟩
  · rw [if_neg hvis]
    unfold heap_contains
    simp only [hrc, and_self, if_true, Option.some_bind]
    by_cases hpres : st.heap.pos e.to_ < st.heap.size
    · simp only [hpres, decide_True, if_true]
      obtain ⟨r, hrun, hc, hs, hall, hp⟩ := prim_heap_decrease_key_run st.heap e.to_ e.weight
        hinv.size_le hinv.vertices hrc (hinv.pos_nonneg e.to_ hrc.1 hrc.2)
      rw [hrun]
      simp only [Option.map_some']
      refine ⟨_, rfl, ?_, rfl⟩
      exact hinv.of_parts _ hc (by show r.2.size ≤ r.2.capacity; rw [hs, hc]; exact hinv.size_le)
        (fun P _ hP => hall P hP) hp (fun v h => Or.inl h) hpar
    · simp only [hpres, decide_False, Bool.false_eq_true, if_false]
      obtain ⟨r, hrun, hc, hs, hall, hp⟩ := prim_heap_push_run st.heap e.to_ e.weight
        hinv.size_le hinv.vertices hrc
      rw [hrun]
      simp only [Option.map_some']
      refine ⟨_, rfl, ?_, rfl⟩
      exact hinv.of_parts _ hc hs
        (fun P hR hP => hall P hP (hR e.to_ hr.1 hr.2 hreach)) hp (fun v h => Or.inl h) hpar

theorem scan_neighbors_inv (g : Graph) (hv : g.to_dijkstra.Valid) (start u : Int)
    (hu0 : 0 ≤ u ∧ u < g.num_vertices) (hu : Dijkstra.Reachable g.to_dijkstra start u) :
    ∀ (l : List AdjNode) (st : PState), (∀ e, e ∈ l → e ∈ g.array u) → PInv g start st →
      ∃ st1, scan_neighbors g.num_vertices u l st = some st1 ∧ PInv g start st1 ∧
        st1.visited = st.visited := by
  intro l
  induction l with
  | nil => intro st _ hinv; exact ⟨st, rfl, hinv, rfl⟩
  | cons e l ih =>
    intro st hl hinv
    have he := hl e (List.mem_cons_self _ _)
    obtain ⟨st1, hrun1, hinv1, hvis1⟩ := scan_edge_inv g start u e st hinv hu he
      (prim_valid_edge g hv u hu0 e he)
    obtain ⟨st2, hrun2, hinv2, hvis2⟩ := ih st1 (fun x hx => hl x (List.mem_cons_of_mem _ hx)) hinv1
    refine ⟨st2, ?_, hinv2, hvis2.trans hvis1⟩
    unfold scan_neighbors
    rw [hrun1]
    exact hrun2

theorem prim_loop_inv (g : Graph) (hv : g.to_dijkstra.Valid) (start : Int) :
    ∀ (fuel : Nat) (st : PState), PInv g start st →
      Dijkstra.unvisited_count g.num_vertices st.visited * (g.num_vertices + 1) + st.heap.size
        < fuel →
      ∃ st1, prim_loop g fuel st = some st1 ∧ PInv g start st1 := by
  intro fuel
  induction fuel with
  | zero => intro st _ h; omega
  | succ fuel ih =>
    intro st hinv hm
    unfold prim_loop
    by_cases hcond : (!heap_is_empty st.heap &&
        decide (st.edges_in_mst < (g.num_vertices : Int) - 1)) = true
    · rw [if_pos hcond]
      have hne : st.heap.size ≠ 0 := by
        intro h0
        simp [heap_is_empty, h0] at hcond
      obtain ⟨h2, hrun, hc, hs, hall, hp⟩ := prim_heap_pop_run st.heap hinv.size_le hinv.vertices
        (by omega)
      rw [hrun]
      simp only [Option.some_bind]
      have hpos0 : 0 < st.heap.size := by omega
      have hur := hinv.vertices 0 hpos0
      have hur2 : 0 ≤ (st.heap.data 0).vertex ∧ (st.heap.data 0).vertex < (g.num_vertices : Int) := by
        rw [← hinv.capacity_eq]; exact hur
      have hureach := hinv.reach_entries 0 (by omega)
      simp only [hur2, and_self, if_true]
      have hsz2 : h2.size ≤ h2.capacity := by rw [hs, hc]; have := hinv.size_le; omega
      by_cases hvis : st.visited (st.heap.data 0).vertex = true
      · rw [if_pos hvis]
        apply ih
        · exact hinv.of_parts _ hc hsz2 (fun P _ hP => hall P hP) hp (fun v h => Or.inl h)
            (fun v h => Or.inl h)
        · show Dijkstra.unvisited_count g.num_vertices st.visited * (g.num_vertices + 1) + h2.size
            < fuel
          rw [hs]
          omega
      · rw [if_neg hvis]
        have hvisf : st.visited (st.heap.data 0).vertex = false := by
          cases h : st.visited (st.heap.data 0).vertex
          · rfl
          · exact absurd h hvis
        have hvis_upd : ∀ v : Int, Function.update st.visited (st.heap.data 0).vertex true v = true →
            st.visited v = true ∨ Dijkstra.Reachable g.to_dijkstra start v := by
          intro v h
          by_cases hve : v = (st.heap.data 0).vertex
          · right; rw [hve]; exact hureach
          · left; rw [Function.update_noteq hve] at h; exact h
        have hinv2 : ∀ st2 : PState, st2.heap = h2 →
            st2.visited = Function.update st.visited (st.heap.data 0).vertex true →
            st2.parent = st.parent → PInv g start st2 := by
          intro st2 e1 e2 e3
          exact hinv.of_parts st2 (by rw [e1]; exact hc) (by rw [e1]; exact hsz2)
            (by rw [e1]; exact fun P _ hP => hall P hP) (by rw [e1]; exact hp)
            (by rw [e2]; exact hvis_upd) (by rw [e3]; exact fun v h => Or.inl h)
        have key : ∀ st2 : PState, st2.heap = h2 →
            st2.visited = Function.update st.visited (st.heap.data 0).vertex true →
            st2.parent = st.parent →
            ∃ st1, ((scan_neighbors g.num_vertices (st.heap.data 0).vertex
                (g.array (st.heap.data 0).vertex) st2).bind fun st3 => prim_loop g fuel st3)
              = some st1 ∧ PInv g start st1 := by
          intro st2 e1 e2 e3
          obtain ⟨st3, hrun3, hinv3, hvis3⟩ := scan_neighbors_inv g hv start
            (st.heap.data 0).vertex hur2 hureach (g.array (st.heap.data 0).vertex) st2
            (fun _ h => h) (hinv2 st2 e1 e2 e3)
          rw [hrun3]
          simp only [Option.some_bind]
          apply ih st3 hinv3
          rw [hvis3, e2]
          have hcnt := Dijkstra.unvisited_count_update st.visited (st.heap.data 0).vertex hvisf
            g.num_vertices
          rw [if_pos hur2] at hcnt
          have hsz3 : st3.heap.size ≤ g.num_vertices := by
            have := hinv3.size_le
            rw [hinv3.capacity_eq] at this
            exact this
          rw [hcnt, Nat.add_mul, Nat.one_mul] at hm
          omega
        by_cases hpu : st.parent (st.heap.data 0).vertex ≠ (st.heap.data 0).vertex
        · simp only [hpu, ne_eq, not_false_eq_true, if_true]
          exact key _ rfl rfl rfl
        · simp only [hpu, if_false]
          exact key _ rfl rfl rfl
    · rw [if_neg hcond]
      exact ⟨st, rfl, hinv⟩

end Prim
/-! ## `prim_mst` on a disconnected graph -/

namespace Prim

theorem prim_run_inv (g : Graph) (start : Int) (fuel : Nat)
    (raw_data : Nat → HeapNode) (raw_pos : Int → Int)
    (hv : g.to_dijkstra.Valid) (hs : 0 ≤ start ∧ start < g.num_vertices)
    (hraw : ∀ v : Int, 0 ≤ v → v < g.num_vertices → 0 ≤ raw_pos v)
    (hfuel : (g.num_vertices + 1) * (g.num_vertices + 1) ≤ fuel) :
    ∃ st, prim_mst fuel raw_data raw_pos g start = some st ∧ PInv g start st := by
  have hstart : Dijkstra.Reachable g.to_dijkstra start start :=
    ⟨_, _, Dijkstra.Walk.nil hs.1 hs.2⟩
  obtain ⟨r, hrun, hc, hsz, hall, hp⟩ := prim_heap_push_run
    (heap_create g.num_vertices raw_data raw_pos) start 0 (Nat.zero_le _)
    (fun i hi => absurd hi (Nat.not_lt_zero i)) hs
  have hc2 : r.2.capacity = g.num_vertices := hc
  unfold prim_mst
  rw [hrun]
  simp only [Option.some_bind, hs, and_self, if_true]
  apply prim_loop_inv g hv start fuel
  · exact
      { capacity_eq := hc2
        size_le := hsz
        vertices := by
          intro i hi
          have := hall (fun x => 0 ≤ x ∧ x < (g.num_vertices : Int))
            (fun i hi => absurd hi (Nat.not_lt_zero i)) hs i hi
          show 0 ≤ (r.2.data i).vertex ∧ (r.2.data i).vertex < (r.2.capacity : Int)
          rw [hc2]
          exact this
        pos_nonneg := by
          intro v h0 h1
          apply hp
          apply hraw v h0
          have : v < (r.2.capacity : Int) := h1
          rw [hc2] at this
          exact this
        reach_entries := hall _ (fun i hi => absurd hi (Nat.not_lt_zero i)) hstart
        reach_visited := by
          intro v _ _ h
          exact absurd h (by simp)
        reach_parent := by
          intro v _ _ h
          by_cases hve : v = start
          · rw [hve]; exact hstart
          · exact absurd (Function.update_noteq hve start (fun _ => (-1 : Int))) h }
  · show Dijkstra.unvisited_count g.num_vertices (fun _ => false) * (g.num_vertices + 1)
      + r.2.size < fuel
    rw [Dijkstra.unvisited_count_none]
    have h1 : r.2.size ≤ g.num_vertices := by rw [← hc2]; exact hsz
    have h2 : (g.num_vertices + 1) * (g.num_vertices + 1)
        = g.num_vertices * (g.num_vertices + 1) + (g.num_vertices + 1) := by
      rw [Nat.add_mul, Nat.one_mul]
    omega

theorem prim_two_group_graph_valid : two_group_graph.to_dijkstra.Valid := by
  unfold Dijkstra.Graph.Valid
  decide

/-- The run of `prim_mst` on the graph with two groups, from vertex 0, with
the uninitialised cells of the heap reading zero: vertices 0 and 1 are visited
and joined by the edge of weight 4; vertices 2 and 3 are not visited and keep
the parent -1. -/
theorem prim_two_group_run :
    ∃ st, prim_mst 25 (fun _ => ⟨0, 0⟩) (fun _ => 0) two_group_graph 0 = some st ∧
      (List.range 4).map (fun (i : Nat) => st.visited (i : Int)) = [true, true, false, false] ∧
      (List.range 4).map (fun (i : Nat) => st.parent (i : Int)) = [0, 0, -1, -1] ∧
      st.chosen = [(0, 1, 4)] ∧ st.total_weight = 4 :=
  ⟨_, rfl, by decide⟩

/-- C24 fails on the code: `heap_create` of `prim.c` does not initialise
`pos`.  On the disconnected graph with the groups `{0, 1}` and `{2, 3}`, from
vertex 0, when the cells of `pos` read `-1`: once the start vertex is
extracted the heap is empty, yet `heap_contains(1)` is `true` (`-1 < 0`), and
`heap_decrease_key(1, 4)` indexes `data` at `-1`.  The run has no defined
result, however many iterations of the main loop are allowed, so nothing is
settled and no `parent` array is delivered. -/
theorem prim_disconnected_run_undefined :
    ∃ h1 h2,
      heap_push (heap_create 4 (fun _ => ⟨0, 0⟩) (fun _ => -1)) 0 0 = some (true, h1) ∧
      heap_pop h1 = some (some (0, 0), h2) ∧ h2.size = 0 ∧ h2.pos 1 = -1 ∧
      heap_contains h2 1 = some true ∧ heap_decrease_key h2 1 4 = none ∧
      ∀ fuel, prim_mst fuel (fun _ => ⟨0, 0⟩) (fun _ => -1) two_group_graph 0 = none :=
  ⟨_, _, rfl, rfl, rfl, by decide, by decide, rfl, fun fuel => by cases fuel <;> rfl⟩

theorem two_group_unreachable :
    ¬ Dijkstra.Reachable two_group_graph.to_dijkstra 0 2 ∧
      ¬ Dijkstra.Reachable two_group_graph.to_dijkstra 0 3 := by
  have key : ∀ v vs W, Dijkstra.Walk two_group_graph.to_dijkstra 0 v vs W → v = 0 ∨ v = 1 := by
    intro v vs W hw
    induction hw with
    | nil _ _ => left; rfl
    | snoc e hw he ih =>
      rcases ih with h | h
      · rw [h] at he
        have : e = ⟨1, 4⟩ := by simpa [two_group_graph, Graph.to_dijkstra, AdjNode.to_dijkstra] using he
        right; rw [this]
      · rw [h] at he
        have : e = ⟨0, 4⟩ := by simpa [two_group_graph, Graph.to_dijkstra, AdjNode.to_dijkstra] using he
        left; rw [this]
  constructor
  · rintro ⟨vs, W, hw⟩
    rcases key _ _ _ hw with h | h <;> omega
  · rintro ⟨vs, W, hw⟩
    rcases key _ _ _ hw with h | h <;> omega

/-- What `prim_mst` does when the uninitialised cells of `pos` happen to read
as non-negative values: on a graph whose adjacency nodes name vertices of the
graph (a disconnected graph included), from a vertex `start` of the graph, the
main loop ends (fuel `(n + 1) * (n + 1)` suffices), and in the final state
every visited vertex is reachable from `start`, while every vertex that is not
reachable from `start` is not visited and has `parent[v] == -1`. -/
theorem prim_leaves_unreachable_unset (g : Graph) (start : Int) (fuel : Nat)
    (raw_data : Nat → HeapNode) (raw_pos : Int → Int)
    (hv : g.to_dijkstra.Valid) (hs : 0 ≤ start ∧ start < g.num_vertices)
    (hraw : ∀ v : Int, 0 ≤ v → v < g.num_vertices → 0 ≤ raw_pos v)
    (hfuel : (g.num_vertices + 1) * (g.num_vertices + 1) ≤ fuel) :
    ∃ st, prim_mst fuel raw_data raw_pos g start = some st ∧
      ∀ v : Int, 0 ≤ v → v < g.num_vertices →
        (st.visited v = true → Dijkstra.Reachable g.to_dijkstra start v) ∧
        (¬ Dijkstra.Reachable g.to_dijkstra start v →
          st.visited v = false ∧ st.parent v = -1) := by
  obtain ⟨st, hrun, hinv⟩ := prim_run_inv g start fuel raw_data raw_pos hv hs hraw hfuel
  refine ⟨st, hrun, fun v h0 h1 => ⟨hinv.reach_visited v h0 h1, fun hn => ⟨?_, ?_⟩⟩⟩
  · cases h : st.visited v
    · rfl
    · exact absurd (hinv.reach_visited v h0 h1 h) hn
  · by_contra h
    exact hn (hinv.reach_parent v h0 h1 h)

/-- Witness of `prim_leaves_unreachable_unset`: the graph with the two groups
`{0, 1}` and `{2, 3}`, from vertex 0, with zero-filled heap arrays. -/
theorem prim_leaves_unreachable_unset_witness :
    two_group_graph.to_dijkstra.Valid ∧
      ((0 : Int) ≤ 0 ∧ (0 : Int) < two_group_graph.num_vertices) ∧
      (∀ v : Int, 0 ≤ v → v < two_group_graph.num_vertices → 0 ≤ (fun _ : Int => (0 : Int)) v) ∧
      (two_group_graph.num_vertices + 1) * (two_group_graph.num_vertices + 1) ≤ 25 ∧
      ∃ st, prim_mst 25 (fun _ => ⟨0, 0⟩) (fun _ => 0) two_group_graph 0 = some st ∧
        ∀ v : Int, 0 ≤ v → v < two_group_graph.num_vertices →
          (st.visited v = true → Dijkstra.Reachable two_group_graph.to_dijkstra 0 v) ∧
          (¬ Dijkstra.Reachable two_group_graph.to_dijkstra 0 v →
            st.visited v = false ∧ st.parent v = -1) :=
  ⟨prim_two_group_graph_valid, by decide, fun _ _ _ => le_refl 0, by decide,
    prim_leaves_unreachable_unset two_group_graph 0 25 (fun _ => ⟨0, 0⟩) (fun _ => 0)
      prim_two_group_graph_valid (by decide) (fun _ _ _ => le_refl 0) (by decide)⟩

end Prim
/-! ## Single calls and single steps: the invariant per operation, ties, the two heaps -/

namespace Prim

/-- C31: on the single-vertex graph (`n = 1`, no edges), `prim_mst` from
vertex 0 returns with total weight 0 and no edge chosen, whatever the
uninitialised heap arrays hold: the test `edges_in_mst < num_vertices - 1` is
`0 < 0`, so the body of the main loop is never entered. -/
theorem prim_single_vertex (fuel : Nat) (raw_data : Nat → HeapNode) (raw_pos : Int → Int)
    (hfuel : 1 ≤ fuel) :
    ∃ st, prim_mst fuel raw_data raw_pos (graph_create 1) 0 = some st ∧
      st.total_weight = 0 ∧ st.edges_in_mst = 0 ∧ st.chosen = [] := by
  obtain ⟨k, rfl⟩ : ∃ k, fuel = k + 1 := ⟨fuel - 1, by omega⟩
  exact ⟨_, rfl, rfl, rfl, rfl⟩

/-- Witness of `prim_single_vertex` with fuel 1 and zero-filled heap arrays. -/
theorem prim_single_vertex_witness :
    1 ≤ 1 ∧ ∃ st, prim_mst 1 (fun _ => ⟨0, 0⟩) (fun _ => 0) (graph_create 1) 0 = some st ∧
      st.total_weight = 0 ∧ st.edges_in_mst = 0 ∧ st.chosen = [] :=
  ⟨le_refl 1, prim_single_vertex 1 (fun _ => ⟨0, 0⟩) (fun _ => 0) (le_refl 1)⟩

end Prim

namespace Dijkstra

/-- C32: on a heap that satisfies the invariant (size within capacity, stored
vertices in `[0, capacity)`, min-heap order, `pos[data[i].vertex] == i`), each
of `heap_push` of an absent vertex of `[0, capacity)` while `size < capacity`,
`heap_pop`, and `heap_decrease_key` of a stored vertex with a strictly smaller
key returns, and the heap it leaves is in min-heap order with
`pos[data[i].vertex] == i` for every `i < size`. -/
theorem heap_operations_preserve_invariant (h : MinHeap) (hinv : HeapInv h) :
    (∀ v d : Int, 0 ≤ v → v < h.capacity → Absent h v → h.size < h.capacity →
      ∃ h2, heap_push h v d = some (true, h2) ∧ HeapOrdered h2 ∧ PosConsistent h2 ∧
        HeapInv h2) ∧
    (∃ r, heap_pop h = some r ∧ HeapOrdered r.2 ∧ PosConsistent r.2 ∧ HeapInv r.2) ∧
    (∀ (v d : Int) (i : Nat), i < h.size → (h.data i).vertex = v →
      d < (h.data i).distance →
      ∃ h2, heap_decrease_key h v d = some (true, h2) ∧ HeapOrdered h2 ∧ PosConsistent h2 ∧
        HeapInv h2) := by
  refine ⟨?_, ?_, ?_⟩
  · intro v d h0 h1 ha hlt
    obtain ⟨h2, hrun, hw, _, _, _, hp, _⟩ := heap_push_spec h v d hinv.1 hlt ⟨h0, h1⟩
    exact ⟨h2, hrun, hw.2.2, hp hinv.2 ha, hw, hp hinv.2 ha⟩
  · by_cases hz : h.size = 0
    · refine ⟨(none, h), ?_, hinv.1.2.2, hinv.2, hinv⟩
      unfold heap_pop
      simp only [hz, if_true]
    · obtain ⟨h2, hrun, hw, _, _, _, _, hp, _⟩ := heap_pop_spec h hinv.1 (by omega)
      exact ⟨_, hrun, hw.2.2, hp hinv.2, hw, hp hinv.2⟩
  · intro v d i hi hvi hd
    have hvr := hinv.1.2.1 i hi
    rw [hvi] at hvr
    have hpv : h.pos v = i := by rw [← hvi]; exact hinv.2 i hi
    obtain ⟨h2, hrun, hw, _, _, _, hp, _⟩ :=
      heap_decrease_key_spec h v d i hinv.1 hvr hi hpv (le_of_lt hd)
    exact ⟨h2, hrun, hw.2.2, hp hinv.2, hw, hp hinv.2⟩

/-- Witness of `heap_operations_preserve_invariant`: the sample heap. -/
theorem heap_operations_preserve_invariant_witness :
    HeapInv sample_heap ∧
      ((∀ v d : Int, 0 ≤ v → v < sample_heap.capacity → Absent sample_heap v →
        sample_heap.size < sample_heap.capacity →
        ∃ h2, heap_push sample_heap v d = some (true, h2) ∧ HeapOrdered h2 ∧
          PosConsistent h2 ∧ HeapInv h2) ∧
      (∃ r, heap_pop sample_heap = some r ∧ HeapOrdered r.2 ∧ PosConsistent r.2 ∧
        HeapInv r.2) ∧
      (∀ (v d : Int) (i : Nat), i < sample_heap.size → (sample_heap.data i).vertex = v →
        d < (sample_heap.data i).distance →
        ∃ h2, heap_decrease_key sample_heap v d = some (true, h2) ∧ HeapOrdered h2 ∧
          PosConsistent h2 ∧ HeapInv h2)) :=
  ⟨sample_heap_inv, heap_operations_preserve_invariant sample_heap sample_heap_inv⟩

/-- C33 fails on the code.  `heap_pop` writes `pos` only for the entry it
moves to the root, so the cell of the extracted vertex keeps its old value:
after `push(0,1)`, `push(1,2)` and one `heap_pop` (which extracts vertex 0),
the heap stores only vertex 1, with `pos[1] == 0`, and `pos[0]` is `0`, not the
sentinel `-1`.  In `prim.c`, `heap_create` leaves `pos` as `malloc` returned
it: on a fresh heap over memory that reads 7, `pos[0]` is `7` although nothing
is stored. -/
theorem heap_pop_keeps_pos_of_extracted_vertex :
    (∃ h h2, run_ops (heap_create 2) [HeapOp.push 0 1, HeapOp.push 1 2] = some h ∧
      heap_pop h = some (some (0, 1), h2) ∧ h2.entries = [⟨1, 2⟩] ∧ h2.pos 1 = 0 ∧
      Absent h2 0 ∧ h2.pos 0 = 0 ∧ h2.pos 0 ≠ -1) ∧
    ((Prim.heap_create 2 (fun _ => ⟨0, 0⟩) (fun _ => 7)).size = 0 ∧
      (Prim.heap_create 2 (fun _ => ⟨0, 0⟩) (fun _ => 7)).pos 0 = 7) :=
  ⟨⟨_, _, rfl, rfl, by decide, by decide, by unfold Absent; decide, by decide, by decide⟩,
    rfl, rfl⟩

/-- C36: in the body of the inner loop of `dijkstra_shortest_path`, for an
adjacency node whose target is a vertex of the graph, a candidate distance
`distance[current_vertex] + edge_weight` equal to `distance[adjacent_vertex]`
leaves `distance`, `parent`, the heap and `visited` as they were (the test is
the strict `new_distance < distance[adjacent_vertex]`), so `parent` keeps the
vertex of the relaxation that first reached that distance. -/
theorem equal_candidate_changes_nothing (num_vertices : Nat) (current_vertex : Int)
    (neighbor : AdjNode) (st : DState)
    (hr : 0 ≤ neighbor.to_ ∧ neighbor.to_ < num_vertices)
    (heq : wrap32 (st.distance current_vertex + neighbor.weight) = st.distance neighbor.to_) :
    ∃ st2, relax_edge num_vertices current_vertex neighbor st = some st2 ∧
      st2.distance = st.distance ∧ st2.parent = st.parent ∧ st2.heap = st.heap ∧
      st2.visited = st.visited := by
  unfold relax_edge
  simp only [hr, and_self, if_true]
  by_cases hvis : st.visited neighbor.to_ = true
  · rw [if_pos hvis]
    exact ⟨st, rfl, rfl, rfl, rfl, rfl⟩
  · rw [if_neg hvis]
    have hlt : ¬ wrap32 (st.distance current_vertex + neighbor.weight)
        < st.distance neighbor.to_ := by
      rw [heq]; exact lt_irrefl _
    simp only [hlt, if_false]
    exact ⟨_, rfl, rfl, rfl, rfl, rfl⟩

end Dijkstra

namespace Dijkstra

/-- Witness of `equal_candidate_changes_nothing`: vertex 0 at distance 0 with
an edge of weight 5 to vertex 1, whose distance is already 5. -/
theorem equal_candidate_changes_nothing_witness :
    ((0 : Int) ≤ (⟨1, 5⟩ : AdjNode).to_ ∧ (⟨1, 5⟩ : AdjNode).to_ < (2 : Nat)) ∧
      wrap32 (tie_state.distance 0 + (⟨1, 5⟩ : AdjNode).weight)
        = tie_state.distance (⟨1, 5⟩ : AdjNode).to_ ∧
      ∃ st2, relax_edge 2 0 ⟨1, 5⟩ tie_state = some st2 ∧
        st2.distance = tie_state.distance ∧ st2.parent = tie_state.parent ∧
        st2.heap = tie_state.heap ∧ st2.visited = tie_state.visited :=
  ⟨by decide, by decide,
    equal_candidate_changes_nothing 2 0 ⟨1, 5⟩ tie_state (by decide) (by decide)⟩

/-- The run on the graph with two paths of equal weight from 0 to 3: vertex 2
is settled before vertex 1 and gives vertex 3 the distance 2; the later
relaxation from vertex 1 finds the same candidate 2 and records no update, so
`parent[3]` stays 2. -/
theorem dijkstra_tie_keeps_first_parent :
    ∃ g st, add_edges (graph_create 4) diamond_edges = some g ∧
      dijkstra_shortest_path 5 g 0 = some st ∧
      st.distance 3 = 2 ∧ st.parent 3 = 2 ∧
      st.events =
        [Event.extracted 0 0, Event.settled 0 0,
         Event.evaluated 0 2 1, Event.updated 2 1 0 true true,
         Event.evaluated 0 1 1, Event.updated 1 1 0 true true,
         Event.extracted 2 1, Event.settled 2 1,
         Event.evaluated 2 3 2, Event.updated 3 2 2 true true,
         Event.extracted 1 1, Event.settled 1 1,
         Event.evaluated 1 3 2,
         Event.extracted 3 2, Event.settled 3 2] :=
  ⟨_, _, rfl, rfl, by decide, by decide, by decide⟩

end Dijkstra

namespace Prim

/-- C34 fails on the code: `prim_mst` compares nothing before it calls
`heap_decrease_key` and sets `parent`.  On the triangle `0-1` (1), `0-2` (2),
`1-2` (10) from vertex 0 (uninitialised `pos` cells reading as absent), when
vertex 1 has been extracted the heap stores vertex 2 with key 2 and
`parent[2] == 0`; the edge `(1, 2, 10)`, whose weight is larger than the key,
then sets the key of vertex 2 to 10 and `parent[2]` to 1. -/
theorem prim_scan_overwrites_smaller_key :
    ∃ h1 h2 h3 h4 h5 st1,
      heap_push (heap_create 3 (fun _ => ⟨0, 0⟩) (fun _ => 3)) 0 0 = some (true, h1) ∧
      heap_pop h1 = some (some (0, 0), h2) ∧
      heap_push h2 2 2 = some (true, h3) ∧
      heap_push h3 1 1 = some (true, h4) ∧
      heap_pop h4 = some (some (1, 1), h5) ∧
      heap_contains h5 2 = some true ∧ h5.size = 1 ∧ h5.data 0 = ⟨2, 2⟩ ∧
      scan_edge 3 1 ⟨2, 10⟩
        { visited := fun v => decide (v = 0 ∨ v = 1)
          parent := fun _ => 0
          heap := h5
          total_weight := 1
          edges_in_mst := 1
          chosen := [(0, 1, 1)] } = some st1 ∧
      st1.heap.size = 1 ∧ st1.heap.data 0 = ⟨2, 10⟩ ∧ st1.parent 2 = 1 :=
  ⟨_, _, _, _, _, _, rfl, rfl, rfl, rfl, rfl, by decide, rfl, by decide, rfl, rfl,
    by decide, by decide⟩

/-- C37 fails on the code for `heap_contains`.  `heap_push`, `heap_pop`,
`heap_decrease_key` and `heap_is_empty` of `prim.c` agree with those of
`dijkstra.c` on every heap state and every argument, but `heap_contains` of
`prim.c` lacks the test `position >= 0`: on a heap that stores only vertex 1
and whose cell `pos[0]` reads `-1`, it answers `true` for vertex 0 where
`heap_contains` of `dijkstra.c` answers `false` on the same state. -/
theorem prim_heap_contains_differs :
    (∀ (h : MinHeap) (v w : Int),
      (heap_push h v w).map (fun r => (r.1, r.2.to_dijkstra))
        = Dijkstra.heap_push h.to_dijkstra v w) ∧
    (∀ h : MinHeap,
      (heap_pop h).map (fun r => (r.1, r.2.to_dijkstra)) = Dijkstra.heap_pop h.to_dijkstra) ∧
    (∀ (h : MinHeap) (v w : Int),
      (heap_decrease_key h v w).map (fun r => (r.1, r.2.to_dijkstra))
        = Dijkstra.heap_decrease_key h.to_dijkstra v w) ∧
    (∀ h : MinHeap, heap_is_empty h = Dijkstra.heap_is_empty h.to_dijkstra) ∧
    ∃ h1, heap_push (heap_create 2 (fun _ => ⟨0, 0⟩) (fun _ => -1)) 1 5 = some (true, h1) ∧
      h1.size = 1 ∧ (h1.data 0).vertex = 1 ∧ h1.pos 0 = -1 ∧
      heap_contains h1 0 = some true ∧
      Dijkstra.heap_contains h1.to_dijkstra 0 = some false :=
  ⟨heap_push_sim, heap_pop_sim, heap_decrease_key_sim, fun _ => rfl,
    _, rfl, rfl, by decide, by decide, by decide, by decide⟩

end Prim
/-! ## The trace of events of `dijkstra_shortest_path` -/

namespace Dijkstra

theorem dijkstra_loop_unfold (g : Graph) (fuel : Nat) (st : DState) :
    dijkstra_loop g (fuel + 1) st =
      if heap_is_empty st.heap then some st
      else (dijkstra_body g st).bind fun st1 => dijkstra_loop g fuel st1 := by
  rw [dijkstra_loop]
  unfold dijkstra_body
  by_cases he : heap_is_empty st.heap = true
  · simp only [he, if_true]
  · simp only [he, Bool.false_eq_true, if_false]
    cases hp : heap_pop st.heap with
    | none => rfl
    | some r =>
      obtain ⟨r1, heap1⟩ := r
      cases r1 with
      | none => rfl
      | some p =>
        obtain ⟨cv, cd⟩ := p
        simp only [Option.some_bind]
        by_cases hr : 0 ≤ cv ∧ cv < (g.num_vertices : Int)
        · simp only [hr, and_self, if_true]
          by_cases hv : st.visited cv = true
          · simp only [hv, if_true, Option.some_bind]
          · simp only [hv, Bool.false_eq_true, if_false]
        · simp only [hr, if_false, Option.none_bind]

theorem pushed_vertices_append (a b : List Event) :
    pushed_vertices (a ++ b) = pushed_vertices a ++ pushed_vertices b := by
  unfold pushed_vertices
  exact List.filterMap_append _ _ _

theorem extracted_vertices_append (a b : List Event) :
    extracted_vertices (a ++ b) = extracted_vertices a ++ extracted_vertices b := by
  unfold extracted_vertices
  exact List.filterMap_append _ _ _

theorem settled_distances_append (a b : List Event) :
    settled_distances (a ++ b) = settled_distances a ++ settled_distances b := by
  unfold settled_distances
  exact List.filterMap_append _ _ _

theorem mem_pushed_vertices (evs : List Event) (v : Int) :
    v ∈ pushed_vertices evs ↔ ∃ d c r, Event.updated v d c true r ∈ evs := by
  unfold pushed_vertices
  rw [List.mem_filterMap]
  constructor
  · rintro ⟨ev, hm, he⟩
    cases ev with
    | updated x d c p r =>
      cases p with
      | true =>
        simp only [Option.some.injEq] at he
        rw [he] at hm
        exact ⟨d, c, r, hm⟩
      | false => simp at he
    | _ => simp at he
  · rintro ⟨d, c, r, hm⟩
    exact ⟨_, hm, rfl⟩

theorem mem_extracted_vertices (evs : List Event) (v : Int) :
    v ∈ extracted_vertices evs ↔ ∃ d, Event.extracted v d ∈ evs := by
  unfold extracted_vertices
  rw [List.mem_filterMap]
  constructor
  · rintro ⟨ev, hm, he⟩
    cases ev with
    | extracted x d =>
      simp only [Option.some.injEq] at he
      rw [he] at hm
      exact ⟨d, hm⟩
    | _ => simp at he
  · rintro ⟨d, hm⟩
    exact ⟨_, hm, rfl⟩

theorem mem_settled_distances (evs : List Event) (d : Int) :
    d ∈ settled_distances evs ↔ ∃ v, Event.settled v d ∈ evs := by
  unfold settled_distances
  rw [List.mem_filterMap]
  constructor
  · rintro ⟨ev, hm, he⟩
    cases ev with
    | settled x y =>
      simp only [Option.some.injEq] at he
      rw [he] at hm
      exact ⟨x, hm⟩
    | _ => simp at he
  · rintro ⟨v, hm⟩
    exact ⟨_, hm, rfl⟩

theorem frozen_append (a b : List Event) (ha : Frozen a) (hb : Frozen b)
    (hab : ∀ v d, Event.settled v d ∈ a → ∀ x nd c p r, Event.updated x nd c p r ∈ b → x ≠ v) :
    Frozen (a ++ b) := by
  intro l1 l2 v d heq x nd c p r hm
  rcases List.append_eq_append_iff.1 heq with ⟨m, h1, h2⟩ | ⟨m, h1, h2⟩
  · -- l1 = a ++ m, b = m ++ settled :: l2
    exact hb m l2 v d h2 x nd c p r hm
  · -- a = l1 ++ m, settled :: l2 = m ++ b
    cases m with
    | nil =>
      simp only [List.nil_append] at h2
      exact hb [] l2 v d (by rw [← h2]; rfl) x nd c p r hm
    | cons y m =>
      simp only [List.cons_append, List.cons.injEq] at h2
      obtain ⟨hy, hl2⟩ := h2
      rw [hl2] at hm
      rcases List.mem_append.1 hm with h3 | h3
      · exact ha l1 m v d (by rw [h1, ← hy]) x nd c p r h3
      · exact hab v d (by rw [h1, ← hy]; simp) x nd c p r h3

end Dijkstra

namespace Dijkstra

/-- The body of the inner loop under the invariant `BaseInv`: it returns, keeps
the invariant, and its effect on every component of the state, the events
included, is the one written in `relax_distance`, `relax_parent` and
`relax_events`. -/
theorem relax_edge_trace (g : Graph) (hv : g.Valid) (start : Int) (st : DState)
    (hb : BaseInv g start st) (u : Int) (e : AdjNode) (hu : 0 ≤ u ∧ u < g.num_vertices)
    (huv : st.visited u = true) (he : e ∈ g.array u) :
    ∃ st2, relax_edge g.num_vertices u e st = some st2 ∧ BaseInv g start st2 ∧
      st2.visited = st.visited ∧ st2.distance = relax_distance st u e ∧
      st2.parent = relax_parent st u e ∧ st2.events = st.events ++ relax_events st u e := by
  have hvr := valid_edge g hv u hu e he
  unfold relax_edge relax_distance relax_parent relax_events
  simp only [hvr, and_self, if_true]
  by_cases hvis : st.visited e.to_ = true
  · simp only [hvis, if_true]
    exact ⟨st, rfl, hb, rfl, rfl, rfl, (List.append_nil _).symm⟩
  · have hvis2 : st.visited e.to_ = false := by simpa using hvis
    simp only [hvis2, Bool.false_eq_true, if_false]
    by_cases hlt : wrap32 (st.distance u + e.weight) < st.distance e.to_
    · simp only [hlt, if_true]
      have hcapv : 0 ≤ e.to_ ∧ e.to_ < st.heap.capacity := by
        rw [hb.capacity_eq]; exact hvr
      by_cases hd : st.distance e.to_ < INF
      · have hm := hb.entry_complete e.to_ hvr.1 hvr.2 hvis2 hd
        rw [heap_contains_present st.heap e.to_ _ hb.heap_inv hm]
        obtain ⟨h2, hrun, hinv2, hc, hmem, hfr⟩ :=
          heap_decrease_key_mem st.heap e.to_ _ _ hb.heap_inv hm hlt
        have hne : ¬ st.distance e.to_ = INF := ne_of_lt hd
        simp only [Option.some_bind, if_true, hrun, Option.map_some', hne, decide_False]
        refine ⟨_, rfl, ?_, rfl, rfl, rfl, rfl⟩
        exact base_after_update g hv start st hb u e _ h2 _ hu huv he hvis2 hlt hinv2 hc hmem
          (fun x _ hx => hfr x hx)
      · have hd2 : st.distance e.to_ = INF := by
          have := hb.distance_le e.to_ hvr.1 hvr.2
          omega
        have hp := hb.pos_unset e.to_ hvr.1 hvr.2 hd2
        rw [heap_contains_unset st.heap e.to_ hcapv hp]
        have hab := absent_of_pos_unset st.heap e.to_ hb.heap_inv.2 hp
        obtain ⟨h2, hrun, hinv2, hc, hmem, hfr⟩ :=
          heap_push_mem st.heap e.to_ (wrap32 (st.distance u + e.weight)) hb.heap_inv hcapv hab
        simp only [Option.some_bind, Bool.false_eq_true, if_false, hrun, Option.map_some', hd2,
          decide_True]
        refine ⟨_, rfl, ?_, rfl, rfl, rfl, rfl⟩
        refine base_after_update g hv start st hb u e _ h2 _ hu huv he hvis2 hlt hinv2 hc ?_ hfr
        intro x
        rw [hmem]
        constructor
        · rintro (h1 | h1)
          · exact Or.inl h1
          · exact Or.inr ⟨h1, (absent_iff _ _).1 hab x h1⟩
        · rintro (h1 | h1)
          · exact Or.inl h1
          · exact Or.inr h1.1
    · simp only [hlt, if_false]
      exact ⟨_, rfl, BaseInv.of_eq g start st _ hb rfl rfl rfl rfl, rfl, rfl, rfl, rfl⟩

theorem relax_distance_le (st : DState) (u : Int) (e : AdjNode) (x : Int) :
    relax_distance st u e x ≤ st.distance x := by
  unfold relax_distance
  split_ifs with h1 h2
  · exact le_refl _
  · rw [Function.update_apply]
    split_ifs with h3
    · rw [h3]; exact le_of_lt h2
    · exact le_refl _
  · exact le_refl _

theorem relax_distance_visited (st : DState) (u : Int) (e : AdjNode) (x : Int)
    (hx : st.visited x = true) : relax_distance st u e x = st.distance x := by
  unfold relax_distance
  split_ifs with h1 h2
  · rfl
  · rw [Function.update_noteq]
    intro hc
    rw [hc] at hx
    exact h1 hx
  · rfl

theorem relax_events_skipped (st : DState) (u : Int) (e : AdjNode) (v : Int) :
    Event.skipped v ∉ relax_events st u e := by
  unfold relax_events
  split_ifs <;> simp

theorem relax_events_extracted (st : DState) (u : Int) (e : AdjNode) (v d : Int) :
    Event.extracted v d ∉ relax_events st u e := by
  unfold relax_events
  split_ifs <;> simp

theorem relax_events_settled (st : DState) (u : Int) (e : AdjNode) (v d : Int) :
    Event.settled v d ∉ relax_events st u e := by
  unfold relax_events
  split_ifs <;> simp

theorem relax_events_updated (st : DState) (u : Int) (e : AdjNode) (x nd c : Int) (p r : Bool)
    (h : Event.updated x nd c p r ∈ relax_events st u e) :
    x = e.to_ ∧ st.visited e.to_ = false ∧ nd < st.distance e.to_ ∧ r = true ∧
      (p = true ↔ st.distance e.to_ = INF) := by
  unfold relax_events at h
  split_ifs at h with h1 h2
  · simp at h
  · simp only [List.mem_cons, List.mem_singleton, List.not_mem_nil, or_false] at h
    rcases h with h | h
    · exact Event.noConfusion h
    · injection h with hx hnd _ hp hr
      refine ⟨hx, by simpa using h1, by rw [hnd]; exact h2, hr, ?_⟩
      rw [hp]
      simp
  · simp at h

theorem relax_events_evaluated (st : DState) (u : Int) (e : AdjNode) (c a s : Int)
    (h : Event.evaluated c a s ∈ relax_events st u e) :
    st.visited e.to_ = false ∧ s = st.distance u + e.weight := by
  unfold relax_events at h
  split_ifs at h with h1 h2
  · simp at h
  · simp only [List.mem_cons, List.mem_singleton, List.not_mem_nil, or_false] at h
    rcases h with h | h
    · injection h with _ _ hs
      exact ⟨by simpa using h1, hs⟩
    · exact Event.noConfusion h
  · simp only [List.mem_singleton] at h
    injection h with _ _ hs
    exact ⟨by simpa using h1, hs⟩

end Dijkstra

namespace Dijkstra

theorem relax_distance_updated (st : DState) (u : Int) (e : AdjNode) (x nd c : Int)
    (p r : Bool) (h : Event.updated x nd c p r ∈ relax_events st u e) :
    relax_distance st u e x = nd := by
  unfold relax_events at h
  unfold relax_distance
  split_ifs at h ⊢ with h1 h2
  · simp at h
  · simp only [List.mem_cons, List.mem_singleton, List.not_mem_nil, or_false] at h
    rcases h with h | h
    · exact Event.noConfusion h
    · injection h with hx hnd _ _ _
      rw [hx, hnd, Function.update_same]
  · simp at h

theorem relax_events_pushed_nodup (st : DState) (u : Int) (e : AdjNode) :
    (pushed_vertices (relax_events st u e)).Nodup := by
  unfold relax_events
  split_ifs
  · simp [pushed_vertices]
  · cases hdec : decide (st.distance e.to_ = INF) <;> simp [pushed_vertices]
  · simp [pushed_vertices]

theorem relax_events_no_extraction (st : DState) (u : Int) (e : AdjNode) :
    extracted_vertices (relax_events st u e) = [] := by
  unfold relax_events
  split_ifs <;> simp [extracted_vertices]

theorem relax_events_no_settle (st : DState) (u : Int) (e : AdjNode) :
    settled_distances (relax_events st u e) = [] := by
  unfold relax_events
  split_ifs <;> simp [settled_distances]

theorem frozen_of_no_settled (b : List Event) (h : ∀ v d, Event.settled v d ∉ b) :
    Frozen b := by
  intro l1 l2 v d heq
  exact absurd (by rw [heq]; simp) (h v d)

theorem frozen_of_no_updated (b : List Event)
    (h : ∀ x nd c p r, Event.updated x nd c p r ∉ b) : Frozen b := by
  intro l1 l2 v d heq x nd c p r hm
  exact absurd (by rw [heq]; simp [hm]) (h x nd c p r)

/-- The body of the inner loop keeps `TraceInv`. -/
theorem trace_relax_edge (g : Graph) (start : Int) (st st2 : DState) (u : Int) (e : AdjNode)
    (hb : BaseInv g start st) (ht : TraceInv g start st)
    (hvr : 0 ≤ e.to_ ∧ e.to_ < g.num_vertices)
    (hvis2 : st2.visited = st.visited) (hd2 : st2.distance = relax_distance st u e)
    (hev2 : st2.events = st.events ++ relax_events st u e) : TraceInv g start st2 := by
  have hnew : ∀ x, x ∈ pushed_vertices (relax_events st u e) →
      x = e.to_ ∧ st.distance e.to_ = INF ∧ st2.distance x < INF := by
    intro x hx
    obtain ⟨d, c, r, hm⟩ := (mem_pushed_vertices _ _).1 hx
    obtain ⟨h1, _, h3, _, h5⟩ := relax_events_updated st u e x d c true r hm
    have h6 := h5.1 rfl
    refine ⟨h1, h6, ?_⟩
    rw [hd2, relax_distance_updated st u e x d c true r hm]
    have := hb.distance_le e.to_ hvr.1 hvr.2
    omega
  refine ⟨?_, ?_, ?_, ?_, ?_, ?_, ?_, ?_, ?_⟩
  · intro v hm
    rw [hev2] at hm
    rcases List.mem_append.1 hm with h | h
    · exact ht.no_skip v h
    · exact relax_events_skipped st u e v h
  · intro v d c p r hm
    rw [hev2] at hm
    rcases List.mem_append.1 hm with h | h
    · exact ht.results v d c p r h
    · exact (relax_events_updated st u e v d c p r h).2.2.2.1
  · rw [hev2, pushed_vertices_append, List.nodup_append]
    refine ⟨ht.pushed_nodup, relax_events_pushed_nodup st u e, ?_⟩
    intro x hx hx2
    obtain ⟨h1, h2, _⟩ := hnew x hx2
    have := (ht.pushed_found x hx).2.2
    rw [h1, h2] at this
    exact lt_irrefl _ this
  · intro v hm
    rw [hev2, pushed_vertices_append] at hm
    rcases List.mem_append.1 hm with h | h
    · obtain ⟨h1, h2, h3⟩ := ht.pushed_found v h
      refine ⟨h1, h2, ?_⟩
      rw [hd2]
      exact lt_of_le_of_lt (relax_distance_le st u e v) h3
    · obtain ⟨h1, h2, h3⟩ := hnew v h
      refine ⟨by rw [h1]; exact hvr, ?_, h3⟩
      intro hc
      have := ht.start_found
      rw [← hc, h1, h2] at this
      exact lt_irrefl _ this
  · rw [hd2]
    exact lt_of_le_of_lt (relax_distance_le st u e start) ht.start_found
  · rw [hev2, extracted_vertices_append, relax_events_no_extraction, List.append_nil]
    exact ht.extracted_nodup
  · intro v d hm
    rw [hev2] at hm
    rcases List.mem_append.1 hm with h | h
    · obtain ⟨h1, h2⟩ := ht.extracted_key v d h
      exact ⟨by rw [hvis2]; exact h1, by rw [hd2, relax_distance_visited st u e v h1]; exact h2⟩
    · exact absurd h (relax_events_extracted st u e v d)
  · intro v d hm
    rw [hev2] at hm
    rcases List.mem_append.1 hm with h | h
    · obtain ⟨h1, h2⟩ := ht.settled_key v d h
      exact ⟨by rw [hvis2]; exact h1, by rw [hd2, relax_distance_visited st u e v h1]; exact h2⟩
    · exact absurd h (relax_events_settled st u e v d)
  · rw [hev2]
    refine frozen_append _ _ ht.frozen
      (frozen_of_no_settled _ (fun v d => relax_events_settled st u e v d)) ?_
    intro v d hs x nd c p r hm hc
    have h1 := (ht.settled_key v d hs).1
    obtain ⟨h2, h3, _⟩ := relax_events_updated st u e x nd c p r hm
    rw [← hc, h2, h3] at h1
    exact Bool.noConfusion h1

/-- The extraction of an unvisited vertex with its distance as key keeps
`TraceInv`. -/
theorem trace_pop_step (g : Graph) (start : Int) (st : DState) (u d : Int) (heap1 : MinHeap)
    (ht : TraceInv g start st) (huv : st.visited u = false) (hdu : st.distance u = d) :
    TraceInv g start
      { st with
        heap := heap1
        visited := Function.update st.visited u true
        events := st.events ++ [Event.extracted u d, Event.settled u d] } := by
  have hvis : ∀ v, st.visited v = true → Function.update st.visited u true v = true := by
    intro v h
    rw [Function.update_apply]
    split_ifs
    · rfl
    · exact h
  refine ⟨?_, ?_, ?_, ?_, ?_, ?_, ?_, ?_, ?_⟩
  · intro v hm
    rcases List.mem_append.1 hm with h | h
    · exact ht.no_skip v h
    · simp at h
  · intro v d2 c p r hm
    rcases List.mem_append.1 hm with h | h
    · exact ht.results v d2 c p r h
    · simp at h
  · show (pushed_vertices (st.events ++ _)).Nodup
    rw [pushed_vertices_append]
    simpa [pushed_vertices] using ht.pushed_nodup
  · intro v hm
    have hm2 : v ∈ pushed_vertices (st.events ++ [Event.extracted u d, Event.settled u d]) := hm
    rw [pushed_vertices_append] at hm2
    have hm3 : v ∈ pushed_vertices st.events := by simpa [pushed_vertices] using hm2
    exact ht.pushed_found v hm3
  · exact ht.start_found
  · show (extracted_vertices (st.events ++ _)).Nodup
    rw [extracted_vertices_append, List.nodup_append]
    refine ⟨ht.extracted_nodup, by simp [extracted_vertices], ?_⟩
    intro x hx hx2
    have hxu : x = u := by simpa [extracted_vertices] using hx2
    obtain ⟨d2, hd2⟩ := (mem_extracted_vertices _ _).1 hx
    have := (ht.extracted_key x d2 hd2).1
    rw [hxu, huv] at this
    exact Bool.noConfusion this
  · intro v d2 hm
    rcases List.mem_append.1 hm with h | h
    · obtain ⟨h1, h2⟩ := ht.extracted_key v d2 h
      exact ⟨hvis v h1, h2⟩
    · simp only [List.mem_cons, List.mem_singleton, List.not_mem_nil, or_false] at h
      rcases h with h | h
      · injection h with h1 h2
        subst h1
        subst h2
        exact ⟨by show Function.update st.visited v true v = true; simp, hdu⟩
      · exact Event.noConfusion h
  · intro v d2 hm
    rcases List.mem_append.1 hm with h | h
    · obtain ⟨h1, h2⟩ := ht.settled_key v d2 h
      exact ⟨hvis v h1, h2⟩
    · simp only [List.mem_cons, List.mem_singleton, List.not_mem_nil, or_false] at h
      rcases h with h | h
      · exact Event.noConfusion h
      · injection h with h1 h2
        subst h1
        subst h2
        exact ⟨by show Function.update st.visited v true v = true; simp, hdu⟩
  · show Frozen (st.events ++ _)
    refine frozen_append _ _ ht.frozen (frozen_of_no_updated _ (by simp)) ?_
    intro v d2 _ x nd c p r hm
    simp at hm

end Dijkstra

namespace Dijkstra

theorem trace_step (g : Graph) (hv : g.Valid) (start : Int) (st : DState) (u d : Int)
    (heap1 : MinHeap) (hb : BaseInv g start st) (ht : TraceInv g start st)
    (hrun : heap_pop st.heap = some (some (u, d), heap1))
    (hur : 0 ≤ u ∧ u < g.num_vertices) (huv : st.visited u = false) :
    ∃ st2, relax_neighbors g.num_vertices u (g.array u)
        { st with
          heap := heap1
          visited := Function.update st.visited u true
          events := st.events ++ [Event.extracted u d, Event.settled u d] } = some st2 ∧
      (BaseInv g start st2 ∧ TraceInv g start st2) ∧
      st2.visited = Function.update st.visited u true := by
  obtain ⟨hdu, _, _, hb1⟩ := pop_step_base_of_eq g start st hb u d heap1 hrun
  have ht1 := trace_pop_step g start st u d heap1 ht huv hdu
  have := relax_neighbors_invariant g.num_vertices u
    (fun todo s => BaseInv g start s ∧ TraceInv g start s ∧
      s.visited = Function.update st.visited u true ∧ ∀ e, e ∈ todo → e ∈ g.array u)
    (by
      intro e rest s ⟨hbs, hts, hvs, hsub⟩
      have huv2 : s.visited u = true := by rw [hvs]; simp
      have hem := hsub e (List.mem_cons_self _ _)
      obtain ⟨s2, hr, hb2, hv2, hd2, _, hev2⟩ :=
        relax_edge_trace g hv start s hbs u e hur huv2 hem
      exact ⟨s2, hr, hb2,
        trace_relax_edge g start s s2 u e hbs hts (valid_edge g hv u hur e hem) hv2 hd2 hev2,
        hv2.trans hvs, fun x hx => hsub x (List.mem_cons_of_mem _ hx)⟩)
    (g.array u) _ ⟨hb1 _, ht1, rfl, fun e he => he⟩
  obtain ⟨st2, hr, hb2, ht2, hv2, _⟩ := this
  exact ⟨st2, hr, ⟨hb2, ht2⟩, hv2⟩

theorem dijkstra_init_trace (g : Graph) (start : Int) (st : DState)
    (hev : st.events = []) (hd : st.distance = Function.update (fun _ => INF) start 0) :
    TraceInv g start st := by
  refine ⟨?_, ?_, ?_, ?_, ?_, ?_, ?_, ?_, ?_⟩
  · rw [hev]; simp
  · rw [hev]; simp
  · rw [hev]; simp [pushed_vertices]
  · rw [hev]; simp [pushed_vertices]
  · rw [hd, Function.update_same]; decide
  · rw [hev]; simp [extracted_vertices]
  · rw [hev]; simp
  · rw [hev]; simp
  · rw [hev]; exact frozen_of_no_settled _ (by simp)

/-- The outcome of the main loop on any graph: the run ends with an empty heap
and its events satisfy `TraceInv`. -/
theorem dijkstra_run_trace (g : Graph) (start : Int) (fuel : Nat) (hv : g.Valid)
    (hs : 0 ≤ start ∧ start < g.num_vertices) (hfuel : g.num_vertices < fuel) :
    ∃ st, dijkstra_shortest_path fuel g start = some st ∧ BaseInv g start st ∧
      TraceInv g start st ∧ st.heap.size = 0 := by
  obtain ⟨st0, hinit, hb0, hvis0, hd0, _⟩ := dijkstra_init_base g start hs
  have hev0 := dijkstra_init_events g start st0 hinit
  obtain ⟨st, hrun, ⟨hb, ht⟩, hz⟩ := dijkstra_loop_invariant g start
    (fun s => BaseInv g start s ∧ TraceInv g start s)
    (fun _ h => h.1)
    (fun s u d heap1 hj hr hur huv => trace_step g hv start s u d heap1 hj.1 hj.2 hr hur huv)
    fuel st0 ⟨hb0, dijkstra_init_trace g start st0 hev0 hd0⟩
    (lt_of_le_of_lt (by rw [hvis0]; exact unvisited_count_le _ _) hfuel)
  exact ⟨st, by simp [dijkstra_shortest_path, hinit, hrun], hb, ht, hz⟩

theorem dijkstra_body_base (g : Graph) (hv : g.Valid) (start : Int) (st : DState)
    (hb : BaseInv g start st) (hne : st.heap.size ≠ 0) :
    ∃ st2, dijkstra_body g st = some st2 ∧ BaseInv g start st2 := by
  obtain ⟨u, d, heap1, hrun, hur, huv, _, _, _, _⟩ := pop_step_base g start st hb hne
  obtain ⟨st2, hrel, hb2, _⟩ := base_step g hv start st u d heap1 hb hrun hur
    (st.events ++ [Event.extracted u d, Event.settled u d])
  refine ⟨st2, ?_, hb2⟩
  unfold dijkstra_body
  simp only [hrun, Option.some_bind, hur, and_self, if_true, huv, Bool.false_eq_true, if_false]
  exact hrel

/-- The invariant `BaseInv` holds at the head of the main loop after any number
of iterations. -/
theorem dijkstra_after_base (g : Graph) (hv : g.Valid) (start : Int) :
    ∀ (k : Nat) (st st2 : DState), BaseInv g start st → dijkstra_after g k st = some st2 →
      BaseInv g start st2 := by
  intro k
  induction k with
  | zero =>
    intro st st2 hb h
    simp only [dijkstra_after, Option.some.injEq] at h
    rw [← h]; exact hb
  | succ k ih =>
    intro st st2 hb h
    unfold dijkstra_after at h
    by_cases hz : st.heap.size = 0
    · simp [heap_is_empty, hz] at h
    · have he : heap_is_empty st.heap = false := by simp [heap_is_empty, hz]
      obtain ⟨st1, hrun, hb1⟩ := dijkstra_body_base g hv start st hb hz
      simp only [he, Bool.false_eq_true, if_false, hrun, Option.some_bind] at h
      exact ih st1 st2 hb1 h

/-- The state at the head of the main loop after `k` iterations of a run from
`start` satisfies `BaseInv`. -/
theorem dijkstra_reached_base (g : Graph) (hv : g.Valid) (start : Int)
    (hs : 0 ≤ start ∧ start < g.num_vertices) (k : Nat) (st : DState)
    (h : (dijkstra_init g start).bind (fun st0 => dijkstra_after g k st0) = some st) :
    BaseInv g start st := by
  obtain ⟨st0, hinit, hb0, _⟩ := dijkstra_init_base g start hs
  rw [hinit] at h
  exact dijkstra_after_base g hv start k st0 st hb0 h

end Dijkstra
/-! ## Claims about the trace on every graph -/

namespace Dijkstra

/-- C35: for every graph whose adjacency nodes point to vertices of the graph
(any edge weights) and every valid start vertex, at the head of the main loop
of `dijkstra_shortest_path` the heap never holds more than `n` entries, and
the run ends (any fuel above `n`) with a trace in which: no vertex is pushed
twice and `start`, pushed before the loop (a call that returns `true`), is not
pushed again, so at most `n` pushes are made in all; every `heap_push` and
every `heap_decrease_key` call returned `true`; no vertex is extracted twice;
and the already-visited branch was never taken. -/
theorem dijkstra_pushes_each_vertex_once (g : Graph) (start : Int) (fuel : Nat)
    (hv : g.Valid) (hs : 0 ≤ start ∧ start < g.num_vertices) (hfuel : g.num_vertices < fuel) :
    (∃ h1, heap_push (heap_create g.num_vertices) start 0 = some (true, h1)) ∧
    (∀ k s, (dijkstra_init g start).bind (fun st0 => dijkstra_after g k st0) = some s →
      s.heap.size ≤ g.num_vertices) ∧
    ∃ st, dijkstra_shortest_path fuel g start = some st ∧
      (pushed_vertices st.events).Nodup ∧ start ∉ pushed_vertices st.events ∧
      (pushed_vertices st.events).length + 1 ≤ g.num_vertices ∧
      (∀ v d c p r, Event.updated v d c p r ∈ st.events → r = true) ∧
      (extracted_vertices st.events).Nodup ∧
      (∀ v, Event.skipped v ∉ st.events) := by
  refine ⟨?_, ?_, ?_⟩
  · obtain ⟨h2, hrun, _⟩ := heap_push_total (heap_create g.num_vertices) start 0
      (fun i hi => absurd hi (Nat.not_lt_zero i))
      (by show 0 < g.num_vertices; omega) hs
    exact ⟨h2, hrun⟩
  · intro k s h
    have hb := dijkstra_reached_base g hv start hs k s h
    rw [← hb.capacity_eq]
    exact hb.heap_inv.1.1
  · obtain ⟨st, hrun, _, ht, _⟩ := dijkstra_run_trace g start fuel hv hs hfuel
    have hns : start ∉ pushed_vertices st.events := fun hm => (ht.pushed_found start hm).2.1 rfl
    refine ⟨st, hrun, ht.pushed_nodup, hns, ?_, ht.results, ht.extracted_nodup, ht.no_skip⟩
    have hnd : (start :: pushed_vertices st.events).Nodup :=
      List.nodup_cons.2 ⟨hns, ht.pushed_nodup⟩
    have := length_le_of_nodup_range (start :: pushed_vertices st.events) g.num_vertices hnd
      (by
        intro x hx
        rcases List.mem_cons.1 hx with h | h
        · rw [h]; exact hs
        · exact (ht.pushed_found x h).1)
    simpa using this

/-- Witness of `dijkstra_pushes_each_vertex_once`: the graph of `main`, from
vertex 0. -/
theorem dijkstra_pushes_each_vertex_once_witness :
    main_graph.Valid ∧ ((0 : Int) ≤ 0 ∧ (0 : Int) < main_graph.num_vertices) ∧
      main_graph.num_vertices < 6 ∧
      ((∃ h1, heap_push (heap_create main_graph.num_vertices) 0 0 = some (true, h1)) ∧
      (∀ k s, (dijkstra_init main_graph 0).bind (fun st0 => dijkstra_after main_graph k st0)
          = some s → s.heap.size ≤ main_graph.num_vertices) ∧
      ∃ st, dijkstra_shortest_path 6 main_graph 0 = some st ∧
        (pushed_vertices st.events).Nodup ∧ (0 : Int) ∉ pushed_vertices st.events ∧
        (pushed_vertices st.events).length + 1 ≤ main_graph.num_vertices ∧
        (∀ v d c p r, Event.updated v d c p r ∈ st.events → r = true) ∧
        (extracted_vertices st.events).Nodup ∧
        (∀ v, Event.skipped v ∉ st.events)) :=
  ⟨main_graph_valid, by decide, by decide,
    dijkstra_pushes_each_vertex_once main_graph 0 6 main_graph_valid (by decide) (by decide)⟩

/-- C38: for every graph whose adjacency nodes point to vertices of the graph
(any edge weights) and every valid start vertex, at the head of the main loop
of `dijkstra_shortest_path` every entry `(v, key)` of the heap has
`key == distance[v]`, and when the heap is not empty `heap_pop` returns an
unvisited vertex together with its current distance; in the trace of the whole
run every extraction and every settlement of a vertex `v` carries the value
that `distance[v]` has at the end. -/
theorem heap_keys_equal_distance (g : Graph) (start : Int) (fuel : Nat)
    (hv : g.Valid) (hs : 0 ≤ start ∧ start < g.num_vertices) (hfuel : g.num_vertices < fuel) :
    (∀ k s, (dijkstra_init g start).bind (fun st0 => dijkstra_after g k st0) = some s →
      (∀ e, e ∈ s.heap.entries → s.distance e.vertex = e.distance) ∧
      (s.heap.size ≠ 0 → ∃ u d heap1, heap_pop s.heap = some (some (u, d), heap1) ∧
        s.visited u = false ∧ s.distance u = d)) ∧
    ∃ st, dijkstra_shortest_path fuel g start = some st ∧
      (∀ v d, Event.extracted v d ∈ st.events → st.distance v = d) ∧
      (∀ v d, Event.settled v d ∈ st.events → st.distance v = d) := by
  constructor
  · intro k s h
    have hb := dijkstra_reached_base g hv start hs k s h
    refine ⟨fun e he => (hb.entry_sound e he).2, fun hne => ?_⟩
    obtain ⟨u, d, heap1, hrun, _, huv, hdu, _⟩ := pop_step_base g start s hb hne
    exact ⟨u, d, heap1, hrun, huv, hdu⟩
  · obtain ⟨st, hrun, _, ht, _⟩ := dijkstra_run_trace g start fuel hv hs hfuel
    exact ⟨st, hrun, fun v d h => (ht.extracted_key v d h).2,
      fun v d h => (ht.settled_key v d h).2⟩

/-- Witness of `heap_keys_equal_distance`: the graph of two separate groups,
one with a negative edge, from vertex 0. -/
theorem heap_keys_equal_distance_witness :
    two_group_graph.Valid ∧ ((0 : Int) ≤ 0 ∧ (0 : Int) < two_group_graph.num_vertices) ∧
      two_group_graph.num_vertices < 5 ∧
      ((∀ k s, (dijkstra_init two_group_graph 0).bind
          (fun st0 => dijkstra_after two_group_graph k st0) = some s →
        (∀ e, e ∈ s.heap.entries → s.distance e.vertex = e.distance) ∧
        (s.heap.size ≠ 0 → ∃ u d heap1, heap_pop s.heap = some (some (u, d), heap1) ∧
          s.visited u = false ∧ s.distance u = d)) ∧
      ∃ st, dijkstra_shortest_path 5 two_group_graph 0 = some st ∧
        (∀ v d, Event.extracted v d ∈ st.events → st.distance v = d) ∧
        (∀ v d, Event.settled v d ∈ st.events → st.distance v = d)) :=
  ⟨two_group_graph_valid, by decide, by decide,
    heap_keys_equal_distance two_group_graph 0 5 two_group_graph_valid (by decide) (by decide)⟩

end Dijkstra
/-! ## The trace with non-negative weights: order of settlement, absence of overflow -/

namespace Dijkstra

/-- With non-negative weights and path sums below `INT_MAX`, the sum evaluated
for an edge from the visited vertex `u` to an unvisited vertex is the weight of
a path that repeats no vertex: it lies in `[0, INT_MAX)`. -/
theorem relax_sum_bounds (g : Graph) (hv : g.Valid) (hn : g.NonNegative) (start : Int)
    (hsum : PathSumsBelowMax g start) (st : DState) (u : Int) (e : AdjNode)
    (todo : List AdjNode) (hb : BaseInv g start st) (ho : OptInv g start st u todo)
    (hur : 0 ≤ u ∧ u < g.num_vertices) (huv : st.visited u = true) (he : e ∈ g.array u)
    (hvisf : st.visited e.to_ = false) :
    0 ≤ st.distance u ∧ st.distance u ≤ st.distance u + e.weight ∧
      st.distance u + e.weight < INT_MAX := by
  obtain ⟨vs, ht⟩ := ho.tree u hur.1 hur.2 (hb.visited_found u hur.1 hur.2 huv)
  have hwu := tree_path_walk g start st hb.start_range ho.start_distance u vs ht
  have hwe := Walk.snoc e hwu he
  have h0 := walk_nonneg g hv hn start _ _ _ hwu
  have hw := nonneg_edge g hn u hur e he
  have hnotin : e.to_ ∉ vs := by
    intro hm
    rcases tree_path_visited g start st u vs ht e.to_ hm with h1 | h1
    · rw [h1, huv] at hvisf; exact Bool.noConfusion hvisf
    · rw [h1] at hvisf; exact Bool.noConfusion hvisf
  have hnd : (vs ++ [e.to_]).Nodup := by
    rw [List.nodup_append]
    refine ⟨tree_path_nodup g start st u vs ht, by simp, ?_⟩
    intro a ha hb2
    have : a = e.to_ := by simpa using hb2
    rw [this] at ha
    exact hnotin ha
  exact ⟨h0, by omega, hsum _ _ _ hwe hnd⟩

/-- The body of the inner loop keeps `MonoInv`, given that no settled distance
exceeds the distance of the vertex being scanned. -/
theorem mono_relax_edge (g : Graph) (hv : g.Valid) (hn : g.NonNegative) (start : Int)
    (hsum : PathSumsBelowMax g start) (st st2 : DState) (u : Int) (e : AdjNode)
    (todo : List AdjNode) (hb : BaseInv g start st) (ho : OptInv g start st u todo)
    (hm : MonoInv g st)
    (hbound : ∀ d, d ∈ settled_distances st.events → d ≤ st.distance u)
    (hur : 0 ≤ u ∧ u < g.num_vertices) (huv : st.visited u = true) (he : e ∈ g.array u)
    (hvis2 : st2.visited = st.visited) (hd2 : st2.distance = relax_distance st u e)
    (hev2 : st2.events = st.events ++ relax_events st u e) :
    MonoInv g st2 ∧ ∀ d, d ∈ settled_distances st2.events → d ≤ st2.distance u := by
  have hsd : settled_distances st2.events = settled_distances st.events := by
    rw [hev2, settled_distances_append, relax_events_no_settle, List.append_nil]
  refine ⟨⟨?_, ?_, ?_⟩, ?_⟩
  · rw [hsd]; exact hm.sorted
  · intro d hd x hx0 hx1 hxv
    rw [hsd] at hd
    rw [hvis2] at hxv
    have hold := hm.below d hd x hx0 hx1 hxv
    rw [hd2]
    unfold relax_distance
    split_ifs with h1 h2
    · exact hold
    · rw [Function.update_apply]
      split_ifs with h3
      · have hvisf : st.visited e.to_ = false := by simpa using h1
        obtain ⟨b0, b1, b2⟩ :=
          relax_sum_bounds g hv hn start hsum st u e todo hb ho hur huv he hvisf
        rw [wrap32_eq _ (by omega) b2]
        have := hbound d hd
        omega
      · exact hold
    · exact hold
  · intro c a s hmem
    rw [hev2] at hmem
    rcases List.mem_append.1 hmem with h | h
    · exact hm.sums c a s h
    · obtain ⟨h1, h2⟩ := relax_events_evaluated st u e c a s h
      obtain ⟨b0, b1, b2⟩ := relax_sum_bounds g hv hn start hsum st u e todo hb ho hur huv he h1
      rw [h2]
      exact ⟨by omega, b2⟩
  · intro d hd
    rw [hsd] at hd
    rw [hd2, relax_distance_visited st u e u huv]
    exact hbound d hd

/-- The extraction of the unvisited vertex of least distance keeps `MonoInv`. -/
theorem mono_pop_step (g : Graph) (st : DState) (u d : Int) (heap1 : MinHeap)
    (hm : MonoInv g st) (hur : 0 ≤ u ∧ u < g.num_vertices) (huv : st.visited u = false)
    (hdu : st.distance u = d)
    (hmin : ∀ v : Int, 0 ≤ v → v < g.num_vertices → st.visited v = false → d ≤ st.distance v) :
    MonoInv g
        { st with
          heap := heap1
          visited := Function.update st.visited u true
          events := st.events ++ [Event.extracted u d, Event.settled u d] } ∧
      ∀ d2, d2 ∈ settled_distances (st.events ++ [Event.extracted u d, Event.settled u d]) →
        d2 ≤ st.distance u := by
  have hsd : settled_distances (st.events ++ [Event.extracted u d, Event.settled u d])
      = settled_distances st.events ++ [d] := by
    rw [settled_distances_append]
    simp [settled_distances]
  have hold : ∀ x, x ∈ settled_distances st.events → x ≤ d := by
    intro x hx
    rw [← hdu]
    exact hm.below x hx u hur.1 hur.2 huv
  refine ⟨⟨?_, ?_, ?_⟩, ?_⟩
  · show (settled_distances (st.events ++ _)).Pairwise _
    rw [hsd, List.pairwise_append]
    refine ⟨hm.sorted, List.pairwise_singleton _ _, ?_⟩
    intro a ha b hb
    have : b = d := by simpa using hb
    rw [this]
    exact hold a ha
  · intro d2 hd2 x hx0 hx1 hxv
    have hd3 : d2 ∈ settled_distances (st.events ++ [Event.extracted u d, Event.settled u d]) :=
      hd2
    have hxv2 : Function.update st.visited u true x = false := hxv
    have hxu : x ≠ u := by
      intro hc
      rw [hc, Function.update_same] at hxv2
      exact Bool.noConfusion hxv2
    rw [Function.update_noteq hxu] at hxv2
    show d2 ≤ st.distance x
    rw [hsd] at hd3
    rcases List.mem_append.1 hd3 with h | h
    · exact hm.below d2 h x hx0 hx1 hxv2
    · have : d2 = d := by simpa using h
      rw [this]
      exact hmin x hx0 hx1 hxv2
  · intro c a s hmem
    have hmem2 : Event.evaluated c a s ∈ st.events ++ [Event.extracted u d, Event.settled u d] :=
      hmem
    rcases List.mem_append.1 hmem2 with h | h
    · exact hm.sums c a s h
    · simp at h
  · intro d2 hd2
    rw [hsd] at hd2
    rcases List.mem_append.1 hd2 with h | h
    · rw [hdu]; exact hold d2 h
    · have : d2 = d := by simpa using h
      rw [this, hdu]

theorem mono_step (g : Graph) (hv : g.Valid) (hn : g.NonNegative) (start : Int)
    (hsum : PathSumsBelowMax g start) (st : DState) (u d : Int) (heap1 : MinHeap)
    (hb : BaseInv g start st) (c : Int) (ho : OptInv g start st c [])
    (ht : TraceInv g start st) (hm : MonoInv g st)
    (hrun : heap_pop st.heap = some (some (u, d), heap1))
    (hur : 0 ≤ u ∧ u < g.num_vertices) (huv : st.visited u = false) :
    ∃ st2, relax_neighbors g.num_vertices u (g.array u)
        { st with
          heap := heap1
          visited := Function.update st.visited u true
          events := st.events ++ [Event.extracted u d, Event.settled u d] } = some st2 ∧
      (BaseInv g start st2 ∧ (∃ c2, OptInv g start st2 c2 []) ∧ TraceInv g start st2 ∧
        MonoInv g st2) ∧
      st2.visited = Function.update st.visited u true := by
  obtain ⟨hdu, _, hmin, hb1⟩ := pop_step_base_of_eq g start st hb u d heap1 hrun
  have ho1 := opt_pop_step g hv hn start st c u heap1
    (st.events ++ [Event.extracted u d, Event.settled u d]) ho (by rw [hdu]; exact hmin)
  have ht1 := trace_pop_step g start st u d heap1 ht huv hdu
  obtain ⟨hm1, hbd1⟩ := mono_pop_step g st u d heap1 hm hur huv hdu hmin
  have := relax_neighbors_invariant g.num_vertices u
    (fun todo s => BaseInv g start s ∧ OptInv g start s u todo ∧ TraceInv g start s ∧
      MonoInv g s ∧ (∀ x, x ∈ settled_distances s.events → x ≤ s.distance u) ∧
      s.visited = Function.update st.visited u true ∧ ∀ e, e ∈ todo → e ∈ g.array u)
    (by
      intro e rest s ⟨hbs, hos, hts, hms, hbds, hvs, hsub⟩
      have huv2 : s.visited u = true := by rw [hvs]; simp
      have hem := hsub e (List.mem_cons_self _ _)
      obtain ⟨s2, hr, hb2, hv2, hd2, hp2, hev2⟩ :=
        relax_edge_trace g hv start s hbs u e hur huv2 hem
      obtain ⟨hm2, hbd2⟩ := mono_relax_edge g hv hn start hsum s s2 u e (e :: rest) hbs hos hms
        hbds hur huv2 hem hv2 hd2 hev2
      exact ⟨s2, hr, hb2,
        opt_relax_edge g hv hn start hsum s s2 u e rest hbs hos hur huv2 hem hv2 hd2 hp2,
        trace_relax_edge g start s s2 u e hbs hts (valid_edge g hv u hur e hem) hv2 hd2 hev2,
        hm2, hbd2, hv2.trans hvs, fun x hx => hsub x (List.mem_cons_of_mem _ hx)⟩)
    (g.array u) _ ⟨hb1 _, ho1, ht1, hm1, hbd1, rfl, fun e he => he⟩
  obtain ⟨st2, hr, hb2, ho2, ht2, hm2, _, hv2, _⟩ := this
  exact ⟨st2, hr, ⟨hb2, ⟨u, ho2⟩, ht2, hm2⟩, hv2⟩

/-- The outcome of the main loop on a graph with non-negative weights and path
sums below `INT_MAX`, with the invariants of its trace. -/
theorem dijkstra_run_mono (g : Graph) (start : Int) (fuel : Nat) (hv : g.Valid)
    (hn : g.NonNegative) (hs : 0 ≤ start ∧ start < g.num_vertices)
    (hsum : PathSumsBelowMax g start) (hfuel : g.num_vertices < fuel) :
    ∃ st c, dijkstra_shortest_path fuel g start = some st ∧ BaseInv g start st ∧
      OptInv g start st c [] ∧ TraceInv g start st ∧ MonoInv g st ∧ st.heap.size = 0 := by
  obtain ⟨st0, hinit, hb0, hvis0, hd0, hp0⟩ := dijkstra_init_base g start hs
  have hev0 := dijkstra_init_events g start st0 hinit
  have ho0 := dijkstra_init_opt g start st0 hvis0 hd0 hp0
  have hm0 : MonoInv g st0 := by
    refine ⟨?_, ?_, ?_⟩
    · rw [hev0]; simp [settled_distances]
    · rw [hev0]; simp [settled_distances]
    · rw [hev0]; simp
  obtain ⟨st, hrun, ⟨hb, ⟨c, ho⟩, ht, hm⟩, hz⟩ := dijkstra_loop_invariant g start
    (fun s => BaseInv g start s ∧ (∃ c, OptInv g start s c []) ∧ TraceInv g start s ∧
      MonoInv g s)
    (fun _ h => h.1)
    (fun s u d heap1 hj hr hur huv => by
      obtain ⟨hbs, ⟨c, hos⟩, hts, hms⟩ := hj
      exact mono_step g hv hn start hsum s u d heap1 hbs c hos hts hms hr hur huv)
    fuel st0 ⟨hb0, ⟨0, ho0⟩, dijkstra_init_trace g start st0 hev0 hd0, hm0⟩
    (lt_of_le_of_lt (by rw [hvis0]; exact unvisited_count_le _ _) hfuel)
  exact ⟨st, c, by simp [dijkstra_shortest_path, hinit, hrun], hb, ho, ht, hm, hz⟩

end Dijkstra
/-! ## Claims about the trace with non-negative weights -/

namespace Dijkstra

theorem mem_le_sum_of_nonneg (l : List Int) (h0 : ∀ x, x ∈ l → 0 ≤ x) :
    0 ≤ l.sum ∧ ∀ x, x ∈ l → x ≤ l.sum := by
  induction l with
  | nil => exact ⟨le_refl _, fun x hx => absurd hx (List.not_mem_nil x)⟩
  | cons a l ih =>
    obtain ⟨h1, h2⟩ := ih (fun x hx => h0 x (List.mem_cons_of_mem _ hx))
    have ha := h0 a (List.mem_cons_self _ _)
    rw [List.sum_cons]
    refine ⟨by omega, ?_⟩
    intro x hx
    rcases List.mem_cons.1 hx with h | h
    · rw [h]; omega
    · have := h2 x h
      omega

theorem sum_nodup_le_sum_range (f : Int → Int) : ∀ (n : Nat) (l : List Int), l.Nodup →
    (∀ x, x ∈ l → 0 ≤ x ∧ x < n) → (∀ i : Nat, i < n → 0 ≤ f i) →
    (l.map f).sum ≤ ((List.range n).map fun (i : Nat) => f (i : Int)).sum := by
  intro n
  induction n with
  | zero =>
    intro l _ hr _
    cases l with
    | nil => simp
    | cons a l =>
      have := hr a (List.mem_cons_self _ _)
      simp at this
      omega
  | succ n ih =>
    intro l hnd hr hf
    rw [List.range_succ, List.map_append, List.sum_append]
    simp only [List.map_cons, List.map_nil, List.sum_cons, List.sum_nil, add_zero]
    have hfn := hf n (Nat.lt_succ_self n)
    by_cases hm : (n : Int) ∈ l
    · have hp := List.perm_cons_erase hm
      have hs : (l.map f).sum = f n + ((l.erase (n : Int)).map f).sum := by
        rw [(hp.map f).sum_eq]
        simp
      have hnd2 : (l.erase (n : Int)).Nodup := hnd.erase _
      have := ih (l.erase (n : Int)) hnd2
        (by
          intro x hx
          have hx1 := List.mem_of_mem_erase hx
          have hx2 : x ≠ (n : Int) := fun hc => by
            rw [hc] at hx
            exact (List.Nodup.not_mem_erase hnd) hx
          have := hr x hx1
          push_cast at this
          omega)
        (fun i hi => hf i (by omega))
      omega
    · have := ih l hnd
        (by
          intro x hx
          have hx2 : x ≠ (n : Int) := fun hc => hm (hc ▸ hx)
          have := hr x hx
          push_cast at this
          omega)
        (fun i hi => hf i (by omega))
      omega

/-- With non-negative weights, a path weighs at most the sum, over its vertices
but the last, of the weights of their adjacency lists. -/
theorem walk_weight_le_out_sums (g : Graph) (hv : g.Valid) (hn : g.NonNegative)
    (start v : Int) (vs : List Int) (W : Int) (hw : Walk g start v vs W) :
    ∃ init, vs = init ++ [v] ∧
      W ≤ (init.map fun x => ((g.array x).map AdjNode.weight).sum).sum := by
  induction hw with
  | nil _ _ => exact ⟨[], rfl, by simp⟩
  | @snoc u vs W e hw he ih =>
    obtain ⟨init, hvs, hW⟩ := ih
    refine ⟨vs, rfl, ?_⟩
    have hur := walk_range g hv start u vs W hw
    have hle : e.weight ≤ ((g.array u).map AdjNode.weight).sum :=
      (mem_le_sum_of_nonneg _ (by
        intro x hx
        obtain ⟨e2, he2, rfl⟩ := List.mem_map.1 hx
        exact nonneg_edge g hn u hur e2 he2)).2 _ (List.mem_map_of_mem _ he)
    rw [hvs, List.map_append, List.sum_append]
    simp only [List.map_cons, List.map_nil, List.sum_cons, List.sum_nil, add_zero]
    omega

/-- With non-negative weights, a path that repeats no vertex weighs at most the
sum of all edge weights of the graph. -/
theorem walk_weight_le_total (g : Graph) (hv : g.Valid) (hn : g.NonNegative)
    (start v : Int) (vs : List Int) (W : Int) (hw : Walk g start v vs W) (hnd : vs.Nodup) :
    W ≤ g.total_weight := by
  obtain ⟨init, hvs, hW⟩ := walk_weight_le_out_sums g hv hn start v vs W hw
  have hr := walk_vertices_range g hv start v vs W hw
  rw [hvs] at hnd hr
  have h1 := sum_nodup_le_sum_range (fun x => ((g.array x).map AdjNode.weight).sum)
    g.num_vertices init (List.Nodup.of_append_left hnd)
    (fun x hx => hr x (List.mem_append_left _ hx))
    (fun i hi => (mem_le_sum_of_nonneg _ (by
      intro x hx
      obtain ⟨e2, he2, rfl⟩ := List.mem_map.1 hx
      exact hn i (List.mem_range.2 hi) e2 he2)).1)
  exact le_trans hW h1

theorem path_sums_below_of_total (g : Graph) (hv : g.Valid) (hn : g.NonNegative) (start : Int)
    (ht : g.total_weight < INT_MAX) : PathSumsBelowMax g start := by
  intro v vs W hw hnd
  exact lt_of_le_of_lt (walk_weight_le_total g hv hn start v vs W hw hnd) ht

/-- C39, as stated, fails: non-negative weights alone do not suffice.  On the
graph with the edges `0→1` of weight 2147483646 and `1→2` of weight 2, the sum
`distance[1] + 2` exceeds `INT_MAX` and its 32-bit value is `-2147483648`: the
vertices are settled at the distances `0`, `2147483646`, `-2147483648`, which
is not a non-decreasing sequence. -/
theorem settled_distances_decrease_on_overflow :
    overflow_graph.Valid ∧ overflow_graph.NonNegative ∧
      ∃ st, dijkstra_shortest_path 4 overflow_graph 0 = some st ∧
        settled_distances st.events = [0, 2147483646, -2147483648] ∧
        ¬ (settled_distances st.events).Pairwise (fun a b => a ≤ b) :=
  ⟨by unfold Graph.Valid; decide, by unfold Graph.NonNegative; decide,
    _, rfl, by decide, by decide⟩

/-- C39, amended: for a graph with non-negative edge weights whose repeat-free
path sums from `start` stay below `INT_MAX` (so that no addition overflows), the
run of `dijkstra_shortest_path` ends (any fuel above `n`), the distances
printed when vertices are settled form a non-decreasing sequence in extraction
order, no update of a vertex is recorded after the vertex was settled, and the
distance of every settled vertex at the end is the one it was settled with. -/
theorem settled_distances_non_decreasing (g : Graph) (start : Int) (fuel : Nat)
    (hv : g.Valid) (hn : g.NonNegative) (hs : 0 ≤ start ∧ start < g.num_vertices)
    (hsum : PathSumsBelowMax g start) (hfuel : g.num_vertices < fuel) :
    ∃ st, dijkstra_shortest_path fuel g start = some st ∧
      (settled_distances st.events).Pairwise (fun a b => a ≤ b) ∧
      Frozen st.events ∧
      ∀ v d, Event.settled v d ∈ st.events → st.distance v = d := by
  obtain ⟨st, c, hrun, _, _, ht, hm, _⟩ := dijkstra_run_mono g start fuel hv hn hs hsum hfuel
  exact ⟨st, hrun, hm.sorted, ht.frozen, fun v d h => (ht.settled_key v d h).2⟩

/-- Witness of `settled_distances_non_decreasing`: the graph of `main`, from
vertex 0. -/
theorem settled_distances_non_decreasing_witness :
    main_graph.Valid ∧ main_graph.NonNegative ∧
      ((0 : Int) ≤ 0 ∧ (0 : Int) < main_graph.num_vertices) ∧ PathSumsBelowMax main_graph 0 ∧
      main_graph.num_vertices < 6 ∧
      ∃ st, dijkstra_shortest_path 6 main_graph 0 = some st ∧
        (settled_distances st.events).Pairwise (fun a b => a ≤ b) ∧
        Frozen st.events ∧
        ∀ v d, Event.settled v d ∈ st.events → st.distance v = d :=
  ⟨main_graph_valid, main_graph_non_negative, by decide, main_graph_path_sums, by decide,
    settled_distances_non_decreasing main_graph 0 6 main_graph_valid main_graph_non_negative
      (by decide) main_graph_path_sums (by decide)⟩

/-- C40: if the adjacency nodes point to vertices of the graph, all edge
weights are non-negative and the sum of all edge weights is less than
`INT_MAX`, then the run of `dijkstra_shortest_path` from a valid start vertex
ends (any fuel above `n`), every sum `distance[current_vertex] + edge_weight`
it evaluates lies in `[0, INT_MAX)`, hence is representable and equal to its
32-bit value, and every vertex reachable from `start` ends with a distance
below `INF`. -/
theorem no_overflow_when_total_below_max (g : Graph) (start : Int) (fuel : Nat)
    (hv : g.Valid) (hn : g.NonNegative) (hs : 0 ≤ start ∧ start < g.num_vertices)
    (ht : g.total_weight < INT_MAX) (hfuel : g.num_vertices < fuel) :
    ∃ st, dijkstra_shortest_path fuel g start = some st ∧
      (∀ c a s, Event.evaluated c a s ∈ st.events → 0 ≤ s ∧ s < INT_MAX ∧ wrap32 s = s) ∧
      ∀ v, Reachable g start v → st.distance v < INF ∧ st.distance v ≠ INF := by
  have hsum := path_sums_below_of_total g hv hn start ht
  obtain ⟨st, c, hrun, hb, ho, _, hm, hz⟩ := dijkstra_run_mono g start fuel hv hn hs hsum hfuel
  refine ⟨st, hrun, ?_, ?_⟩
  · intro c2 a s h
    obtain ⟨h0, h1⟩ := hm.sums c2 a s h
    exact ⟨h0, h1, wrap32_eq s h0 h1⟩
  · rintro v ⟨vs, W, hw⟩
    have hvr := walk_range g hv start v vs W hw
    have hvis := (final_closed g hv start hsum st c hb ho hz v vs W hw).1
    have := hb.visited_found v hvr.1 hvr.2 hvis
    exact ⟨this, ne_of_lt this⟩

/-- Witness of `no_overflow_when_total_below_max`: the graph of `main`, whose
edge weights add up to 26, from vertex 0. -/
theorem no_overflow_when_total_below_max_witness :
    main_graph.Valid ∧ main_graph.NonNegative ∧
      ((0 : Int) ≤ 0 ∧ (0 : Int) < main_graph.num_vertices) ∧
      main_graph.total_weight < INT_MAX ∧ main_graph.num_vertices < 6 ∧
      ∃ st, dijkstra_shortest_path 6 main_graph 0 = some st ∧
        (∀ c a s, Event.evaluated c a s ∈ st.events → 0 ≤ s ∧ s < INT_MAX ∧ wrap32 s = s) ∧
        ∀ v, Reachable main_graph 0 v → st.distance v < INF ∧ st.distance v ≠ INF :=
  ⟨main_graph_valid, main_graph_non_negative, by decide, by decide, by decide,
    no_overflow_when_total_below_max main_graph 0 6 main_graph_valid main_graph_non_negative
      (by decide) (by decide) (by decide)⟩

end Dijkstra
